import Mathlib

/-!
Verification of the graph-stuff repository: adjacency-matrix and adjacency-list
graphs, BFS/DFS traversal, Dijkstra shortest paths, Tarjan SCCs and transitive
closure, shallowly embedded from the Rust sources.
-/

namespace GraphStuff

/-- Mirrors calc_2d_to_1d in mtx_graph/graph.rs: row-major flat index. -/
def calc2dTo1d (x y len : Nat) : Nat := x * len + y

/-- Mirrors mtx_graph::graph::Graph: node count, flat row-major weight matrix
(0 means no edge), stored node values, and the value-to-index lookup
(a HashMap modelled as an association list where insertion shadows older
entries, which matches HashMap insert semantics for lookup). -/
structure MtxGraph (T : Type) where
  n : Nat
  mtx : List Nat
  vals : List T
  nodeMap : List (T × Nat)

/-- Mirrors Graph::default. -/
def MtxGraph.empty (T : Type) : MtxGraph T := ⟨0, [], [], []⟩

variable {T : Type}

/-- Mirrors Graph::add_edge_weight: mtx[x*n+y] = weight. List.set is a no-op
out of range, where the Rust indexing would panic; the claims stay in range. -/
def addEdgeWeight (g : MtxGraph T) (x y w : Nat) : MtxGraph T :=
  { g with mtx := g.mtx.set (calc2dTo1d x y g.n) w }

/-- Mirrors Graph::add_node: bumps n, appends n^2 - (n-1)^2 zero cells at the
end of the flat matrix, stores the value, and returns the new index n-1. -/
def addNode (g : MtxGraph T) (val : T) : Nat × MtxGraph T :=
  let n := g.n + 1
  let ncells := n ^ 2 - (n - 1) ^ 2
  (n - 1,
    { n := n
      mtx := g.mtx ++ List.replicate ncells 0
      vals := g.vals ++ [val]
      nodeMap := (val, n - 1) :: g.nodeMap })

/-- Mirrors Graph::<T>::add_edge (undirected, unweighted). -/
def addEdgeUU (g : MtxGraph T) (x y : Nat) : MtxGraph T :=
  addEdgeWeight (addEdgeWeight g x y 1) y x 1

/-- Mirrors Graph::<T, Directed, Unweighted>::add_edge. -/
def addEdgeDU (g : MtxGraph T) (x y : Nat) : MtxGraph T :=
  addEdgeWeight g x y 1

/-- Mirrors Graph::<T, Undirected, Weighted>::add_edge. -/
def addEdgeUW (g : MtxGraph T) (x y w : Nat) : MtxGraph T :=
  addEdgeWeight (addEdgeWeight g x y w) y x w

/-- Mirrors Graph::<T, Directed, Weighted>::add_edge. -/
def addEdgeDW (g : MtxGraph T) (x y w : Nat) : MtxGraph T :=
  addEdgeWeight g x y w

/-- Mirrors Graph::edges: the slice mtx[idx*n .. idx*n+n]. -/
def edgesRow (g : MtxGraph T) (idx : Nat) : List Nat :=
  (g.mtx.drop (idx * g.n)).take g.n

/-- Mirrors Graph::has_edge: mtx[x*n+y] > 0. -/
def hasEdge (g : MtxGraph T) (x y : Nat) : Bool :=
  decide (0 < g.mtx.getD (calc2dTo1d x y g.n) 0)

/-- Mirrors Graph::edge_weight. -/
def edgeWeight (g : MtxGraph T) (x y : Nat) : Nat :=
  g.mtx.getD (calc2dTo1d x y g.n) 0

/-- Well-formedness: the flat matrix really is n by n.  This holds for every
graph built by interleaving add_node and add_edge calls with in-range
indices. -/
def MtxWf (g : MtxGraph T) : Prop := g.mtx.length = g.n * g.n

theorem mtxWf_empty : MtxWf (MtxGraph.empty T) := rfl

theorem mtxWf_addEdgeWeight (g : MtxGraph T) (x y w : Nat) (h : MtxWf g) :
    MtxWf (addEdgeWeight g x y w) := by
  simpa [MtxWf, addEdgeWeight] using h

theorem mtxWf_addNode (g : MtxGraph T) (val : T) (h : MtxWf g) :
    MtxWf (addNode g val).2 := by
  simp only [MtxWf, addNode, List.length_append, List.length_replicate] at h ⊢
  have h1 : g.n + 1 - 1 = g.n := rfl
  rw [h, h1]
  have h2 : g.n * g.n ≤ (g.n + 1) ^ 2 := by nlinarith
  simp only [pow_two] at h2 ⊢
  omega

/-! Generic lazy traversal machinery shared by the three iterators
(mtx_graph::iter::BFS, mtx_graph::iter::DFS, list_graph::iter::BFS).
Each iterator keeps a frontier and a visited set; a next() call pops one
frontier element, pushes its not-yet-visited successors (marking them
visited) and yields the popped element.  The DFS frontier is a stack
(modelled with its top at the list head), the BFS frontier a queue. -/

/-- Iterator state: the frontier and the visited set (a HashSet modelled as a
duplicate-free list, only membership is ever queried). -/
structure TravState where
  frontier : List Nat
  visited : List Nat

/-- Mirrors the neighbor loop of next(): fold the candidate successors,
pushing each unvisited one with the frontier-push function pf and marking it
visited.  Visited insertion is modelled by appending. -/
def visitFold (pf : List Nat → Nat → List Nat) (cands : List Nat)
    (fr vis : List Nat) : List Nat × List Nat :=
  cands.foldl (fun s c => if c ∈ s.2 then s else (pf s.1 c, s.2 ++ [c])) (fr, vis)

/-- The sublist of candidates that are new relative to the visited list,
in candidate order, with duplicates collapsed. -/
def newOnes (cands vis : List Nat) : List Nat :=
  match cands with
  | [] => []
  | c :: cs => if c ∈ vis then newOnes cs vis else c :: newOnes cs (vis ++ [c])

/-- Mirrors BFS/DFS next(): pop the frontier head, push unvisited successors. -/
def travStep (pf : List Nat → Nat → List Nat) (succs : Nat → List Nat)
    (st : TravState) : Option (Nat × TravState) :=
  match st.frontier with
  | [] => none
  | x :: rest =>
      let s := visitFold pf (succs x) rest st.visited
      some (x, ⟨s.1, s.2⟩)

/-- Mirrors BFS::new / DFS::new: frontier seeded with start, start visited. -/
def travInit (start : Nat) : TravState := ⟨[start], [start]⟩

/-- Drive an iterator to exhaustion (or until fuel runs out), collecting the
yielded items in order. -/
def travRun (step : TravState → Option (Nat × TravState)) :
    Nat → TravState → List Nat × TravState
  | 0, st => ([], st)
  | fuel + 1, st =>
    match step st with
    | none => ([], st)
    | some (x, st1) =>
      let r := travRun step fuel st1
      (x :: r.1, r.2)

/-- BFS pushes to the back of the frontier queue. -/
def pushBack (l : List Nat) (c : Nat) : List Nat := l ++ [c]

/-- DFS pushes onto the top of the frontier stack (list head). -/
def pushFront (l : List Nat) (c : Nat) : List Nat := c :: l

theorem newOnes_sound {cands vis : List Nat} :
    ∀ y, y ∈ newOnes cands vis ↔ y ∈ cands ∧ y ∉ vis := by
  induction cands generalizing vis with
  | nil => simp [newOnes]
  | cons c cs ih =>
    intro y
    by_cases hc : c ∈ vis
    · simp only [newOnes, if_pos hc, ih, List.mem_cons]
      constructor
      · rintro ⟨h1, h2⟩; exact ⟨Or.inr h1, h2⟩
      · rintro ⟨h1 | h1, h2⟩
        · exact absurd (h1 ▸ hc) h2
        · exact ⟨h1, h2⟩
    · simp only [newOnes, if_neg hc, List.mem_cons, ih, List.mem_append,
        List.mem_singleton]
      constructor
      · rintro (rfl | ⟨h1, h2⟩)
        · exact ⟨Or.inl rfl, hc⟩
        · push_neg at h2
          exact ⟨Or.inr h1, h2.1⟩
      · rintro ⟨rfl | h1, h2⟩
        · exact Or.inl rfl
        · by_cases hyc : y = c
          · exact Or.inl hyc
          · refine Or.inr ⟨h1, ?_⟩
            push_neg
            exact ⟨h2, hyc, by simp⟩

theorem newOnes_nodup {cands vis : List Nat} : (newOnes cands vis).Nodup := by
  induction cands generalizing vis with
  | nil => simp [newOnes]
  | cons c cs ih =>
    by_cases hc : c ∈ vis
    · simpa [newOnes, if_pos hc] using ih
    · simp only [newOnes, if_neg hc, List.nodup_cons]
      refine ⟨fun hmem => ?_, ih⟩
      have := (@newOnes_sound cs (vis ++ [c]) c).mp hmem
      simp at this

theorem visitFold_eq (pf : List Nat → Nat → List Nat) (cands fr vis : List Nat) :
    visitFold pf cands fr vis =
      ((newOnes cands vis).foldl pf fr, vis ++ newOnes cands vis) := by
  induction cands generalizing fr vis with
  | nil => simp [visitFold, newOnes]
  | cons c cs ih =>
    by_cases hc : c ∈ vis
    · simpa [visitFold, newOnes, if_pos hc, List.foldl_cons] using ih fr vis
    · have h2 := ih (pf fr c) (vis ++ [c])
      simp only [visitFold] at h2
      simp only [visitFold, List.foldl_cons, if_neg hc, newOnes]
      rw [h2]
      simp [List.append_assoc]

/-- One-step successor relation underlying a traversal. -/
def SuccRel (succs : Nat → List Nat) (a b : Nat) : Prop := b ∈ succs a

/-- Reachability in zero or more successor steps. -/
def Reach (succs : Nat → List Nat) : Nat → Nat → Prop :=
  Relation.ReflTransGen (SuccRel succs)

/-- Reachability in one or more successor steps. -/
def ReachPos (succs : Nat → List Nat) : Nat → Nat → Prop :=
  Relation.TransGen (SuccRel succs)

/-- The traversal invariant relating the items emitted so far to the iterator
state: the visited set is exactly emitted plus frontier, nothing is ever
duplicated, everything visited is reachable from start, and every emitted
node has all its successors visited. -/
structure TravInv (succs : Nat → List Nat) (start : Nat)
    (emitted : List Nat) (st : TravState) : Prop where
  vis_iff : ∀ v, v ∈ st.visited ↔ v ∈ emitted ++ st.frontier
  nodup : (emitted ++ st.frontier).Nodup
  vis_nodup : st.visited.Nodup
  reach : ∀ v ∈ st.visited, Reach succs start v
  closed : ∀ x ∈ emitted, ∀ y ∈ succs x, y ∈ st.visited
  start_vis : start ∈ st.visited

theorem travInv_init (succs : Nat → List Nat) (start : Nat) :
    TravInv succs start [] (travInit start) := by
  refine ⟨by simp [travInit], by simp [travInit], by simp [travInit],
    ?_, by simp, by simp [travInit]⟩
  intro v hv
  simp [travInit] at hv
  subst hv
  exact Relation.ReflTransGen.refl

theorem foldl_pf_perm (pf : List Nat → Nat → List Nat)
    (hpf : ∀ l c, List.Perm (pf l c) (c :: l)) (l : List Nat) :
    ∀ fr, List.Perm (l.foldl pf fr) (fr ++ l) := by
  induction l with
  | nil => simp
  | cons c cs ih =>
    intro fr
    have h1 : (c :: cs).foldl pf fr = cs.foldl pf (pf fr c) := by simp
    rw [h1]
    exact ((ih (pf fr c)).trans ((hpf fr c).append_right cs)).trans
      List.perm_middle.symm

theorem travStep_none_iff (pf : List Nat → Nat → List Nat)
    (succs : Nat → List Nat) (st : TravState) :
    travStep pf succs st = none ↔ st.frontier = [] := by
  cases h : st.frontier with
  | nil => simp [travStep, h]
  | cons x rest => simp [travStep, h]

/-- The successor state of one traversal step, written out explicitly. -/
def travNext (pf : List Nat → Nat → List Nat) (succs : Nat → List Nat)
    (x : Nat) (rest vis : List Nat) : TravState :=
  ⟨(newOnes (succs x) vis).foldl pf rest, vis ++ newOnes (succs x) vis⟩

theorem travStep_eq_some (pf : List Nat → Nat → List Nat)
    (succs : Nat → List Nat) (st : TravState) (x : Nat) (rest : List Nat)
    (hfr : st.frontier = x :: rest) :
    travStep pf succs st = some (x, travNext pf succs x rest st.visited) := by
  simp [travStep, hfr, visitFold_eq, travNext]

theorem travInv_step (pf : List Nat → Nat → List Nat)
    (hpf : ∀ l c, List.Perm (pf l c) (c :: l))
    (succs : Nat → List Nat) (start : Nat) (em : List Nat) (st : TravState)
    (x : Nat) (rest : List Nat) (hinv : TravInv succs start em st)
    (hfr : st.frontier = x :: rest) :
    TravInv succs start (em ++ [x]) (travNext pf succs x rest st.visited) := by
  unfold travNext
  · set Delta := newOnes (succs x) st.visited with hD
    have hfrperm : List.Perm ((Delta).foldl pf rest) (rest ++ Delta) :=
      foldl_pf_perm pf hpf Delta rest
    have hDnew : ∀ y, y ∈ Delta ↔ y ∈ succs x ∧ y ∉ st.visited := fun y => newOnes_sound y
    have hDnodup : Delta.Nodup := newOnes_nodup
    have hx_vis : x ∈ st.visited := (hinv.vis_iff x).mpr (by simp [hfr])
    -- membership in the new frontier, up to permutation
    have hmem_fr1 : ∀ v, v ∈ (Delta).foldl pf rest ↔ v ∈ rest ∨ v ∈ Delta := by
      intro v
      rw [hfrperm.mem_iff]
      simp [List.mem_append]
    refine ⟨?_, ?_, ?_, ?_, ?_, ?_⟩
    · intro v
      simp only [List.mem_append, List.mem_singleton, hmem_fr1]
      have := hinv.vis_iff v
      simp only [hfr, List.mem_append, List.mem_cons] at this
      constructor
      · intro hv
        rcases hv with hv | hv
        · rcases this.mp hv with h | h | h
          · exact Or.inl (Or.inl h)
          · exact Or.inl (Or.inr h)
          · exact Or.inr (Or.inl h)
        · exact Or.inr (Or.inr hv)
      · rintro ((h | rfl) | h | h)
        · exact Or.inl (this.mpr (Or.inl h))
        · exact Or.inl hx_vis
        · exact Or.inl (this.mpr (Or.inr (Or.inr h)))
        · exact Or.inr h
    · -- Nodup of (em ++ [x]) ++ new frontier
      have hnd : ((em ++ x :: rest) ++ Delta).Nodup := by
        rw [List.nodup_append]
        refine ⟨by simpa [hfr] using hinv.nodup, hDnodup, ?_⟩
        intro a ha hab
        have hav : a ∈ st.visited := (hinv.vis_iff a).mpr (by simpa [hfr] using ha)
        exact ((hDnew a).mp hab).2 hav
      have hp : List.Perm ((em ++ [x]) ++ (Delta).foldl pf rest)
          ((em ++ x :: rest) ++ Delta) := by
        refine (hfrperm.append_left (em ++ [x])).trans ?_
        have he : (em ++ [x]) ++ (rest ++ Delta) = (em ++ x :: rest) ++ Delta := by
          simp
        rw [he]
      exact (hp.nodup_iff).mpr hnd
    · rw [List.nodup_append]
      refine ⟨hinv.vis_nodup, hDnodup, ?_⟩
      intro a ha hab
      exact ((hDnew a).mp hab).2 ha
    · intro v hv
      rcases List.mem_append.mp hv with hv | hv
      · exact hinv.reach v hv
      · have h1 := (hDnew v).mp hv
        exact Relation.ReflTransGen.tail (hinv.reach x hx_vis) h1.1
    · intro a ha y hy
      rcases List.mem_append.mp ha with ha | ha
      · exact List.mem_append.mpr (Or.inl (hinv.closed a ha y hy))
      · have : a = x := by simpa using ha
        subst this
        by_cases hyv : y ∈ st.visited
        · exact List.mem_append.mpr (Or.inl hyv)
        · exact List.mem_append.mpr (Or.inr ((hDnew y).mpr ⟨hy, hyv⟩))
    · exact List.mem_append.mpr (Or.inl hinv.start_vis)

theorem nodup_lt_length_le {l : List Nat} {n : Nat} (hnd : l.Nodup)
    (hlt : ∀ v ∈ l, v < n) : l.length ≤ n := by
  classical
  have h1 : l.toFinset ⊆ Finset.range n := by
    intro a ha
    simp only [List.mem_toFinset] at ha
    simpa using hlt a ha
  have h2 := Finset.card_le_card h1
  rwa [List.toFinset_card_of_nodup hnd, Finset.card_range] at h2

/-- Termination measure for a traversal over at most bound distinct nodes. -/
def travMeasure (bound : Nat) (st : TravState) : Nat :=
  2 * (bound - st.visited.length) + st.frontier.length

theorem travRun_spec (pf : List Nat → Nat → List Nat)
    (hpf : ∀ l c, List.Perm (pf l c) (c :: l))
    (succs : Nat → List Nat) (start bound : Nat)
    (hsucc : ∀ a b, b ∈ succs a → b < bound) :
    ∀ fuel (em : List Nat) (st : TravState), TravInv succs start em st →
      (∀ v ∈ st.visited, v < bound) → travMeasure bound st < fuel →
      TravInv succs start (em ++ (travRun (travStep pf succs) fuel st).1)
          (travRun (travStep pf succs) fuel st).2 ∧
        (travRun (travStep pf succs) fuel st).2.frontier = [] := by
  intro fuel
  induction fuel with
  | zero =>
    intro em st _ _ h
    exact absurd h (Nat.not_lt_zero _)
  | succ f ih =>
    intro em st hinv hbound hm
    cases hfr : st.frontier with
    | nil =>
      have hs : travStep pf succs st = none :=
        (travStep_none_iff pf succs st).mpr hfr
      simp only [travRun, hs]
      exact ⟨by simpa using hinv, hfr⟩
    | cons x rest =>
      have hs := travStep_eq_some pf succs st x rest hfr
      have hinv1 := travInv_step pf hpf succs start em st x rest hinv hfr
      have hb1 : ∀ v ∈ (travNext pf succs x rest st.visited).visited, v < bound := by
        intro v hv
        simp only [travNext] at hv
        rcases List.mem_append.mp hv with hv | hv
        · exact hbound v hv
        · exact hsucc x v ((newOnes_sound v).mp hv).1
      have hlen_vis1 : (travNext pf succs x rest st.visited).visited.length =
          st.visited.length + (newOnes (succs x) st.visited).length := by
        simp [travNext]
      have hlen_fr1 : (travNext pf succs x rest st.visited).frontier.length =
          rest.length + (newOnes (succs x) st.visited).length := by
        have hp := (foldl_pf_perm pf hpf (newOnes (succs x) st.visited) rest).length_eq
        simp only [travNext]
        simp [hp]
      have hv1le : (travNext pf succs x rest st.visited).visited.length ≤ bound :=
        nodup_lt_length_le hinv1.vis_nodup hb1
      have hm1 : travMeasure bound (travNext pf succs x rest st.visited) < f := by
        simp only [travMeasure] at hm ⊢
        rw [hlen_vis1, hlen_fr1]
        rw [hlen_vis1] at hv1le
        rw [hfr] at hm
        simp only [List.length_cons] at hm
        omega
      have hrec := ih (em ++ [x]) (travNext pf succs x rest st.visited) hinv1 hb1 hm1
      simp only [travRun, hs]
      constructor
      · have := hrec.1
        simpa [List.append_assoc] using this
      · exact hrec.2

/-- Everything reachable from start lies in any successor-closed set
containing start. -/
theorem reach_mem_closed (succs : Nat → List Nat) (start : Nat) (S : List Nat)
    (hstart : start ∈ S) (hcl : ∀ x ∈ S, ∀ y ∈ succs x, y ∈ S) :
    ∀ v, Reach succs start v → v ∈ S := by
  intro v hv
  induction hv with
  | refl => exact hstart
  | tail _ hbc ih => exact hcl _ ih _ hbc

/-- Full characterization of a complete traversal run: the emitted items are
exactly the nodes reachable from start, they are pairwise distinct, there are
at most bound of them, and the iterator is exhausted afterwards. -/
theorem travRun_complete (pf : List Nat → Nat → List Nat)
    (hpf : ∀ l c, List.Perm (pf l c) (c :: l))
    (succs : Nat → List Nat) (start bound : Nat)
    (hsucc : ∀ a b, b ∈ succs a → b < bound) (hstart : start < bound) :
    (∀ v, v ∈ (travRun (travStep pf succs) (2 * bound + 2) (travInit start)).1 ↔
        Reach succs start v) ∧
      (travRun (travStep pf succs) (2 * bound + 2) (travInit start)).1.Nodup ∧
      (travRun (travStep pf succs) (2 * bound + 2) (travInit start)).1.length ≤ bound ∧
      (travRun (travStep pf succs) (2 * bound + 2) (travInit start)).2.frontier = [] := by
  have hinit := travInv_init succs start
  have hb0 : ∀ v ∈ (travInit start).visited, v < bound := by
    intro v hv
    simp [travInit] at hv
    subst hv
    exact hstart
  have hm0 : travMeasure bound (travInit start) < 2 * bound + 2 := by
    simp only [travMeasure, travInit, List.length_singleton]
    omega
  obtain ⟨hinv, hfr⟩ := travRun_spec pf hpf succs start bound hsucc
    (2 * bound + 2) [] (travInit start) hinit hb0 hm0
  simp only [List.nil_append] at hinv
  set r := travRun (travStep pf succs) (2 * bound + 2) (travInit start) with hr
  have hmem : ∀ v, v ∈ r.1 ↔ Reach succs start v := by
    intro v
    constructor
    · intro hv
      exact hinv.reach v ((hinv.vis_iff v).mpr (by simp [hfr, hv]))
    · intro hv
      have hS : v ∈ r.2.visited := by
        refine reach_mem_closed succs start r.2.visited hinv.start_vis ?_ v hv
        intro a ha y hy
        exact hinv.closed a (by simpa [hfr] using (hinv.vis_iff a).mp ha) y hy
      simpa [hfr] using (hinv.vis_iff v).mp hS
  have hnd : r.1.Nodup := by
    have := hinv.nodup
    simpa [hfr] using this
  refine ⟨hmem, hnd, ?_, hfr⟩
  refine nodup_lt_length_le hnd ?_
  intro v hv
  have hvis : v ∈ r.2.visited := (hinv.vis_iff v).mpr (by simp [hfr, hv])
  have hre := hinv.reach v hvis
  rcases (Relation.reflTransGen_iff_eq_or_transGen.mp hre) with rfl | htg
  · exact hstart
  · obtain ⟨b, _, hbv⟩ := (Relation.TransGen.tail'_iff).mp htg
    exact hsucc b v hbv

/-- Mirrors the neighbor enumeration used by every matrix-graph algorithm:
edges(x).iter().enumerate().filter(weight > 0).map(index), with the first
argument carrying the enumeration offset. -/
def enumFilterPos : Nat → List Nat → List Nat
  | _, [] => []
  | i, w :: ws =>
    if 0 < w then i :: enumFilterPos (i + 1) ws else enumFilterPos (i + 1) ws

/-- Successor list of node x in a matrix graph. -/
def mtxNbrs (g : MtxGraph T) (x : Nat) : List Nat := enumFilterPos 0 (edgesRow g x)

theorem mem_enumFilterPos {ws : List Nat} :
    ∀ {i y : Nat}, y ∈ enumFilterPos i ws ↔
      ∃ k, k < ws.length ∧ y = i + k ∧ 0 < ws.getD k 0 := by
  induction ws with
  | nil => simp [enumFilterPos]
  | cons w ws ih =>
    intro i y
    by_cases hw : 0 < w
    · simp only [enumFilterPos, if_pos hw, List.mem_cons, ih]
      constructor
      · rintro (rfl | ⟨k, hk, rfl, hpos⟩)
        · exact ⟨0, by simp, by simp, by simpa using hw⟩
        · exact ⟨k + 1, by simpa using hk, by omega, by simpa using hpos⟩
      · rintro ⟨k, hk, rfl, hpos⟩
        cases k with
        | zero => exact Or.inl (by simp)
        | succ k =>
          refine Or.inr ⟨k, by simpa using hk, by omega, by simpa using hpos⟩
    · simp only [enumFilterPos, if_neg hw, ih]
      constructor
      · rintro ⟨k, hk, rfl, hpos⟩
        exact ⟨k + 1, by simpa using hk, by omega, by simpa using hpos⟩
      · rintro ⟨k, hk, rfl, hpos⟩
        cases k with
        | zero => exact absurd (by simpa using hpos) hw
        | succ k =>
          refine ⟨k, by simpa using hk, by omega, by simpa using hpos⟩

theorem mtxNbrs_lt {g : MtxGraph T} {x y : Nat} (h : y ∈ mtxNbrs g x) :
    y < g.n := by
  obtain ⟨k, hk, rfl, _⟩ := mem_enumFilterPos.mp h
  have : (edgesRow g x).length ≤ g.n := by
    simp [edgesRow]
  omega

theorem edgesRow_length {g : MtxGraph T} (hwf : MtxWf g) {x : Nat}
    (hx : x < g.n) : (edgesRow g x).length = g.n := by
  unfold edgesRow
  rw [List.length_take, List.length_drop, hwf]
  have hle : x * g.n + g.n ≤ g.n * g.n := by nlinarith
  omega

theorem edgesRow_getD {g : MtxGraph T} (hwf : MtxWf g) {x k : Nat}
    (hx : x < g.n) (hk : k < g.n) :
    (edgesRow g x).getD k 0 = g.mtx.getD (x * g.n + k) 0 := by
  simp only [edgesRow, List.getD]
  rw [List.get?_take hk, List.get?_drop]

theorem mtxNbrs_empty_of_ge {g : MtxGraph T} (hwf : MtxWf g) {x : Nat}
    (hx : g.n ≤ x) : mtxNbrs g x = [] := by
  have hdrop : g.mtx.drop (x * g.n) = [] := by
    apply List.drop_eq_nil_of_le
    rw [hwf]
    exact Nat.mul_le_mul_right _ hx
  simp [mtxNbrs, edgesRow, hdrop, enumFilterPos]

/-- The edge relation on in-range nodes, stated through has_edge. -/
def EdgeRel (g : MtxGraph T) (a b : Nat) : Prop :=
  a < g.n ∧ b < g.n ∧ hasEdge g a b = true

theorem mtxNbrs_mem_iff {g : MtxGraph T} (hwf : MtxWf g) {x y : Nat}
    (hx : x < g.n) : y ∈ mtxNbrs g x ↔ y < g.n ∧ hasEdge g x y = true := by
  rw [mtxNbrs, mem_enumFilterPos]
  constructor
  · rintro ⟨k, hk, rfl, hpos⟩
    rw [edgesRow_length hwf hx] at hk
    rw [edgesRow_getD hwf hx hk] at hpos
    refine ⟨by omega, ?_⟩
    simp only [hasEdge, calc2dTo1d, decide_eq_true_eq]
    simpa using hpos
  · rintro ⟨hy, he⟩
    refine ⟨y, ?_, by omega, ?_⟩
    · rw [edgesRow_length hwf hx]; exact hy
    · rw [edgesRow_getD hwf hx hy]
      simpa [hasEdge, calc2dTo1d, decide_eq_true_eq] using he

theorem succRel_iff_edgeRel {g : MtxGraph T} (hwf : MtxWf g) (a b : Nat) :
    SuccRel (mtxNbrs g) a b ↔ EdgeRel g a b := by
  constructor
  · intro h
    have ha : a < g.n := by
      by_contra hge
      have h0 : mtxNbrs g a = [] := mtxNbrs_empty_of_ge hwf (by omega)
      have hmem : b ∈ mtxNbrs g a := h
      rw [h0] at hmem
      exact absurd hmem (List.not_mem_nil b)
    have := (mtxNbrs_mem_iff hwf ha).mp h
    exact ⟨ha, this.1, this.2⟩
  · rintro ⟨ha, hb, he⟩
    exact (mtxNbrs_mem_iff hwf ha).mpr ⟨hb, he⟩

theorem reach_iff_edgeReach {g : MtxGraph T} (hwf : MtxWf g) (a b : Nat) :
    Reach (mtxNbrs g) a b ↔ Relation.ReflTransGen (EdgeRel g) a b := by
  constructor
  · exact Relation.ReflTransGen.mono (fun a b h => (succRel_iff_edgeRel hwf a b).mp h)
  · exact Relation.ReflTransGen.mono (fun a b h => (succRel_iff_edgeRel hwf a b).mpr h)

/-- Mirrors Graph::bfs driven to exhaustion: the result pair holds the emitted
items and the final iterator state. -/
def bfsRunMtx (g : MtxGraph T) (start : Nat) : List Nat × TravState :=
  travRun (travStep pushBack (mtxNbrs g)) (2 * g.n + 2) (travInit start)

/-- Mirrors Graph::dfs driven to exhaustion. -/
def dfsRunMtx (g : MtxGraph T) (start : Nat) : List Nat × TravState :=
  travRun (travStep pushFront (mtxNbrs g)) (2 * g.n + 2) (travInit start)

/-- The sequence of node indices yielded by Graph::bfs. -/
def bfsTraversalMtx (g : MtxGraph T) (start : Nat) : List Nat :=
  (bfsRunMtx g start).1

/-- The sequence of node indices yielded by Graph::dfs. -/
def dfsTraversalMtx (g : MtxGraph T) (start : Nat) : List Nat :=
  (dfsRunMtx g start).1

theorem pushBack_perm : ∀ (l : List Nat) (c : Nat), List.Perm (pushBack l c) (c :: l) := by
  intro l c
  simpa [pushBack] using List.perm_append_singleton c l

theorem pushFront_perm : ∀ (l : List Nat) (c : Nat), List.Perm (pushFront l c) (c :: l) := by
  intro l c
  simp [pushFront]

theorem bfsTraversalMtx_spec {g : MtxGraph T} (hwf : MtxWf g) {start : Nat}
    (hs : start < g.n) :
    (∀ v, v ∈ bfsTraversalMtx g start ↔ Reach (mtxNbrs g) start v) ∧
      (bfsTraversalMtx g start).Nodup ∧
      (bfsTraversalMtx g start).length ≤ g.n ∧
      (bfsRunMtx g start).2.frontier = [] := by
  have := travRun_complete pushBack pushBack_perm (mtxNbrs g) start g.n
    (fun a b h => mtxNbrs_lt h) hs
  simpa [bfsTraversalMtx, bfsRunMtx] using this

theorem dfsTraversalMtx_spec {g : MtxGraph T} (hwf : MtxWf g) {start : Nat}
    (hs : start < g.n) :
    (∀ v, v ∈ dfsTraversalMtx g start ↔ Reach (mtxNbrs g) start v) ∧
      (dfsTraversalMtx g start).Nodup ∧
      (dfsTraversalMtx g start).length ≤ g.n ∧
      (dfsRunMtx g start).2.frontier = [] := by
  have := travRun_complete pushFront pushFront_perm (mtxNbrs g) start g.n
    (fun a b h => mtxNbrs_lt h) hs
  simpa [dfsTraversalMtx, dfsRunMtx] using this

/-! The adjacency-list graph (list_graph/{graph,node,edge,iter}.rs). -/

/-- Mirrors list_graph::edge::Edge. -/
structure LEdge (E : Type) where
  weight : E
  next : Nat

/-- Mirrors list_graph::node::Node. -/
structure LNode (V E : Type) where
  data : V
  edges : List (LEdge E)

/-- Mirrors list_graph::graph::Graph. -/
structure ListGraph (V E : Type) where
  nodes : List (LNode V E)

variable {V E : Type}

/-- Mirrors Graph::new. -/
def ListGraph.new (V E : Type) : ListGraph V E := ⟨[]⟩

/-- Mirrors Graph::add_node: push the node, return its index. -/
def lAddNode (g : ListGraph V E) (v : V) : Nat × ListGraph V E :=
  (g.nodes.length, ⟨g.nodes ++ [⟨v, []⟩]⟩)

/-- Mirrors Graph::<V, Directed, E>::add_edge: push an edge record onto the
source node's list (the Rust indexing panics when the source is out of
range; the claims stay in range). -/
def lAddEdgeD (g : ListGraph V E) (a b : Nat) (w : E) : ListGraph V E :=
  match g.nodes.get? a with
  | some nd => ⟨g.nodes.set a ⟨nd.data, nd.edges ++ [⟨w, b⟩]⟩⟩
  | none => g

/-- Mirrors Graph::<V, Undirected, E>::add_edge: both reciprocal records. -/
def lAddEdgeU (g : ListGraph V E) (a b : Nat) (w : E) : ListGraph V E :=
  lAddEdgeD (lAddEdgeD g a b w) b a w

/-- Mirrors Graph::edges. -/
def lEdges (g : ListGraph V E) (idx : Nat) : List (LEdge E) :=
  match g.nodes.get? idx with
  | some nd => nd.edges
  | none => []

/-- Successor list of node x: the edge targets in insertion order, mirroring
the iteration over graph.edges(next) in list_graph::iter. -/
def listSuccs (g : ListGraph V E) (x : Nat) : List Nat :=
  (lEdges g x).map (fun e => e.next)

/-- Well-formedness of a list graph: every stored edge target is in range.
Graphs built through add_edge with in-range arguments satisfy this. -/
def ListWf (g : ListGraph V E) : Prop :=
  ∀ nd ∈ g.nodes, ∀ e ∈ nd.edges, e.next < g.nodes.length

theorem listSuccs_lt {g : ListGraph V E} (hwf : ListWf g) {x y : Nat}
    (h : y ∈ listSuccs g x) : y < g.nodes.length := by
  simp only [listSuccs, List.mem_map] at h
  obtain ⟨e, he, rfl⟩ := h
  unfold lEdges at he
  cases hnd : g.nodes.get? x with
  | none => rw [hnd] at he; exact absurd he (List.not_mem_nil _)
  | some nd =>
    rw [hnd] at he
    exact hwf nd (List.get?_mem hnd) e he

/-- Mirrors list_graph Graph::bfs driven to exhaustion. -/
def bfsRunList (g : ListGraph V E) (start : Nat) : List Nat × TravState :=
  travRun (travStep pushBack (listSuccs g)) (2 * g.nodes.length + 2) (travInit start)

/-- The sequence of node indices yielded by the list-graph BFS. -/
def bfsTraversalList (g : ListGraph V E) (start : Nat) : List Nat :=
  (bfsRunList g start).1

theorem bfsTraversalList_spec {g : ListGraph V E} (hwf : ListWf g) {start : Nat}
    (hs : start < g.nodes.length) :
    (∀ v, v ∈ bfsTraversalList g start ↔ Reach (listSuccs g) start v) ∧
      (bfsTraversalList g start).Nodup ∧
      (bfsTraversalList g start).length ≤ g.nodes.length ∧
      (bfsRunList g start).2.frontier = [] := by
  have := travRun_complete pushBack pushBack_perm (listSuccs g) start g.nodes.length
    (fun a b h => listSuccs_lt hwf h) hs
  simpa [bfsTraversalList, bfsRunList] using this

theorem travRun_head (pf : List Nat → Nat → List Nat) (succs : Nat → List Nat)
    (start fuel : Nat) (hf : 0 < fuel) :
    (travRun (travStep pf succs) fuel (travInit start)).1.head? = some start := by
  cases fuel with
  | zero => omega
  | succ f =>
    have hs := travStep_eq_some pf succs (travInit start) start [] rfl
    simp [travRun, hs]

/-! Transitive closure by repeated BFS (transitive_closure/bfs.rs and mtx.rs). -/

/-- Mirrors TransitiveClosureMtx::from_len: a len-by-len all-false matrix. -/
def closureFromLen (len : Nat) : List (List Bool) :=
  List.replicate len (List.replicate len false)

/-- Marks the listed positions of one closure row true, mirroring the inner
loop mtx[y][x] = true of bfs_compute_closure_mtx. -/
def markRow (row : List Bool) (xs : List Nat) : List Bool :=
  xs.foldl (fun r x => r.set x true) row

/-- Mirrors bfs_compute_closure_mtx: row y holds true at exactly the indices
yielded by a full BFS from y.  The Rust code initializes the whole matrix via
from_len and then fills row y inside the loop over y; since each row is only
written by its own loop iteration, the matrix is computed row by row. -/
def bfs_compute_closure_mtx (g : MtxGraph T) : List (List Bool) :=
  (List.range g.n).map (fun y => markRow (List.replicate g.n false) (bfsTraversalMtx g y))

/-- Cell access m[y][x] of a closure matrix. -/
def closureCell (m : List (List Bool)) (y x : Nat) : Bool :=
  (m.getD y []).getD x false

theorem markRow_length (xs : List Nat) : ∀ row, (markRow row xs).length = row.length := by
  induction xs with
  | nil => intro row; simp [markRow]
  | cons c cs ih =>
    intro row
    have h1 : markRow row (c :: cs) = markRow (row.set c true) cs := rfl
    rw [h1, ih, List.length_set]

theorem getD_set_true (row : List Bool) (c x : Nat) :
    ((row.set c true).getD x false = true) ↔
      (x = c ∧ c < row.length) ∨ row.getD x false = true := by
  simp only [List.getD]
  by_cases hxc : c = x
  · subst hxc
    by_cases hc : c < row.length
    · rw [List.get?_set_eq_of_lt _ hc]
      simp [hc]
    · rw [List.set_eq_of_length_le (by omega)]
      simp only [eq_self_iff_true, true_and]
      constructor
      · intro h; exact Or.inr h
      · rintro (h | h)
        · omega
        · exact h
  · rw [List.get?_set_ne _ _ hxc]
    constructor
    · intro h; exact Or.inr h
    · rintro (⟨h, _⟩ | h)
      · exact absurd h.symm hxc
      · exact h

theorem markRow_getD (xs : List Nat) :
    ∀ (row : List Bool) (x : Nat),
      ((markRow row xs).getD x false = true) ↔
        ((x ∈ xs ∧ x < row.length) ∨ row.getD x false = true) := by
  induction xs with
  | nil => intro row x; simp [markRow]
  | cons c cs ih =>
    intro row x
    have h1 : markRow row (c :: cs) = markRow (row.set c true) cs := rfl
    rw [h1, ih, List.length_set, getD_set_true]
    constructor
    · rintro (⟨hmem, hlt⟩ | ⟨rfl, hlt⟩ | h)
      · exact Or.inl ⟨List.mem_cons_of_mem c hmem, hlt⟩
      · exact Or.inl ⟨List.mem_cons_self _ _, hlt⟩
      · exact Or.inr h
    · rintro (⟨hmem, hlt⟩ | h)
      · rcases List.mem_cons.mp hmem with rfl | hmem
        · exact Or.inr (Or.inl ⟨rfl, hlt⟩)
        · exact Or.inl ⟨hmem, hlt⟩
      · exact Or.inr (Or.inr h)

theorem closureCell_eq_mem {g : MtxGraph T} {y x : Nat} (hy : y < g.n) :
    closureCell (bfs_compute_closure_mtx g) y x = true ↔
      (x ∈ bfsTraversalMtx g y ∧ x < g.n) := by
  unfold closureCell bfs_compute_closure_mtx
  simp only [List.getD]
  rw [List.get?_map]
  have hrange : (List.range g.n).get? y = some y := List.get?_range hy
  rw [hrange]
  simp only [Option.map_some', Option.getD_some]
  show (markRow (List.replicate g.n false) (bfsTraversalMtx g y)).getD x false = true ↔ _
  rw [markRow_getD]
  simp only [List.length_replicate]
  constructor
  · rintro (⟨h1, h2⟩ | h)
    · exact ⟨h1, h2⟩
    · rw [List.getD] at h
      rcases Nat.lt_or_ge x g.n with hx | hx
      · rw [List.get?_eq_getElem? ] at h
        simp [List.getElem?_replicate, hx] at h
      · rw [List.get?_eq_getElem?, List.getElem?_eq_none (by simpa using hx)] at h
        simp at h
  · rintro ⟨h1, h2⟩
    exact Or.inl ⟨h1, h2⟩

/- Concrete graphs witnessing the add_node relayout defect:
a directed graph with two nodes and the edge 1 -> 0, then one more node. -/

/-- Two nodes, directed unweighted graph. -/
def exG0 : MtxGraph Unit := (addNode (addNode (MtxGraph.empty Unit) ()).2 ()).2

/-- Edge 1 -> 0 added to exG0. -/
def exG1 : MtxGraph Unit := addEdgeDU exG0 1 0

/-- One further node added after the edge. -/
def exG2 : MtxGraph Unit := (addNode exG1 ()).2

/-- C2: add_node must leave every previously stored cell unchanged and give the
new row and column all-zero cells.  The code instead appends the 2n+1 fresh
cells at the end of the flat row-major matrix, so existing cells shift: after
adding a third node, the stored edge (1,0) is lost and a phantom edge (0,2)
appears in the new column. -/
theorem c2_add_node_corrupts_cells :
    hasEdge exG1 1 0 = true ∧ edgeWeight exG1 1 0 = 1 ∧
      hasEdge exG2 1 0 = false ∧ edgeWeight exG2 1 0 = 0 ∧
      hasEdge exG2 0 2 = true ∧ exG2.n = 3 := by decide

/-- Two nodes, undirected unweighted graph. -/
def exH0 : MtxGraph Unit := (addNode (addNode (MtxGraph.empty Unit) ()).2 ()).2

/-- Undirected edge between 0 and 1 added to exH0. -/
def exH1 : MtxGraph Unit := addEdgeUU exH0 0 1

/-- One further node added after the undirected edge. -/
def exH2 : MtxGraph Unit := (addNode exH1 ()).2

/-- C3: undirected symmetry has_edge(a,b) = has_edge(b,a) holds right after
add_edge but is destroyed by a subsequent add_node, because add_node appends
the fresh cells at the end of the flat matrix instead of re-laying out the
rows: afterwards has_edge(0,1) is still true while has_edge(1,0) is false. -/
theorem c3_undirected_symmetry_broken_by_add_node :
    hasEdge exH1 0 1 = true ∧ hasEdge exH1 1 0 = true ∧
      hasEdge exH2 0 1 = true ∧ hasEdge exH2 1 0 = false ∧ exH2.n = 3 := by
  decide

/-! Fuel-bounded reachability sets.  fuelReach unions a node's own singleton
with its direct successors' sets, the recursion that stage 4 of the
SCC-condensation closure performs along the topological order; the fuel
bounds the recursion depth, and chain shortening shows that fuel equal to the
node count already captures full reachability. -/

/-- The set of nodes reachable from u along at most fuel successor steps. -/
def fuelReach (succs : Nat → List Nat) : Nat → Nat → List Nat
  | 0, u => [u]
  | f + 1, u => u :: (succs u).bind (fun v => fuelReach succs f v)

theorem self_mem_fuelReach (succs : Nat → List Nat) (f u : Nat) :
    u ∈ fuelReach succs f u := by
  cases f with
  | zero => simp [fuelReach]
  | succ f => simp [fuelReach]

theorem fuelReach_sound (succs : Nat → List Nat) :
    ∀ f u w, w ∈ fuelReach succs f u → Reach succs u w := by
  intro f
  induction f with
  | zero =>
    intro u w h
    simp only [fuelReach, List.mem_singleton] at h
    subst h
    exact Relation.ReflTransGen.refl
  | succ f ih =>
    intro u w h
    simp only [fuelReach, List.mem_cons, List.mem_bind] at h
    rcases h with rfl | ⟨v, hv, hw⟩
    · exact Relation.ReflTransGen.refl
    · exact Relation.ReflTransGen.head hv (ih v w hw)

theorem fuelReach_mono (succs : Nat → List Nat) :
    ∀ {f1 f2 u w}, f1 ≤ f2 → w ∈ fuelReach succs f1 u → w ∈ fuelReach succs f2 u := by
  intro f1
  induction f1 with
  | zero =>
    intro f2 u w _ h
    simp only [fuelReach, List.mem_singleton] at h
    subst h
    exact self_mem_fuelReach succs f2 w
  | succ f ih =>
    intro f2 u w hle h
    cases f2 with
    | zero => omega
    | succ f2 =>
      simp only [fuelReach, List.mem_cons, List.mem_bind] at h ⊢
      rcases h with rfl | ⟨v, hv, hw⟩
      · exact Or.inl rfl
      · exact Or.inr ⟨v, hv, ih (by omega) hw⟩

theorem fuelReach_step (succs : Nat → List Nat) {f u v w : Nat}
    (hv : v ∈ succs u) (hw : w ∈ fuelReach succs f v) :
    w ∈ fuelReach succs (f + 1) u := by
  simp only [fuelReach, List.mem_cons, List.mem_bind]
  exact Or.inr ⟨v, hv, hw⟩

/-- A chain of successor steps from u, listing the nodes after u in order;
the second index is the chain's final node. -/
def IsChainFrom (succs : Nat → List Nat) : Nat → List Nat → Nat → Prop
  | u, [], w => w = u
  | u, v :: l, w => v ∈ succs u ∧ IsChainFrom succs v l w

theorem isChainFrom_append (succs : Nat → List Nat) :
    ∀ l u b c, IsChainFrom succs u l b → c ∈ succs b →
      IsChainFrom succs u (l ++ [c]) c := by
  intro l
  induction l with
  | nil =>
    intro u b c hch hc
    simp only [IsChainFrom] at hch
    subst hch
    exact ⟨hc, rfl⟩
  | cons v t ih =>
    intro u b c hch hc
    obtain ⟨h1, h2⟩ := hch
    exact ⟨h1, ih v b c h2 hc⟩

theorem reach_iff_chain (succs : Nat → List Nat) (u w : Nat) :
    Reach succs u w ↔ ∃ l, IsChainFrom succs u l w := by
  constructor
  · intro h
    induction h with
    | refl => exact ⟨[], rfl⟩
    | tail _ hbc ih =>
      obtain ⟨l, hl⟩ := ih
      exact ⟨l ++ [_], isChainFrom_append succs l u _ _ hl hbc⟩
  · rintro ⟨l, hl⟩
    induction l generalizing u with
    | nil =>
      simp only [IsChainFrom] at hl
      subst hl
      exact Relation.ReflTransGen.refl
    | cons v t ih =>
      obtain ⟨h1, h2⟩ := hl
      exact Relation.ReflTransGen.head h1 (ih v h2)

theorem chain_mem_fuelReach (succs : Nat → List Nat) :
    ∀ l u w, IsChainFrom succs u l w → w ∈ fuelReach succs l.length u := by
  intro l
  induction l with
  | nil =>
    intro u w h
    simp only [IsChainFrom] at h
    subst h
    simp [fuelReach]
  | cons v t ih =>
    intro u w h
    obtain ⟨h1, h2⟩ := h
    exact fuelReach_step succs h1 (ih v w h2)

theorem isChainFrom_suffix (succs : Nat → List Nat) :
    ∀ l1 x l2 u w, IsChainFrom succs u (l1 ++ x :: l2) w →
      IsChainFrom succs x l2 w := by
  intro l1
  induction l1 with
  | nil =>
    intro x l2 u w h
    exact h.2
  | cons v t ih =>
    intro x l2 u w h
    exact ih x l2 v w h.2

/-- Chain shortening: any chain can be replaced by a duplicate-free chain over
the same nodes. -/
theorem chain_shorten (succs : Nat → List Nat) :
    ∀ (fuel l : List Nat) (u w : Nat), l.length ≤ fuel.length →
      IsChainFrom succs u l w →
      ∃ l2, IsChainFrom succs u l2 w ∧ l2.length ≤ l.length ∧
        (∀ a ∈ l2, a ∈ l) ∧ (u :: l2).Nodup := by
  intro fuel
  induction fuel with
  | nil =>
    intro l u w hlen hch
    have : l = [] := List.eq_nil_of_length_eq_zero (by simpa using hlen)
    subst this
    exact ⟨[], hch, by simp, by simp, by simp⟩
  | cons _ fuel ih =>
    intro l u w hlen hch
    by_cases hu : u ∈ l
    · obtain ⟨s, t, rfl⟩ := List.append_of_mem hu
      have hsuf : IsChainFrom succs u t w := isChainFrom_suffix succs s u t u w hch
      have hlt : t.length ≤ fuel.length := by
        simp only [List.length_append, List.length_cons] at hlen
        omega
      obtain ⟨l2, hl2, hlen2, hsub2, hnd2⟩ := ih t u w hlt hsuf
      refine ⟨l2, hl2, ?_, ?_, hnd2⟩
      · simp only [List.length_append, List.length_cons]
        omega
      · intro a ha
        have := hsub2 a ha
        simp only [List.mem_append, List.mem_cons]
        exact Or.inr (Or.inr this)
    · cases l with
      | nil => exact ⟨[], hch, by simp, by simp, by simp⟩
      | cons v t =>
        obtain ⟨h1, h2⟩ := hch
        have hlt : t.length ≤ fuel.length := by
          simp only [List.length_cons] at hlen
          omega
        obtain ⟨l2, hl2, hlen2, hsub2, hnd2⟩ := ih t v w hlt h2
        refine ⟨v :: l2, ⟨h1, hl2⟩, by simpa using hlen2, ?_, ?_⟩
        · intro a ha
          rcases List.mem_cons.mp ha with rfl | ha
          · exact List.mem_cons_self _ _
          · exact List.mem_cons_of_mem v (hsub2 a ha)
        · rw [List.nodup_cons]
          refine ⟨?_, hnd2⟩
          intro hmem
          rcases List.mem_cons.mp hmem with rfl | hmem
          · exact hu (List.mem_cons_self _ _)
          · exact hu (List.mem_cons_of_mem v (hsub2 u hmem))

theorem chain_nodes_lt (succs : Nat → List Nat) (bound : Nat)
    (hsucc : ∀ a b, b ∈ succs a → b < bound) :
    ∀ l u w, IsChainFrom succs u l w → ∀ a ∈ l, a < bound := by
  intro l
  induction l with
  | nil => intro u w _ a ha; exact absurd ha (List.not_mem_nil a)
  | cons v t ih =>
    intro u w h a ha
    obtain ⟨h1, h2⟩ := h
    rcases List.mem_cons.mp ha with rfl | ha
    · exact hsucc u a h1
    · exact ih v w h2 a ha

/-- Fuel equal to the node count captures full reachability when every
successor is in range. -/
theorem reach_mem_fuelReach (succs : Nat → List Nat) (bound : Nat)
    (hsucc : ∀ a b, b ∈ succs a → b < bound) {u w : Nat} (hu : u < bound)
    (hr : Reach succs u w) : w ∈ fuelReach succs bound u := by
  obtain ⟨l, hl⟩ := (reach_iff_chain succs u w).mp hr
  obtain ⟨l2, hl2, _, _, hnd⟩ := chain_shorten succs l l u w (le_refl _) hl
  have hchlt : ∀ a ∈ l2, a < bound := chain_nodes_lt succs bound hsucc l2 u w hl2
  have hlenle : (u :: l2).length ≤ bound :=
    nodup_lt_length_le hnd (by
      intro a ha
      rcases List.mem_cons.mp ha with rfl | ha
      · exact hu
      · exact hchlt a ha)
  have : l2.length ≤ bound := by
    simp only [List.length_cons] at hlenle
    omega
  exact fuelReach_mono succs this (chain_mem_fuelReach succs l2 u w hl2)

/-! Strongly connected components through mutual reachability, used by the
spec-modelled SCC-condensation closure. -/

/-- Mutual reachability: u and v lie in the same strongly connected
component. -/
def sccSame (g : MtxGraph T) (u v : Nat) : Prop :=
  Reach (mtxNbrs g) u v ∧ Reach (mtxNbrs g) v u

theorem sccSame_refl (g : MtxGraph T) (u : Nat) : sccSame g u u :=
  ⟨Relation.ReflTransGen.refl, Relation.ReflTransGen.refl⟩

theorem sccSame_symm {g : MtxGraph T} {u v : Nat} (h : sccSame g u v) :
    sccSame g v u := ⟨h.2, h.1⟩

theorem sccSame_trans {g : MtxGraph T} {u v w : Nat} (h1 : sccSame g u v)
    (h2 : sccSame g v w) : sccSame g u w :=
  ⟨h1.1.trans h2.1, h2.2.trans h1.2⟩

/-- The candidate representatives of v's component, in ascending index order:
in-range nodes mutually reachable with v, detected through the BFS
traversal. -/
def sccFilter (g : MtxGraph T) (v : Nat) : List Nat :=
  (List.range g.n).filter
    (fun u => decide (u ∈ bfsTraversalMtx g v) && decide (v ∈ bfsTraversalMtx g u))

/-- Modelled from the spec: section 4.5 stage 1 labels each node with a
representative of its strongly connected component (section 3: the SCC label
vector maps each node index to the index of a representative node of its
component); the model picks the smallest-index member. -/
def sccLabel (g : MtxGraph T) (v : Nat) : Nat := (sccFilter g v).headD v

theorem mem_sccFilter {g : MtxGraph T} (hwf : MtxWf g) {v : Nat} (hv : v < g.n)
    {u : Nat} : u ∈ sccFilter g v ↔ u < g.n ∧ sccSame g v u := by
  unfold sccFilter
  rw [List.mem_filter, List.mem_range]
  constructor
  · rintro ⟨h1, h2⟩
    simp only [Bool.and_eq_true, decide_eq_true_eq] at h2
    exact ⟨h1, ((bfsTraversalMtx_spec hwf hv).1 u).mp h2.1,
      ((bfsTraversalMtx_spec hwf h1).1 v).mp h2.2⟩
  · rintro ⟨h1, h2, h3⟩
    refine ⟨h1, ?_⟩
    simp only [Bool.and_eq_true, decide_eq_true_eq]
    exact ⟨((bfsTraversalMtx_spec hwf hv).1 u).mpr h2,
      ((bfsTraversalMtx_spec hwf h1).1 v).mpr h3⟩

theorem self_mem_sccFilter {g : MtxGraph T} (hwf : MtxWf g) {v : Nat}
    (hv : v < g.n) : v ∈ sccFilter g v :=
  (mem_sccFilter hwf hv).mpr ⟨hv, sccSame_refl g v⟩

theorem sccLabel_mem {g : MtxGraph T} (hwf : MtxWf g) {v : Nat} (hv : v < g.n) :
    sccLabel g v ∈ sccFilter g v := by
  unfold sccLabel
  cases hl : sccFilter g v with
  | nil =>
    exact absurd (hl ▸ self_mem_sccFilter hwf hv) (List.not_mem_nil v)
  | cons x t => simp

theorem sccLabel_lt {g : MtxGraph T} (hwf : MtxWf g) {v : Nat} (hv : v < g.n) :
    sccLabel g v < g.n :=
  ((mem_sccFilter hwf hv).mp (sccLabel_mem hwf hv)).1

theorem sccLabel_sccSame {g : MtxGraph T} (hwf : MtxWf g) {v : Nat}
    (hv : v < g.n) : sccSame g v (sccLabel g v) :=
  ((mem_sccFilter hwf hv).mp (sccLabel_mem hwf hv)).2

theorem sccFilter_congr {g : MtxGraph T} (hwf : MtxWf g) {v v2 : Nat}
    (hv : v < g.n) (hv2 : v2 < g.n) (hs : sccSame g v v2) :
    sccFilter g v = sccFilter g v2 := by
  unfold sccFilter
  apply List.filter_congr
  intro u hu
  rw [List.mem_range] at hu
  have hiff1 : u ∈ bfsTraversalMtx g v ↔ u ∈ bfsTraversalMtx g v2 := by
    rw [(bfsTraversalMtx_spec hwf hv).1 u, (bfsTraversalMtx_spec hwf hv2).1 u]
    exact ⟨fun h => hs.2.trans h, fun h => hs.1.trans h⟩
  have hiff2 : v ∈ bfsTraversalMtx g u ↔ v2 ∈ bfsTraversalMtx g u := by
    rw [(bfsTraversalMtx_spec hwf hu).1 v, (bfsTraversalMtx_spec hwf hu).1 v2]
    exact ⟨fun h => h.trans hs.1, fun h => h.trans hs.2⟩
  rw [decide_eq_decide.mpr hiff1, decide_eq_decide.mpr hiff2]

theorem sccLabel_eq_of_sccSame {g : MtxGraph T} (hwf : MtxWf g) {v v2 : Nat}
    (hv : v < g.n) (hv2 : v2 < g.n) (hs : sccSame g v v2) :
    sccLabel g v = sccLabel g v2 := by
  unfold sccLabel
  rw [sccFilter_congr hwf hv hv2 hs]
  cases hl : sccFilter g v2 with
  | nil => exact absurd (hl ▸ self_mem_sccFilter hwf hv2) (List.not_mem_nil v2)
  | cons x t => simp

theorem sccSame_of_label_eq {g : MtxGraph T} (hwf : MtxWf g) {i j : Nat}
    (hi : i < g.n) (hj : j < g.n) (h : sccLabel g i = sccLabel g j) :
    sccSame g i j := by
  have h1 := sccLabel_sccSame hwf hi
  have h2 := sccLabel_sccSame hwf hj
  rw [h] at h1
  exact sccSame_trans h1 (sccSame_symm h2)

/-- Modelled from the spec: section 4.5 stage 2 replaces each strongly
connected component by its representative node and drops the resulting
loops, so the condensed graph has an edge from component u to component w
iff w differs from u and some original edge a -> b leads from a node
labelled u to a node labelled w. -/
def condSuccs (g : MtxGraph T) (u : Nat) : List Nat :=
  (List.range g.n).filter (fun w =>
    decide (w ≠ u) && (List.range g.n).any (fun a =>
      decide (sccLabel g a = u) &&
        (mtxNbrs g a).any (fun b => decide (sccLabel g b = w))))

theorem mem_condSuccs {g : MtxGraph T} {u w : Nat} :
    w ∈ condSuccs g u ↔ w < g.n ∧ w ≠ u ∧
      ∃ a, a < g.n ∧ sccLabel g a = u ∧
        ∃ b ∈ mtxNbrs g a, sccLabel g b = w := by
  unfold condSuccs
  rw [List.mem_filter, List.mem_range]
  simp only [Bool.and_eq_true, decide_eq_true_eq, List.any_eq_true,
    List.mem_range]

theorem condSuccs_lt {g : MtxGraph T} : ∀ u w, w ∈ condSuccs g u → w < g.n :=
  fun _ _ h => (mem_condSuccs.mp h).1

/-- Modelled from the spec: section 4.5 stages 3-5.  Stages 3-4 compute each
condensed node's reachable set as its own singleton unioned with its direct
successors' reachable sets, exactly the equation the topological-order
propagation evaluates (the recursion depth is bounded by the node count,
which suffices by chain shortening since the condensed graph has at most n
nodes).  Stage 5 expands back to original indices: cell (i,j) is true iff
j's component lies in the computed reachable set of i's component, with all
pairs inside one component marked true.  The real purdoms body in
transitive_closure/purdoms.rs is unimplemented!(), so these stages are
modelled from the spec's wording. -/
def purdoms (g : MtxGraph T) : List (List Bool) :=
  (List.range g.n).map (fun i =>
    (List.range g.n).map (fun j =>
      decide (sccLabel g j ∈ fuelReach (condSuccs g) g.n (sccLabel g i)) ||
        decide (sccLabel g i = sccLabel g j)))

theorem purdoms_cell {g : MtxGraph T} {i j : Nat} (hi : i < g.n)
    (hj : j < g.n) :
    closureCell (purdoms g) i j = true ↔
      (sccLabel g j ∈ fuelReach (condSuccs g) g.n (sccLabel g i) ∨
        sccLabel g i = sccLabel g j) := by
  unfold closureCell purdoms
  simp only [List.getD]
  rw [List.get?_map, List.get?_range hi]
  simp only [Option.map_some', Option.getD_some]
  rw [List.get?_map, List.get?_range hj]
  simp only [Option.map_some', Option.getD_some, Bool.or_eq_true,
    decide_eq_true_eq]

theorem reach_nodes_lt {g : MtxGraph T} {i b : Nat} (hi : i < g.n)
    (h : Reach (mtxNbrs g) i b) : b < g.n := by
  induction h with
  | refl => exact hi
  | tail _ hbc _ => exact mtxNbrs_lt hbc

theorem condReach_to_reach {g : MtxGraph T} (hwf : MtxWf g) :
    ∀ u L, Relation.ReflTransGen (SuccRel (condSuccs g)) u L →
      ∀ a, a < g.n → sccLabel g a = u → ∀ c, c < g.n → sccLabel g c = L →
        Reach (mtxNbrs g) a c := by
  intro u L h
  induction h with
  | refl =>
    intro a ha hla c hc hlc
    exact (sccSame_of_label_eq hwf ha hc (hla.trans hlc.symm)).1
  | tail _ hstep ih =>
    intro a ha hla c hc hlc
    obtain ⟨hLlt, _, a0, ha0, hla0, b0, hb0mem, hlb0⟩ := mem_condSuccs.mp hstep
    have hb0lt : b0 < g.n := mtxNbrs_lt hb0mem
    have h1 : Reach (mtxNbrs g) a a0 := ih a ha hla a0 ha0 hla0
    have h3 : Reach (mtxNbrs g) b0 c :=
      (sccSame_of_label_eq hwf hb0lt hc (hlb0.trans hlc.symm)).1
    exact (h1.trans (Relation.ReflTransGen.single hb0mem)).trans h3

theorem reach_to_condReach {g : MtxGraph T} (hwf : MtxWf g) :
    ∀ i j, i < g.n → Reach (mtxNbrs g) i j →
      Relation.ReflTransGen (SuccRel (condSuccs g)) (sccLabel g i) (sccLabel g j) := by
  intro i j hi hr
  induction hr with
  | refl => exact Relation.ReflTransGen.refl
  | @tail b c hib hbc ih =>
    have hb : b < g.n := reach_nodes_lt hi hib
    have hc : c < g.n := mtxNbrs_lt hbc
    by_cases hlbc : sccLabel g b = sccLabel g c
    · rw [← hlbc]
      exact ih
    · refine ih.tail ?_
      exact mem_condSuccs.mpr ⟨sccLabel_lt hwf hc, fun he => hlbc he.symm,
        b, hb, rfl, c, hbc, rfl⟩

theorem purdoms_cell_iff_reach {g : MtxGraph T} (hwf : MtxWf g) {i j : Nat}
    (hi : i < g.n) (hj : j < g.n) :
    closureCell (purdoms g) i j = true ↔ Reach (mtxNbrs g) i j := by
  rw [purdoms_cell hi hj]
  constructor
  · rintro (h | h)
    · exact condReach_to_reach hwf _ _ (fuelReach_sound (condSuccs g) _ _ _ h)
        i hi rfl j hj rfl
    · exact (sccSame_of_label_eq hwf hi hj h).1
  · intro h
    exact Or.inl (reach_mem_fuelReach (condSuccs g) g.n condSuccs_lt
      (sccLabel_lt hwf hi) (reach_to_condReach hwf i j hi h))

theorem bfs_cell_iff_reach {g : MtxGraph T} (hwf : MtxWf g) {i j : Nat}
    (hi : i < g.n) (hj : j < g.n) :
    closureCell (bfs_compute_closure_mtx g) i j = true ↔
      Reach (mtxNbrs g) i j := by
  rw [closureCell_eq_mem hi]
  constructor
  · rintro ⟨h, _⟩
    exact ((bfsTraversalMtx_spec hwf hi).1 j).mp h
  · intro h
    exact ⟨((bfsTraversalMtx_spec hwf hi).1 j).mpr h, hj⟩

theorem bool_eq_of_iff {a b : Bool} (h : a = true ↔ b = true) : a = b := by
  cases a <;> cases b <;> simp_all

/-! Dijkstra (mtx_graph/graph.rs: dijkstra and path_to). -/

/-- Mirrors the usize-to-i32 as-cast applied to edge weights in dijkstra
(`*e as i32`): the low 32 bits of the weight read as two's complement, so
weights of 2^31 and above wrap to negative values. -/
def asI32 (w : Nat) : Int :=
  if w % 2 ^ 32 < 2 ^ 31 then ((w % 2 ^ 32 : Nat) : Int)
  else ((w % 2 ^ 32 : Nat) : Int) - 2 ^ 32

theorem asI32_eq_of_lt {w : Nat} (h : w < 2 ^ 31) : asI32 w = (w : Int) := by
  unfold asI32
  rw [Nat.mod_eq_of_lt (by omega)]
  rw [if_pos h]

/-- Mirrors the weighted neighbor enumeration of dijkstra:
edges(current).iter().enumerate().filter(e > 0).map((GraphIdx(i), e as i32)),
with the enumeration offset in the first argument; the filter tests the
usize weight and the map applies the wrapping i32 cast. -/
def enumFilterPosW : Nat → List Nat → List (Nat × Int)
  | _, [] => []
  | i, w :: ws =>
    if 0 < w then (i, asI32 w) :: enumFilterPosW (i + 1) ws
    else enumFilterPosW (i + 1) ws

/-- Weighted successor list of node x. -/
def mtxNbrsW (g : MtxGraph T) (x : Nat) : List (Nat × Int) :=
  enumFilterPosW 0 (edgesRow g x)

/-- First-match association-list lookup; insertion is cons, so the newest
entry shadows older ones, matching HashMap insert/get. -/
def alookup {A : Type} : List (Nat × A) → Nat → Option A
  | [], _ => none
  | (k, v) :: t, x => if k = x then some v else alookup t x

/-- Dijkstra state: the BinaryHeap frontier (pushed, not yet popped entries),
the came_from map and the cost_so_far map, both association lists. -/
structure DijState where
  frontier : List (Nat × Int)
  came : List (Nat × Option Nat)
  cost : List (Nat × Int)

/-- Mirrors BinaryHeap::pop with the reversed Ord on weights: removes a
minimum-weight entry (the earliest-pushed one among ties; the Rust heap
breaks ties arbitrarily) and returns it with the remaining entries. -/
def popMin : List (Nat × Int) → Option ((Nat × Int) × List (Nat × Int))
  | [] => none
  | x :: xs =>
    match popMin xs with
    | none => some (x, [])
    | some (y, ys) => if x.2 ≤ y.2 then some (x, xs) else some (y, x :: ys)

/-- Mirrors one iteration of the neighbor loop of dijkstra: the relaxation
guard (!contains || strictly smaller) && within max_cost, and on success the
three simultaneous insertions. Costs accumulate in Int where the source
adds i32; the C6/C7 theorems carry the bound n * max-weight < 2^31, under
which every recorded and candidate cost the source computes stays inside
the i32 range, so the exact additions (and the absence of the debug-mode
overflow panic) match the source. -/
def relaxOne (maxCost : Option Int) (cur : Nat) (st : DijState)
    (nb : Nat × Int) : DijState :=
  let newCost := (alookup st.cost cur).getD 0 + nb.2
  let nextCost := (alookup st.cost nb.1).getD 0
  if ((alookup st.cost nb.1).isNone || decide (newCost < nextCost)) &&
      maxCost.elim true (fun m => decide (newCost ≤ m)) then
    { frontier := st.frontier ++ [(nb.1, newCost)]
      came := (nb.1, some cur) :: st.came
      cost := (nb.1, newCost) :: st.cost }
  else st

/-- Mirrors the full neighbor loop for the popped node cur. -/
def relaxAll (g : MtxGraph T) (maxCost : Option Int) (cur : Nat)
    (st : DijState) : DijState :=
  (mtxNbrsW g cur).foldl (relaxOne maxCost cur) st

/-- Mirrors the while-let pop loop of dijkstra, with fuel bounding the number
of iterations (the termination lemmas show the chosen fuel is never
exhausted before the frontier empties or the target is popped). -/
def dijkstraLoop (g : MtxGraph T) (maxCost : Option Int) (target : Option Nat) :
    Nat → DijState → DijState
  | 0, st => st
  | fuel + 1, st =>
    match popMin st.frontier with
    | none => st
    | some ((v, _), rest) =>
      if target = some v then { st with frontier := rest }
      else dijkstraLoop g maxCost target fuel
        (relaxAll g maxCost v { st with frontier := rest })

/-- Largest weight stored in the flat matrix. -/
def maxWeightN (g : MtxGraph T) : Nat := g.mtx.foldr max 0

/-- Iteration budget sufficient for the loop to reach its natural exit. -/
def dijFuel (g : MtxGraph T) : Nat :=
  2 * (g.n * (g.n * maxWeightN g + 1)) + 2

/-- The full final state of dijkstra(start, max_cost, target). -/
def dijkstraFull (g : MtxGraph T) (start : Nat) (maxCost : Option Int)
    (target : Option Nat) : DijState :=
  dijkstraLoop g maxCost target (dijFuel g)
    ⟨[(start, 0)], [(start, none)], [(start, 0)]⟩

/-- Mirrors Graph::dijkstra: the returned came_from map (newest entry first;
lookups read the newest entry, exactly like the HashMap it models). -/
def dijkstra (g : MtxGraph T) (start : Nat) (maxCost : Option Int)
    (target : Option Nat) : List (Nat × Option Nat) :=
  (dijkstraFull g start maxCost target).came

/-- Mirrors the backward walk of path_to: while curr != start, push curr and
follow the predecessor entry, failing when the entry is missing or none.
The fuel bounds the loop; n+1 steps always suffice because recorded costs
strictly decrease along predecessor links. -/
def pathToWalk (came : List (Nat × Option Nat)) (start : Nat) :
    Nat → Nat → List Nat → Option (List Nat)
  | 0, _, _ => none
  | fuel + 1, curr, path =>
    if curr = start then some path
    else
      match alookup came curr with
      | none => none
      | some none => none
      | some (some nxt) => pathToWalk came start fuel nxt (path ++ [curr])

/-- Mirrors Graph::path_to. -/
def path_to (g : MtxGraph T) (start target : Nat) : Option (List Nat) :=
  pathToWalk (dijkstra g start none (some target)) start (g.n + 1) target []

theorem alookup_mem {A : Type} :
    ∀ {l : List (Nat × A)} {x : Nat} {v : A}, alookup l x = some v → (x, v) ∈ l := by
  intro l
  induction l with
  | nil => intro x v h; simp [alookup] at h
  | cons p t ih =>
    intro x v h
    by_cases hk : p.1 = x
    · simp only [alookup, if_pos hk] at h
      · rw [List.mem_cons]
        left
        cases p
        simp only at hk
        simp only [Option.some.injEq] at h
        simp [hk, h]
    · simp only [alookup] at h
      rw [if_neg (by exact hk)] at h
      exact List.mem_cons_of_mem p (ih h)

theorem alookup_cons {A : Type} (k : Nat) (v : A) (t : List (Nat × A)) (x : Nat) :
    alookup ((k, v) :: t) x = if k = x then some v else alookup t x := rfl

theorem alookup_cons_ne {A : Type} {k x : Nat} (v : A) (t : List (Nat × A))
    (h : k ≠ x) : alookup ((k, v) :: t) x = alookup t x := by
  simp [alookup_cons, h]

theorem alookup_isSome_cons {A : Type} {t : List (Nat × A)} {x : Nat}
    (k : Nat) (v : A) (h : (alookup t x).isSome) :
    (alookup ((k, v) :: t) x).isSome := by
  rw [alookup_cons]
  by_cases hk : k = x <;> simp [hk, h]

theorem popMin_none_iff : ∀ l : List (Nat × Int), popMin l = none ↔ l = [] := by
  intro l
  cases l with
  | nil => simp [popMin]
  | cons x xs =>
    simp only [popMin]
    cases popMin xs with
    | none => simp
    | some p =>
      by_cases h : x.2 ≤ p.1.2 <;> simp [h]

theorem popMin_perm :
    ∀ {l : List (Nat × Int)} {p : Nat × Int} {rest : List (Nat × Int)},
      popMin l = some (p, rest) → List.Perm l (p :: rest) := by
  intro l
  induction l with
  | nil => intro p rest h; simp [popMin] at h
  | cons x xs ih =>
    intro p rest h
    simp only [popMin] at h
    cases hx : popMin xs with
    | none =>
      rw [hx] at h
      have hxs : xs = [] := (popMin_none_iff xs).mp hx
      subst hxs
      simp only [Option.some.injEq, Prod.mk.injEq] at h
      obtain ⟨rfl, rfl⟩ := h
      exact List.Perm.refl _
    | some q =>
      obtain ⟨q1, q2⟩ := q
      rw [hx] at h
      simp only at h
      by_cases hle : x.2 ≤ q1.2
      · rw [if_pos hle] at h
        simp only [Option.some.injEq, Prod.mk.injEq] at h
        obtain ⟨rfl, rfl⟩ := h
        exact List.Perm.refl _
      · rw [if_neg hle] at h
        simp only [Option.some.injEq, Prod.mk.injEq] at h
        obtain ⟨rfl, rfl⟩ := h
        have hperm := @ih q1 q2 hx
        exact (hperm.cons x).trans (List.Perm.swap q1 x q2)

theorem popMin_min :
    ∀ {l : List (Nat × Int)} {p : Nat × Int} {rest : List (Nat × Int)},
      popMin l = some (p, rest) → ∀ q ∈ l, p.2 ≤ q.2 := by
  intro l
  induction l with
  | nil => intro p rest h; simp [popMin] at h
  | cons x xs ih =>
    intro p rest h q hq
    simp only [popMin] at h
    cases hx : popMin xs with
    | none =>
      rw [hx] at h
      have hxs : xs = [] := (popMin_none_iff xs).mp hx
      subst hxs
      simp only [Option.some.injEq, Prod.mk.injEq] at h
      obtain ⟨rfl, rfl⟩ := h
      rcases List.mem_cons.mp hq with rfl | hq2
      · exact le_refl _
      · exact absurd hq2 (List.not_mem_nil q)
    | some pr =>
      obtain ⟨y, ys⟩ := pr
      rw [hx] at h
      simp only at h
      by_cases hle : x.2 ≤ y.2
      · rw [if_pos hle] at h
        simp only [Option.some.injEq, Prod.mk.injEq] at h
        obtain ⟨rfl, rfl⟩ := h
        rcases List.mem_cons.mp hq with rfl | hq2
        · exact le_refl _
        · exact le_trans hle (@ih y ys hx q hq2)
      · rw [if_neg hle] at h
        simp only [Option.some.injEq, Prod.mk.injEq] at h
        obtain ⟨rfl, rfl⟩ := h
        rcases List.mem_cons.mp hq with rfl | hq2
        · exact le_of_not_le hle
        · exact @ih y ys hx q hq2

/-- Unfolding equation for one loop iteration whose pop result is known. -/
theorem dijkstraLoop_pop (g : MtxGraph T) (mc : Option Int) (t : Option Nat)
    (fuel : Nat) (st : DijState) (v : Nat) (cv : Int) (rest : List (Nat × Int))
    (h : popMin st.frontier = some ((v, cv), rest)) :
    dijkstraLoop g mc t (fuel + 1) st =
      if t = some v then { st with frontier := rest }
      else dijkstraLoop g mc t fuel
        (relaxAll g mc v { st with frontier := rest }) := by
  rw [dijkstraLoop, h]

/-- Closed form of a successful relaxation: when the guard passes (the
neighbor is unkeyed or the candidate cost strictly improves; max_cost is
absent), the three simultaneous insertions happen. -/
theorem relaxOne_insert {cur : Nat} {st : DijState} {nb : Nat × Int} {c0 : Int}
    (hc : alookup st.cost cur = some c0)
    (hg : alookup st.cost nb.1 = none ∨
      ∃ c1, alookup st.cost nb.1 = some c1 ∧ c0 + nb.2 < c1) :
    relaxOne none cur st nb =
      ⟨st.frontier ++ [(nb.1, c0 + nb.2)], (nb.1, some cur) :: st.came,
        (nb.1, c0 + nb.2) :: st.cost⟩ := by
  simp only [relaxOne]
  rw [hc]
  rcases hg with h2 | ⟨c1, h2, h3⟩
  · rw [h2]
    simp
  · rw [h2]
    simp [decide_eq_true h3]

/-- The recorded cost history of node v, newest first: the association list
keeps shadowed entries, so the per-key filter lists every insertion ever made
for v. -/
def costHist (cost : List (Nat × Int)) (v : Nat) : List Int :=
  (cost.filter (fun p => p.1 == v)).map (fun p => p.2)

theorem alookup_eq_costHist_head :
    ∀ (cost : List (Nat × Int)) (v : Nat), alookup cost v = (costHist cost v).head? := by
  intro cost
  induction cost with
  | nil => intro v; simp [alookup, costHist]
  | cons p t ih =>
    intro v
    obtain ⟨k, c⟩ := p
    by_cases hk : k = v
    · subst hk
      simp [alookup, costHist]
    · rw [alookup_cons_ne c t hk]
      unfold costHist
      rw [List.filter_cons_of_neg (by simpa using hk)]
      exact ih v

/-- The run invariant behind the amended C5: came_from and cost_so_far are
always inserted into together, and each re-insertion for a key carries a
strictly smaller cost than the previous one. -/
def RecInv (st : DijState) : Prop :=
  ∀ v, (st.came.filter (fun p => p.1 == v)).length =
      (st.cost.filter (fun p => p.1 == v)).length ∧
    List.Chain' (fun a b => a < b) (costHist st.cost v)

theorem filter_key_cons_self {A : Type} (k : Nat) (v : A) (t : List (Nat × A)) :
    (((k, v) :: t).filter (fun p => p.1 == k)) =
      (k, v) :: t.filter (fun p => p.1 == k) := by
  rw [List.filter_cons]
  simp

theorem filter_key_cons_ne {A : Type} {k x : Nat} (h : k ≠ x) (v : A)
    (t : List (Nat × A)) :
    (((k, v) :: t).filter (fun p => p.1 == x)) = t.filter (fun p => p.1 == x) := by
  rw [List.filter_cons]
  simp [h]

theorem recInv_relaxOne (maxCost : Option Int) (cur : Nat) (st : DijState)
    (nb : Nat × Int) (h : RecInv st) : RecInv (relaxOne maxCost cur st nb) := by
  unfold relaxOne
  by_cases hg : (((alookup st.cost nb.1).isNone ||
      decide ((alookup st.cost cur).getD 0 + nb.2 < (alookup st.cost nb.1).getD 0)) &&
      maxCost.elim true (fun m => decide ((alookup st.cost cur).getD 0 + nb.2 ≤ m))) = true
  · rw [if_pos hg]
    intro v
    by_cases hv : nb.1 = v
    · subst hv
      constructor
      · rw [filter_key_cons_self, filter_key_cons_self]
        simp only [List.length_cons]
        rw [(h nb.1).1]
      · show List.Chain' (fun a b => a < b) (costHist ((nb.1, _) :: st.cost) nb.1)
        unfold costHist
        rw [filter_key_cons_self, List.map_cons, List.chain'_cons']
        refine ⟨?_, (h nb.1).2⟩
        intro b hb
        have hhead : alookup st.cost nb.1 = (costHist st.cost nb.1).head? :=
          alookup_eq_costHist_head st.cost nb.1
        simp only [Bool.and_eq_true, Bool.or_eq_true, Option.isNone_iff_eq_none,
          decide_eq_true_eq] at hg
        have hb2 : (costHist st.cost nb.1).head? = some b := hb
        rcases hg.1 with hnone | hlt
        · rw [hnone] at hhead
          rw [← hhead] at hb2
          exact absurd hb2 (by simp)
        · rw [← hhead] at hb2
          rw [hb2] at hlt
          simpa using hlt
    · constructor
      · rw [filter_key_cons_ne hv, filter_key_cons_ne hv]
        exact (h v).1
      · show List.Chain' (fun a b => a < b) (costHist ((nb.1, _) :: st.cost) v)
        unfold costHist
        rw [filter_key_cons_ne hv]
        exact (h v).2
  · rw [if_neg hg]
    exact h

theorem recInv_relaxAll (g : MtxGraph T) (maxCost : Option Int) (cur : Nat)
    (st : DijState) (h : RecInv st) : RecInv (relaxAll g maxCost cur st) := by
  unfold relaxAll
  generalize mtxNbrsW g cur = l
  induction l generalizing st with
  | nil => simpa using h
  | cons nb t ih =>
    rw [List.foldl_cons]
    exact ih _ (recInv_relaxOne maxCost cur st nb h)

theorem recInv_loop (g : MtxGraph T) (maxCost : Option Int) (target : Option Nat) :
    ∀ fuel st, RecInv st → RecInv (dijkstraLoop g maxCost target fuel st) := by
  intro fuel
  induction fuel with
  | zero => intro st h; exact h
  | succ f ih =>
    intro st h
    unfold dijkstraLoop
    cases hp : popMin st.frontier with
    | none => exact h
    | some pr =>
      obtain ⟨⟨v, c⟩, rest⟩ := pr
      simp only
      by_cases ht : target = some v
      · rw [if_pos ht]
        intro w
        exact h w
      · rw [if_neg ht]
        refine ih _ (recInv_relaxAll g maxCost v _ ?_)
        intro w
        exact h w

/-- C5 (amended): during a dijkstra run the predecessor map and the cost map
are always written together, and a node's predecessor entry is re-recorded
only along with a strictly smaller tentative cost: in the final association
lists (which keep every insertion, newest first) each key has equally many
came_from and cost_so_far records, and its recorded costs strictly increase
from newest to oldest. -/
theorem c5_predecessor_rewrites_strictly_decrease_cost (g : MtxGraph T)
    (start : Nat) (maxCost : Option Int) (target : Option Nat) :
    ∀ v, ((dijkstraFull g start maxCost target).came.filter
          (fun p => p.1 == v)).length =
        ((dijkstraFull g start maxCost target).cost.filter
          (fun p => p.1 == v)).length ∧
      List.Chain' (fun a b => a < b)
        (costHist (dijkstraFull g start maxCost target).cost v) := by
  refine recInv_loop g maxCost target (dijFuel g) _ ?_
  intro v
  by_cases hv : start = v
  · subst hv
    simp [costHist]
  · constructor
    · simp [List.filter_cons_of_neg, hv, costHist]
    · simp [costHist, List.filter_cons_of_neg, hv]

/-- Three nodes with directed weighted edges 0 -> 1 (weight 1),
0 -> 2 (weight 5) and 1 -> 2 (weight 1): dijkstra from 0 first records node
2's predecessor as 0 at cost 5, then overwrites it with predecessor 1 at
cost 2. -/
def c5g : MtxGraph Unit :=
  addEdgeDW (addEdgeDW (addEdgeDW
    ((addNode (addNode (addNode (MtxGraph.empty Unit) ()).2 ()).2 ()).2)
    0 1 1) 0 2 5) 1 2 1

/-- C5 counterexample: the predecessor entry of node 2 is inserted twice
during one run (first from node 0, then overwritten from node 1), refuting
the insert-once claim. -/
theorem c5_counterexample :
    ((dijkstra c5g 0 none none).filter (fun p => p.1 == 2)).length = 2 ∧
      (2, some 0) ∈ dijkstra c5g 0 none none ∧
      (2, some 1) ∈ dijkstra c5g 0 none none := by decide

/-! Invariants of the dijkstra loop. -/

theorem mem_enumFilterPosW {ws : List Nat} :
    ∀ {off : Nat} {p : Nat × Int}, p ∈ enumFilterPosW off ws ↔
      ∃ k, k < ws.length ∧ p.1 = off + k ∧ 0 < ws.getD k 0 ∧
        p.2 = asI32 (ws.getD k 0) := by
  induction ws with
  | nil => simp [enumFilterPosW]
  | cons w ws ih =>
    intro off p
    by_cases hw : 0 < w
    · simp only [enumFilterPosW, if_pos hw, List.mem_cons, ih]
      constructor
      · rintro (rfl | ⟨k, hk, h1, h2, h3⟩)
        · exact ⟨0, by simp, by simp, by simpa using hw, by simp⟩
        · exact ⟨k + 1, by simpa using hk, by omega, by simpa using h2, by simpa using h3⟩
      · rintro ⟨k, hk, h1, h2, h3⟩
        cases k with
        | zero =>
          left
          simp only [List.getD_cons_zero] at h3
          obtain ⟨p1, p2⟩ := p
          simp only at h1 h3
          simp [h1, h3]
        | succ k =>
          right
          exact ⟨k, by simpa using hk, by omega, by simpa using h2, by simpa using h3⟩
    · simp only [enumFilterPosW, if_neg hw, ih]
      constructor
      · rintro ⟨k, hk, h1, h2, h3⟩
        exact ⟨k + 1, by simpa using hk, by omega, by simpa using h2, by simpa using h3⟩
      · rintro ⟨k, hk, h1, h2, h3⟩
        cases k with
        | zero => exact absurd (by simpa using h2) hw
        | succ k =>
          exact ⟨k, by simpa using hk, by omega, by simpa using h2, by simpa using h3⟩

theorem edgesRow_subset {g : MtxGraph T} {x : Nat} {w : Nat}
    (h : w ∈ edgesRow g x) : w ∈ g.mtx := by
  unfold edgesRow at h
  exact List.mem_of_mem_drop (List.mem_of_mem_take h)

theorem le_foldr_max : ∀ (l : List Nat) (a : Nat), a ∈ l → a ≤ l.foldr max 0 := by
  intro l
  induction l with
  | nil => intro a ha; exact absurd ha (List.not_mem_nil a)
  | cons x t ih =>
    intro a ha
    rcases List.mem_cons.mp ha with rfl | ha
    · simp [List.foldr_cons, le_max_iff]
    · simp only [List.foldr_cons, le_max_iff]
      exact Or.inr (ih a ha)

theorem getD_mem {l : List Nat} {k : Nat} (h : k < l.length) :
    l.getD k 0 ∈ l := by
  rw [List.getD_eq_getElem l 0 h]
  exact List.getElem_mem h

/-- Index facts about a weighted neighbor, independent of the weight cast. -/
theorem mtxNbrsW_edge {g : MtxGraph T} {x : Nat} {p : Nat × Int}
    (h : p ∈ mtxNbrsW g x) : p.1 < g.n ∧ p.1 ∈ mtxNbrs g x := by
  obtain ⟨k, hk, h1, h2, _⟩ := mem_enumFilterPosW.mp h
  have hrowlen : (edgesRow g x).length ≤ g.n := by
    simp [edgesRow]
  refine ⟨by omega, ?_⟩
  rw [mtxNbrs, mem_enumFilterPos]
  exact ⟨k, hk, h1, h2⟩

/-- When every stored weight is below 2^31 the i32 cast is exact, and the
weighted neighbors carry positive weights bounded by the matrix maximum. -/
theorem mtxNbrsW_facts {g : MtxGraph T} (hcast : maxWeightN g < 2 ^ 31)
    {x : Nat} {p : Nat × Int} (h : p ∈ mtxNbrsW g x) :
    p.1 < g.n ∧ 1 ≤ p.2 ∧ p.2 ≤ (maxWeightN g : Int) ∧ p.1 ∈ mtxNbrs g x := by
  obtain ⟨k, hk, h1, h2, h3⟩ := mem_enumFilterPosW.mp h
  have hrowlen : (edgesRow g x).length ≤ g.n := by
    simp [edgesRow]
  have hmem : (edgesRow g x).getD k 0 ∈ g.mtx :=
    edgesRow_subset (getD_mem hk)
  have hwle : (edgesRow g x).getD k 0 ≤ maxWeightN g := le_foldr_max g.mtx _ hmem
  have hcastw : asI32 ((edgesRow g x).getD k 0) =
      (((edgesRow g x).getD k 0 : Nat) : Int) :=
    asI32_eq_of_lt (lt_of_le_of_lt hwle hcast)
  refine ⟨by omega, ?_, ?_, ?_⟩
  · rw [h3, hcastw]
    exact_mod_cast h2
  · rw [h3, hcastw]
    exact_mod_cast hwle
  · rw [mtxNbrs, mem_enumFilterPos]
    exact ⟨k, hk, h1, h2⟩

theorem mtxNbrs_exists_w {g : MtxGraph T} {x i : Nat} (h : i ∈ mtxNbrs g x) :
    ∃ w, (i, w) ∈ mtxNbrsW g x := by
  obtain ⟨k, hk, h1, h2⟩ := mem_enumFilterPos.mp h
  exact ⟨asI32 ((edgesRow g x).getD k 0),
    mem_enumFilterPosW.mpr ⟨k, hk, h1, h2, rfl⟩⟩

/-- Cost-annotated reachability: CostReach g start v c holds when some
directed path from start to v has total weight c. -/
inductive CostReach (g : MtxGraph T) (start : Nat) : Nat → Int → Prop
  | refl : CostReach g start start 0
  | step {b c : Nat} {cb w : Int} : CostReach g start b cb →
      (c, w) ∈ mtxNbrsW g b → CostReach g start c (cb + w)

theorem costReach_reach {g : MtxGraph T} {start x : Nat} {c : Int}
    (h : CostReach g start x c) : Reach (mtxNbrs g) start x := by
  induction h with
  | refl => exact Relation.ReflTransGen.refl
  | step _ hmem ih =>
    exact Relation.ReflTransGen.tail ih (mtxNbrsW_edge hmem).2

/-- The keyed nodes of the cost map (within the index range). -/
def dijKeys (g : MtxGraph T) (cost : List (Nat × Int)) : Finset Nat :=
  (Finset.range g.n).filter (fun v => (alookup cost v).isSome)

theorem dijKeys_card_le (g : MtxGraph T) (cost : List (Nat × Int)) :
    (dijKeys g cost).card ≤ g.n := by
  calc (dijKeys g cost).card ≤ (Finset.range g.n).card :=
        Finset.card_le_card (Finset.filter_subset _ _)
  _ = g.n := Finset.card_range g.n

theorem dijKeys_insert_fresh {g : MtxGraph T} {cost : List (Nat × Int)}
    {nb : Nat} (hnone : alookup cost nb = none) (hlt : nb < g.n) (c : Int) :
    dijKeys g ((nb, c) :: cost) = insert nb (dijKeys g cost) ∧
      (dijKeys g ((nb, c) :: cost)).card = (dijKeys g cost).card + 1 := by
  have hext : dijKeys g ((nb, c) :: cost) = insert nb (dijKeys g cost) := by
    unfold dijKeys
    ext v
    simp only [Finset.mem_filter, Finset.mem_range, Finset.mem_insert]
    rw [alookup_cons]
    by_cases hv : nb = v
    · subst hv
      simp [hlt]
    · simp only [if_neg hv]
      constructor
      · rintro ⟨h1, h2⟩; exact Or.inr ⟨h1, h2⟩
      · rintro (rfl | ⟨h1, h2⟩)
        · exact absurd rfl hv
        · exact ⟨h1, h2⟩
  refine ⟨hext, ?_⟩
  rw [hext]
  rw [Finset.card_insert_of_not_mem ?_]
  unfold dijKeys
  simp [hnone]

theorem dijKeys_insert_update {g : MtxGraph T} {cost : List (Nat × Int)}
    {nb : Nat} (hsome : (alookup cost nb).isSome) (c : Int) :
    dijKeys g ((nb, c) :: cost) = dijKeys g cost := by
  unfold dijKeys
  ext v
  simp only [Finset.mem_filter, Finset.mem_range]
  rw [alookup_cons]
  by_cases hv : nb = v
  · subst hv
    simp [hsome]
  · simp [if_neg hv]

theorem alookup_cons_self {A : Type} (k : Nat) (v : A) (t : List (Nat × A)) :
    alookup ((k, v) :: t) k = some v := by
  simp [alookup_cons]

/-- The core dijkstra loop invariant: every recorded cost is the cost of a
real path, is nonnegative, bounded by (number of keyed nodes) times the
largest weight, within max_cost for non-start keys; all keys are in range;
frontier and came_from keys are cost keys and conversely; the start always
maps to cost 0 and predecessor none; every predecessor link is a real edge
along which the recorded cost strictly drops, and only the start has a none
predecessor. -/
structure DijCore (g : MtxGraph T) (start : Nat) (maxCost : Option Int)
    (st : DijState) : Prop where
  cost_reach : ∀ p ∈ st.cost, CostReach g start p.1 p.2
  cost_nonneg : ∀ p ∈ st.cost, 0 ≤ p.2
  cost_bound : ∀ p ∈ st.cost,
    p.2 ≤ ((dijKeys g st.cost).card : Int) * (maxWeightN g : Int)
  cost_max : ∀ p ∈ st.cost, p.1 ≠ start → ∀ m, maxCost = some m → p.2 ≤ m
  keys_lt : ∀ p ∈ st.cost, p.1 < g.n
  frontier_keyed : ∀ p ∈ st.frontier, (alookup st.cost p.1).isSome
  came_keyed : ∀ p ∈ st.came, (alookup st.cost p.1).isSome
  cost_came : ∀ p ∈ st.cost, (alookup st.came p.1).isSome
  start_cost : alookup st.cost start = some 0
  came_start : alookup st.came start = some none
  came_pred : ∀ x u, alookup st.came x = some (some u) → x ∈ mtxNbrs g u ∧
    ∃ cx cu, alookup st.cost x = some cx ∧ alookup st.cost u = some cu ∧ cu < cx
  came_none : ∀ x, alookup st.came x = some none → x = start

/-- Every costed node still has a frontier entry or has had all its
neighbors relaxed into the cost map. -/
def DijClosed (g : MtxGraph T) (st : DijState) : Prop :=
  ∀ p ∈ st.cost, (∃ q ∈ st.frontier, q.1 = p.1) ∨
    ∀ iw ∈ mtxNbrsW g p.1, (alookup st.cost iw.1).isSome

/-- Closure for every costed node except possibly cur. -/
def DijClosedExcept (g : MtxGraph T) (cur : Nat) (st : DijState) : Prop :=
  ∀ p ∈ st.cost, p.1 ≠ cur → (∃ q ∈ st.frontier, q.1 = p.1) ∨
    ∀ iw ∈ mtxNbrsW g p.1, (alookup st.cost iw.1).isSome

/-- Room left for node v's recorded cost to shrink. -/
def dijRoom (g : MtxGraph T) (cost : List (Nat × Int)) (v : Nat) : Nat :=
  match alookup cost v with
  | some c => c.toNat
  | none => g.n * maxWeightN g + 1

/-- Total remaining room over all in-range nodes. -/
def dijRoomSum (g : MtxGraph T) (cost : List (Nat × Int)) : Nat :=
  ∑ v in Finset.range g.n, dijRoom g cost v

/-- Termination measure of the dijkstra loop. -/
def dijMeasure (g : MtxGraph T) (st : DijState) : Nat :=
  2 * dijRoomSum g st.cost + st.frontier.length

theorem sum_room_decrease (g : MtxGraph T) {cost cost2 : List (Nat × Int)}
    {a : Nat} (ha : a < g.n)
    (hothers : ∀ v, v ≠ a → dijRoom g cost2 v = dijRoom g cost v)
    (hdec : dijRoom g cost2 a + 1 ≤ dijRoom g cost a) :
    dijRoomSum g cost2 + 1 ≤ dijRoomSum g cost := by
  unfold dijRoomSum
  have hsplit1 := Finset.sum_erase_add (Finset.range g.n) (dijRoom g cost)
    (Finset.mem_range.mpr ha)
  have hsplit2 := Finset.sum_erase_add (Finset.range g.n) (dijRoom g cost2)
    (Finset.mem_range.mpr ha)
  have heq : ∑ v in (Finset.range g.n).erase a, dijRoom g cost2 v =
      ∑ v in (Finset.range g.n).erase a, dijRoom g cost v :=
    Finset.sum_congr rfl (fun v hv => hothers v (Finset.ne_of_mem_erase hv))
  omega

theorem dijRoom_le (g : MtxGraph T) (start : Nat) (maxCost : Option Int)
    (st : DijState) (hcore : DijCore g start maxCost st) (v : Nat) :
    dijRoom g st.cost v ≤ g.n * maxWeightN g + 1 := by
  cases hl : alookup st.cost v with
  | none => simp [dijRoom, hl]
  | some c =>
    have hmem := alookup_mem hl
    have hb := hcore.cost_bound (v, c) hmem
    have hcard : ((dijKeys g st.cost).card : Int) * (maxWeightN g : Int) ≤
        (g.n : Int) * (maxWeightN g : Int) := by
      have := dijKeys_card_le g st.cost
      have hW : (0 : Int) ≤ (maxWeightN g : Int) := Int.ofNat_nonneg _
      exact mul_le_mul_of_nonneg_right (by exact_mod_cast this) hW
    have hle : c ≤ ((g.n * maxWeightN g : Nat) : Int) := by
      push_cast
      exact le_trans hb hcard
    have h2 : c.toNat ≤ g.n * maxWeightN g := by omega
    simp only [dijRoom, hl]
    omega

theorem dij_relaxOne (g : MtxGraph T) (start : Nat) (maxCost : Option Int)
    (hcast : maxWeightN g < 2 ^ 31)
    (cur : Nat) (st : DijState) (nb : Nat × Int)
    (hcore : DijCore g start maxCost st)
    (hcur : (alookup st.cost cur).isSome)
    (hnb : nb ∈ mtxNbrsW g cur) :
    DijCore g start maxCost (relaxOne maxCost cur st nb) ∧
      (∀ x, (alookup st.cost x).isSome →
        (alookup (relaxOne maxCost cur st nb).cost x).isSome) ∧
      (∀ q ∈ st.frontier, q ∈ (relaxOne maxCost cur st nb).frontier) ∧
      (maxCost = none → (alookup (relaxOne maxCost cur st nb).cost nb.1).isSome) ∧
      (∀ cur2, DijClosedExcept g cur2 st →
        DijClosedExcept g cur2 (relaxOne maxCost cur st nb)) ∧
      2 * dijRoomSum g (relaxOne maxCost cur st nb).cost +
          (relaxOne maxCost cur st nb).frontier.length ≤
        2 * dijRoomSum g st.cost + st.frontier.length := by
  obtain ⟨c0, hc0⟩ := Option.isSome_iff_exists.mp hcur
  obtain ⟨hnb_lt, hnb_w1, hnb_wmax, hnb_edge⟩ := mtxNbrsW_facts hcast hnb
  have hc0_mem : (cur, c0) ∈ st.cost := alookup_mem hc0
  have hc0_nonneg : 0 ≤ c0 := hcore.cost_nonneg (cur, c0) hc0_mem
  have hc0_bound := hcore.cost_bound (cur, c0) hc0_mem
  unfold relaxOne
  by_cases hg : (((alookup st.cost nb.1).isNone ||
      decide ((alookup st.cost cur).getD 0 + nb.2 < (alookup st.cost nb.1).getD 0)) &&
      maxCost.elim true (fun m => decide ((alookup st.cost cur).getD 0 + nb.2 ≤ m))) = true
  case neg =>
    rw [if_neg hg]
    refine ⟨hcore, fun x h => h, fun q h => h, ?_, fun cur2 h => h, le_refl _⟩
    intro hmc
    subst hmc
    simp only [Option.elim, Bool.and_true] at hg
    cases halk : alookup st.cost nb.1 with
    | none =>
      rw [halk] at hg
      simp at hg
    | some c => simp
  case pos =>
    rw [if_pos hg]
    simp only [Bool.and_eq_true] at hg
    obtain ⟨hg12, hgmax⟩ := hg
    rw [hc0] at hg12
    simp only [Option.getD_some] at hg12
    -- the inserted key is neither the start nor the popped node
    have hnb_ne_start : nb.1 ≠ start := by
      intro he
      rw [he, hcore.start_cost] at hg12
      simp only [Option.isNone_some, Bool.false_or, Option.getD_some,
        decide_eq_true_eq] at hg12
      omega
    have hnb_ne_cur : nb.1 ≠ cur := by
      intro he
      rw [he, hc0] at hg12
      simp only [Option.isNone_some, Bool.false_or, Option.getD_some,
        decide_eq_true_eq] at hg12
      omega
    have hnewCost_eq : (alookup st.cost cur).getD 0 + nb.2 = c0 + nb.2 := by
      rw [hc0]; rfl
    rw [hnewCost_eq]
    have hnew_nonneg : 0 ≤ c0 + nb.2 := by omega
    have hnew_reach : CostReach g start nb.1 (c0 + nb.2) :=
      CostReach.step (hcore.cost_reach (cur, c0) hc0_mem) hnb
    have hnew_max : ∀ m, maxCost = some m → c0 + nb.2 ≤ m := by
      intro m hm
      rw [hm] at hgmax
      simp only [Option.elim, decide_eq_true_eq] at hgmax
      rw [hc0] at hgmax
      simpa using hgmax
    -- bound on the new cost, and the shape of the new key set, per sub-case
    have hWpos : (0 : Int) ≤ (maxWeightN g : Int) := Int.ofNat_nonneg _
    have hmain : ((c0 + nb.2) ≤
        ((dijKeys g ((nb.1, c0 + nb.2) :: st.cost)).card : Int) * (maxWeightN g : Int)) ∧
        ((dijKeys g st.cost).card ≤ (dijKeys g ((nb.1, c0 + nb.2) :: st.cost)).card) ∧
        (dijRoom g ((nb.1, c0 + nb.2) :: st.cost) nb.1 + 1 ≤ dijRoom g st.cost nb.1) := by
      cases hfr : alookup st.cost nb.1 with
      | none =>
        obtain ⟨_, hcard⟩ := dijKeys_insert_fresh hfr hnb_lt (c0 + nb.2)
        have hwle : nb.2 ≤ (maxWeightN g : Int) := hnb_wmax
        have hcardle : (dijKeys g ((nb.1, c0 + nb.2) :: st.cost)).card ≤ g.n := dijKeys_card_le _ _
        refine ⟨?_, by omega, ?_⟩
        · rw [hcard]
          push_cast
          nlinarith
        · have h1 : dijRoom g ((nb.1, c0 + nb.2) :: st.cost) nb.1 = (c0 + nb.2).toNat := by
            simp [dijRoom, alookup_cons_self]
          have h2 : dijRoom g st.cost nb.1 = g.n * maxWeightN g + 1 := by
            simp [dijRoom, hfr]
          rw [h1, h2, hcard] at *
          -- (c0 + nb.2).toNat ≤ n * W
          have h3 : c0 + nb.2 ≤ ((dijKeys g st.cost).card + 1 : Int) * (maxWeightN g : Int) := by
            push_cast
            nlinarith
          have h4 : ((dijKeys g st.cost).card + 1 : Int) * (maxWeightN g : Int) ≤
              (g.n : Int) * (maxWeightN g : Int) := by
            have : ((dijKeys g st.cost).card + 1 : Int) ≤ (g.n : Int) := by
              exact_mod_cast hcardle.trans_eq rfl |>.trans_eq rfl |>.trans (le_refl _) |>.trans (le_refl _) |>.trans (le_refl _)
            exact mul_le_mul_of_nonneg_right this hWpos
          have h5 : c0 + nb.2 ≤ ((g.n * maxWeightN g : Nat) : Int) := by
            push_cast
            exact h3.trans h4
          omega
      | some c1 =>
        have hupd := @dijKeys_insert_update T g st.cost nb.1
          (by rw [hfr]; rfl) (c0 + nb.2)
        have hlt : c0 + nb.2 < c1 := by
          rw [hfr] at hg12
          simpa using hg12
        have hc1_mem := alookup_mem hfr
        have hc1_bound := hcore.cost_bound (nb.1, c1) hc1_mem
        have hc1_nonneg := hcore.cost_nonneg (nb.1, c1) hc1_mem
        refine ⟨?_, by rw [hupd], ?_⟩
        · rw [hupd]
          exact le_trans (le_of_lt hlt) hc1_bound
        · have h1 : dijRoom g ((nb.1, c0 + nb.2) :: st.cost) nb.1 = (c0 + nb.2).toNat := by
            simp [dijRoom, alookup_cons_self]
          have h2 : dijRoom g st.cost nb.1 = c1.toNat := by
            simp [dijRoom, hfr]
          rw [h1, h2]
          omega
    refine ⟨?_, ?_, ?_, ?_, ?_, ?_⟩
    · refine ⟨?_, ?_, ?_, ?_, ?_, ?_, ?_, ?_, ?_, ?_, ?_, ?_⟩
      · -- cost_reach
        intro p hp
        rcases List.mem_cons.mp hp with rfl | hp
        · exact hnew_reach
        · exact hcore.cost_reach p hp
      · -- cost_nonneg
        intro p hp
        rcases List.mem_cons.mp hp with rfl | hp
        · exact hnew_nonneg
        · exact hcore.cost_nonneg p hp
      · -- cost_bound
        intro p hp
        rcases List.mem_cons.mp hp with rfl | hp
        · exact hmain.1
        · refine le_trans (hcore.cost_bound p hp) ?_
          have := hmain.2.1
          exact mul_le_mul_of_nonneg_right (by exact_mod_cast this) hWpos
      · -- cost_max
        intro p hp hne m hm
        rcases List.mem_cons.mp hp with rfl | hp
        · exact hnew_max m hm
        · exact hcore.cost_max p hp hne m hm
      · -- keys_lt
        intro p hp
        rcases List.mem_cons.mp hp with rfl | hp
        · exact hnb_lt
        · exact hcore.keys_lt p hp
      · -- frontier_keyed
        intro q hq
        rcases List.mem_append.mp hq with hq | hq
        · exact alookup_isSome_cons _ _ (hcore.frontier_keyed q hq)
        · have : q = (nb.1, c0 + nb.2) := by simpa using hq
          subst this
          simp [alookup_cons_self]
      · -- came_keyed
        intro q hq
        rcases List.mem_cons.mp hq with rfl | hq
        · simp [alookup_cons_self]
        · exact alookup_isSome_cons _ _ (hcore.came_keyed q hq)
      · -- cost_came
        intro p hp
        rcases List.mem_cons.mp hp with rfl | hp
        · simp [alookup_cons_self]
        · exact alookup_isSome_cons _ _ (hcore.cost_came p hp)
      · -- start_cost
        rw [alookup_cons_ne _ _ hnb_ne_start]
        exact hcore.start_cost
      · -- came_start
        rw [alookup_cons_ne _ _ hnb_ne_start]
        exact hcore.came_start
      · -- came_pred
        intro x u hx
        by_cases hxnb : nb.1 = x
        · subst hxnb
          rw [alookup_cons_self] at hx
          have hu : u = cur := by simpa using hx.symm
          subst hu
          refine ⟨hnb_edge, c0 + nb.2, c0, alookup_cons_self _ _ _, ?_, by omega⟩
          rw [alookup_cons_ne _ _ hnb_ne_cur]
          exact hc0
        · rw [alookup_cons_ne _ _ hxnb] at hx
          obtain ⟨hedge, cx, cu, hcx, hcu, hlt⟩ := hcore.came_pred x u hx
          refine ⟨hedge, cx, ?_⟩
          rw [alookup_cons_ne _ _ hxnb]
          by_cases hunb : nb.1 = u
          · subst hunb
            refine ⟨c0 + nb.2, hcx, alookup_cons_self _ _ _, ?_⟩
            -- the update strictly lowered nb's cost below its old value cu < cx
            cases hfr : alookup st.cost nb.1 with
            | none => rw [hfr] at hcu; exact absurd hcu (by simp)
            | some c1 =>
              rw [hfr] at hcu
              have hc1 : c1 = cu := by simpa using hcu
              subst hc1
              rw [hfr] at hg12
              simp only [Option.isNone_some, Bool.false_or, Option.getD_some,
                decide_eq_true_eq] at hg12
              omega
          · exact ⟨cu, hcx, by rw [alookup_cons_ne _ _ hunb]; exact hcu, hlt⟩
      · -- came_none
        intro x hx
        by_cases hxnb : nb.1 = x
        · subst hxnb
          rw [alookup_cons_self] at hx
          exact absurd hx (by simp)
        · rw [alookup_cons_ne _ _ hxnb] at hx
          exact hcore.came_none x hx
    · intro x h
      exact alookup_isSome_cons _ _ h
    · intro q hq
      exact List.mem_append.mpr (Or.inl hq)
    · intro _
      simp [alookup_cons_self]
    · intro cur2 hce p hp hpne
      rcases List.mem_cons.mp hp with rfl | hp
      · refine Or.inl ⟨(nb.1, c0 + nb.2), ?_, rfl⟩
        exact List.mem_append.mpr (Or.inr (by simp))
      · rcases hce p hp hpne with ⟨q, hq1, hq2⟩ | hcl
        · exact Or.inl ⟨q, List.mem_append.mpr (Or.inl hq1), hq2⟩
        · exact Or.inr (fun iw hiw => alookup_isSome_cons _ _ (hcl iw hiw))
    · -- measure does not increase
      have hrooms : ∀ v, v ≠ nb.1 →
          dijRoom g ((nb.1, c0 + nb.2) :: st.cost) v = dijRoom g st.cost v := by
        intro v hv
        unfold dijRoom
        rw [alookup_cons_ne _ _ (fun he => hv he.symm)]
      have hsum := sum_room_decrease g hnb_lt hrooms hmain.2.2
      simp only [List.length_append, List.length_cons, List.length_nil]
      omega

theorem dij_relaxFold (g : MtxGraph T) (start : Nat) (maxCost : Option Int)
    (hcast : maxWeightN g < 2 ^ 31) (cur : Nat) :
    ∀ (l : List (Nat × Int)) (st : DijState),
      (∀ nb ∈ l, nb ∈ mtxNbrsW g cur) →
      DijCore g start maxCost st →
      (alookup st.cost cur).isSome →
      DijCore g start maxCost (l.foldl (relaxOne maxCost cur) st) ∧
        (maxCost = none → ∀ nb ∈ l,
          (alookup (l.foldl (relaxOne maxCost cur) st).cost nb.1).isSome) ∧
        (∀ q ∈ st.frontier, q ∈ (l.foldl (relaxOne maxCost cur) st).frontier) ∧
        (∀ cur2, DijClosedExcept g cur2 st →
          DijClosedExcept g cur2 (l.foldl (relaxOne maxCost cur) st)) ∧
        (∀ x, (alookup st.cost x).isSome →
          (alookup (l.foldl (relaxOne maxCost cur) st).cost x).isSome) ∧
        2 * dijRoomSum g (l.foldl (relaxOne maxCost cur) st).cost +
            (l.foldl (relaxOne maxCost cur) st).frontier.length ≤
          2 * dijRoomSum g st.cost + st.frontier.length := by
  intro l
  induction l with
  | nil =>
    intro st _ hcore _
    exact ⟨hcore, fun _ nb hnb => absurd hnb (List.not_mem_nil nb),
      fun q hq => hq, fun _ h => h, fun x h => h, le_refl _⟩
  | cons nb t ih =>
    intro st hl hcore hcur
    rw [List.foldl_cons]
    have h1 := dij_relaxOne g start maxCost hcast cur st nb hcore hcur
      (hl nb (List.mem_cons_self _ _))
    obtain ⟨hcore1, hkeymono1, hfrmono1, hnbkey1, hce1, hmeas1⟩ := h1
    have h2 := ih (relaxOne maxCost cur st nb)
      (fun x hx => hl x (List.mem_cons_of_mem _ hx)) hcore1 (hkeymono1 cur hcur)
    obtain ⟨hcore2, hallkey2, hfrmono2, hce2, hkeymono2, hmeas2⟩ := h2
    refine ⟨hcore2, ?_, fun q hq => hfrmono2 q (hfrmono1 q hq),
      fun cur2 h => hce2 cur2 (hce1 cur2 h),
      fun x h => hkeymono2 x (hkeymono1 x h), le_trans hmeas2 hmeas1⟩
    intro hmc x hx
    rcases List.mem_cons.mp hx with rfl | hx
    · exact hkeymono2 x.1 (hnbkey1 hmc)
    · exact hallkey2 hmc x hx

theorem dijCore_pop (g : MtxGraph T) (start : Nat) (maxCost : Option Int)
    (st : DijState) (v : Nat) (c : Int) (rest : List (Nat × Int))
    (hcore : DijCore g start maxCost st)
    (hpop : popMin st.frontier = some ((v, c), rest)) :
    DijCore g start maxCost { st with frontier := rest } ∧
      (alookup st.cost v).isSome ∧
      st.frontier.length = rest.length + 1 := by
  have hperm := popMin_perm hpop
  have hrest_sub : ∀ q ∈ rest, q ∈ st.frontier := by
    intro q hq
    exact hperm.mem_iff.mpr (List.mem_cons_of_mem _ hq)
  have hvmem : (v, c) ∈ st.frontier := hperm.mem_iff.mpr (List.mem_cons_self _ _)
  refine ⟨⟨hcore.cost_reach, hcore.cost_nonneg, hcore.cost_bound, hcore.cost_max,
    hcore.keys_lt, ?_, hcore.came_keyed, hcore.cost_came, hcore.start_cost,
    hcore.came_start, hcore.came_pred, hcore.came_none⟩,
    hcore.frontier_keyed (v, c) hvmem, by simpa using hperm.length_eq⟩
  intro q hq
  exact hcore.frontier_keyed q (hrest_sub q hq)

theorem dij_loop_core (g : MtxGraph T) (start : Nat) (maxCost : Option Int)
    (hcast : maxWeightN g < 2 ^ 31) (target : Option Nat) :
    ∀ fuel st, DijCore g start maxCost st →
      DijCore g start maxCost (dijkstraLoop g maxCost target fuel st) := by
  intro fuel
  induction fuel with
  | zero => intro st h; exact h
  | succ f ih =>
    intro st hcore
    unfold dijkstraLoop
    cases hp : popMin st.frontier with
    | none => exact hcore
    | some pr =>
      obtain ⟨⟨v, c⟩, rest⟩ := pr
      simp only
      obtain ⟨hcore1, hkey, _⟩ := dijCore_pop g start maxCost st v c rest hcore hp
      by_cases ht : target = some v
      · rw [if_pos ht]
        exact hcore1
      · rw [if_neg ht]
        exact ih _ (dij_relaxFold g start maxCost hcast v (mtxNbrsW g v) _
          (fun nb hnb => hnb) hcore1 hkey).1

theorem dij_loop_none (g : MtxGraph T) (start : Nat)
    (hcast : maxWeightN g < 2 ^ 31) (target : Option Nat) :
    ∀ fuel st, DijCore g start none st → DijClosed g st →
      dijMeasure g st < fuel →
      DijCore g start none (dijkstraLoop g none target fuel st) ∧
        ((DijClosed g (dijkstraLoop g none target fuel st) ∧
            (dijkstraLoop g none target fuel st).frontier = []) ∨
          (∃ t, target = some t ∧
            (alookup (dijkstraLoop g none target fuel st).cost t).isSome)) := by
  intro fuel
  induction fuel with
  | zero =>
    intro st _ _ h
    exact absurd h (Nat.not_lt_zero _)
  | succ f ih =>
    intro st hcore hclosed hm
    unfold dijkstraLoop
    cases hp : popMin st.frontier with
    | none =>
      exact ⟨hcore, Or.inl ⟨hclosed, (popMin_none_iff st.frontier).mp hp⟩⟩
    | some pr =>
      obtain ⟨⟨v, c⟩, rest⟩ := pr
      simp only
      obtain ⟨hcore1, hkey, hlen⟩ := dijCore_pop g start none st v c rest hcore hp
      by_cases ht : target = some v
      · rw [if_pos ht]
        exact ⟨hcore1, Or.inr ⟨v, ht, hkey⟩⟩
      · rw [if_neg ht]
        have hce1 : DijClosedExcept g v { st with frontier := rest } := by
          intro p hp2 hpne
          rcases hclosed p hp2 with ⟨q, hq1, hq2⟩ | hcl
          · left
            refine ⟨q, ?_, hq2⟩
            have := (popMin_perm hp).mem_iff.mp hq1
            rcases List.mem_cons.mp this with heq | hq3
            · exfalso
              apply hpne
              rw [← hq2, heq]
            · exact hq3
          · exact Or.inr hcl
        obtain ⟨hcore2, hallkey, _, hce2, hkeymono, hmeas⟩ :=
          dij_relaxFold g start none hcast v (mtxNbrsW g v) _ (fun nb hnb => hnb)
            hcore1 hkey
        have hclosed2 : DijClosed g ((mtxNbrsW g v).foldl (relaxOne none v)
            { st with frontier := rest }) := by
          intro p hp2
          by_cases hpv : p.1 = v
          · right
            intro iw hiw
            rw [hpv] at hiw
            exact hallkey rfl iw hiw
          · exact hce2 v hce1 p hp2 hpv
        have hm2 : dijMeasure g ((mtxNbrsW g v).foldl (relaxOne none v)
            { st with frontier := rest }) < f := by
          unfold dijMeasure at hm ⊢
          simp only at hmeas
          omega
        exact ih _ hcore2 hclosed2 hm2

theorem dijCore_init (g : MtxGraph T) (start : Nat) (maxCost : Option Int)
    (hstart : start < g.n) :
    DijCore g start maxCost ⟨[(start, 0)], [(start, none)], [(start, 0)]⟩ ∧
      DijClosed g ⟨[(start, 0)], [(start, none)], [(start, 0)]⟩ := by
  constructor
  · refine ⟨?_, ?_, ?_, ?_, ?_, ?_, ?_, ?_, ?_, ?_, ?_, ?_⟩
    · intro p hp
      have : p = (start, 0) := by simpa using hp
      subst this
      exact CostReach.refl
    · intro p hp
      have : p = (start, 0) := by simpa using hp
      subst this
      exact le_refl 0
    · intro p hp
      have : p = (start, 0) := by simpa using hp
      subst this
      positivity
    · intro p hp hne m hm
      have : p = (start, 0) := by simpa using hp
      subst this
      exact absurd rfl hne
    · intro p hp
      have : p = (start, 0) := by simpa using hp
      subst this
      exact hstart
    · intro q hq
      have : q = (start, 0) := by simpa using hq
      subst this
      simp [alookup_cons_self]
    · intro q hq
      have : q = (start, none) := by simpa using hq
      subst this
      simp [alookup_cons_self]
    · intro p hp
      have : p = (start, 0) := by simpa using hp
      subst this
      simp [alookup_cons_self]
    · exact alookup_cons_self _ _ _
    · exact alookup_cons_self _ _ _
    · intro x u hx
      by_cases hxs : start = x
      · subst hxs
        rw [alookup_cons_self] at hx
        exact absurd hx (by simp)
      · rw [alookup_cons_ne _ _ hxs] at hx
        exact absurd hx (by simp [alookup])
    · intro x hx
      by_cases hxs : start = x
      · exact hxs.symm
      · rw [alookup_cons_ne _ _ hxs] at hx
        exact absurd hx (by simp [alookup])
  · intro p hp
    have : p = (start, 0) := by simpa using hp
    subst this
    exact Or.inl ⟨(start, 0), by simp, rfl⟩

theorem dijMeasure_init_lt (g : MtxGraph T) (start : Nat) (hstart : start < g.n) :
    dijMeasure g ⟨[(start, 0)], [(start, none)], [(start, 0)]⟩ < dijFuel g := by
  have hcore := (dijCore_init g start none hstart).1
  have hsum : dijRoomSum g [(start, 0)] ≤ g.n * (g.n * maxWeightN g + 1) := by
    unfold dijRoomSum
    calc ∑ v in Finset.range g.n, dijRoom g [(start, 0)] v
        ≤ ∑ _v in Finset.range g.n, (g.n * maxWeightN g + 1) :=
          Finset.sum_le_sum (fun v _ => dijRoom_le g start none _ hcore v)
    _ = g.n * (g.n * maxWeightN g + 1) := by
          rw [Finset.sum_const, Finset.card_range, smul_eq_mul]
  unfold dijMeasure dijFuel
  simp only [List.length_singleton]
  omega

/-- C6 (amended): on a graph whose node count times largest stored weight
stays below 2^31 (so the source's usize-to-i32 weight casts and i32 cost
additions are exact), if max_cost is strictly below the cost of every
directed path from start to a node v other than the start node, then v is
not a key of the predecessor map dijkstra returns (every recorded cost is a
real path cost and, for non-start keys, is at most max_cost). -/
theorem c6_max_cost_excludes (g : MtxGraph T) (start v : Nat) (maxc : Int)
    (target : Option Nat) (hW : g.n * maxWeightN g < 2 ^ 31)
    (hstart : start < g.n) (hv : v ≠ start)
    (hd : ∀ c, CostReach g start v c → maxc < c) :
    ∀ p ∈ dijkstra g start (some maxc) target, p.1 ≠ v := by
  intro p hp heq
  have hcast : maxWeightN g < 2 ^ 31 := by
    have h1 : maxWeightN g ≤ g.n * maxWeightN g :=
      Nat.le_mul_of_pos_left _ (by omega)
    omega
  have hcore := dij_loop_core g start (some maxc) hcast target (dijFuel g) _
    (dijCore_init g start (some maxc) hstart).1
  unfold dijkstra dijkstraFull at hp
  have hk := hcore.came_keyed p hp
  obtain ⟨c, hc⟩ := Option.isSome_iff_exists.mp hk
  have hmem := alookup_mem hc
  have hre := hcore.cost_reach (p.1, c) hmem
  have hle := hcore.cost_max (p.1, c) hmem (by simpa [heq] using hv) maxc rfl
  rw [heq] at hre
  exact absurd (hd c hre) (by omega)

theorem mtxNbrsW_absurd_of_zero {g : MtxGraph T} (hz : ∀ w ∈ g.mtx, w = 0)
    {b : Nat} {p : Nat × Int} (hp : p ∈ mtxNbrsW g b) : False := by
  obtain ⟨k, hk, _, h2, _⟩ := mem_enumFilterPosW.mp hp
  have := hz _ (edgesRow_subset (getD_mem hk))
  omega

/-- One node, no edges, for the C6 counterexample. -/
def c6cg : MtxGraph Unit := (addNode (MtxGraph.empty Unit) ()).2

/-- Exact cost-annotated reachability with the stored usize weights summed in
Nat, never wrapped: the notion of true path cost the claims speak of. -/
inductive CostReachN (g : MtxGraph T) (start : Nat) : Nat → Nat → Prop
  | refl : CostReachN g start start 0
  | step {b c : Nat} {cb : Nat} : CostReachN g start b cb →
      c ∈ mtxNbrs g b → CostReachN g start c (cb + edgeWeight g b c)

/-- Two nodes with a single directed edge 0 -> 1 whose stored usize weight
2^31 wraps to -2^31 under dijkstra's i32 cast. -/
def c6wrapg : MtxGraph Unit :=
  addEdgeDW (addNode (addNode (MtxGraph.empty Unit) ()).2 ()).2 0 1 (2 ^ 31)

theorem c6wrap_stall : ∀ fuel, dijkstraLoop c6wrapg (some (-10)) none fuel
    ⟨[], [(1, some 0), (0, none)], [(1, -2147483648), (0, 0)]⟩ =
    ⟨[], [(1, some 0), (0, none)], [(1, -2147483648), (0, 0)]⟩ := by
  intro fuel
  cases fuel with
  | zero => rfl
  | succ f => rfl

/-- C6 counterexample, refuting the unamended claim twice over. (a) v = start:
on the one-node edgeless graph with max_cost = -1, strictly below every
path cost from 0 to 0 (there is only the trivial one of cost 0, and -1 < 0),
start is still a key of the returned predecessor map. (b) the i32 wrap: on
the two-node graph with the single edge 0 -> 1 of usize weight 2^31, every
true (exact usize) path cost to node 1 exceeds max_cost = -10, yet dijkstra
keys node 1, because the weight wraps to -2^31 under the source's
`as i32` cast and the wrapped candidate cost passes the max_cost guard; the
graph violates the amended claim's bound n * max-weight < 2^31. -/
theorem c6_counterexample :
    ((∀ c, CostReach c6cg 0 0 c → (-1 : Int) < c) ∧
      (0, (none : Option Nat)) ∈ dijkstra c6cg 0 (some (-1)) none) ∧
    ((∀ c, CostReachN c6wrapg 0 1 c → (-10 : Int) < (c : Int)) ∧
      edgeWeight c6wrapg 0 1 = 2 ^ 31 ∧ asI32 (2 ^ 31) = -2147483648 ∧
      ¬ c6wrapg.n * maxWeightN c6wrapg < 2 ^ 31 ∧
      (alookup (dijkstra c6wrapg 0 (some (-10)) none) 1).isSome = true) := by
  constructor
  · constructor
    · intro c hc
      cases hc with
      | refl => omega
      | step _ hmem =>
        exact absurd hmem (by
          intro hm
          exact mtxNbrsW_absurd_of_zero (by decide) hm)
    · decide
  · refine ⟨fun c _ => by omega, by decide, by decide, by decide, ?_⟩
    have e1 : ∀ f : Nat, dijkstraLoop c6wrapg (some (-10)) none (f + 1)
        ⟨[(0, 0)], [(0, none)], [(0, 0)]⟩ =
        dijkstraLoop c6wrapg (some (-10)) none f
          ⟨[(1, -2147483648)], [(1, some 0), (0, none)],
            [(1, -2147483648), (0, 0)]⟩ := fun f => rfl
    have e2 : ∀ f : Nat, dijkstraLoop c6wrapg (some (-10)) none (f + 1)
        ⟨[(1, -2147483648)], [(1, some 0), (0, none)],
          [(1, -2147483648), (0, 0)]⟩ =
        dijkstraLoop c6wrapg (some (-10)) none f
          ⟨[], [(1, some 0), (0, none)], [(1, -2147483648), (0, 0)]⟩ :=
      fun f => rfl
    have hfuel : dijFuel c6wrapg = (dijFuel c6wrapg - 2) + 2 := by
      have h2 : 2 ≤ dijFuel c6wrapg := by unfold dijFuel; omega
      omega
    have hrun : dijkstraLoop c6wrapg (some (-10)) none (dijFuel c6wrapg - 2 + 2)
        ⟨[(0, 0)], [(0, none)], [(0, 0)]⟩ =
        ⟨[], [(1, some 0), (0, none)], [(1, -2147483648), (0, 0)]⟩ :=
      ((e1 (dijFuel c6wrapg - 2 + 1)).trans (e2 (dijFuel c6wrapg - 2))).trans
        (c6wrap_stall (dijFuel c6wrapg - 2))
    have hda : dijkstra c6wrapg 0 (some (-10)) none = [(1, some 0), (0, none)] := by
      show (dijkstraLoop c6wrapg (some (-10)) none (dijFuel c6wrapg)
        ⟨[(0, 0)], [(0, none)], [(0, 0)]⟩).came = [(1, some 0), (0, none)]
      rw [hfuel, hrun]
    rw [hda]
    decide

/-- Two nodes, no edges, for the C6 witness. -/
def c6wg : MtxGraph Unit := (addNode (addNode (MtxGraph.empty Unit) ()).2 ()).2

theorem c6_witness :
    (dijkstra c6wg 0 (some 0) none).all (fun p => p.1 != 1) = true := by
  have hd : ∀ c, CostReach c6wg 0 1 c → (0 : Int) < c := by
    intro c hc
    cases hc with
    | step _ hmem =>
      exact absurd hmem (by
        intro hm
        exact mtxNbrsW_absurd_of_zero (by decide) hm)
  have hmain := c6_max_cost_excludes c6wg 0 1 0 none (by decide) (by decide)
    (by decide) hd
  refine List.all_eq_true.mpr ?_
  intro p hp
  simpa using hmain p hp

/-- A backward path list as produced by path_to: the nodes from curr down to
the node adjacent to start, each reached from its successor in the list (or
from start for the last one), with start itself excluded. -/
inductive BackPath (g : MtxGraph T) (start : Nat) : Nat → List Nat → Prop
  | nil : BackPath g start start []
  | cons {u curr : Nat} {t : List Nat} : curr ≠ start → curr ∈ mtxNbrs g u →
      BackPath g start u t → BackPath g start curr (curr :: t)

theorem backPath_not_mem_start {g : MtxGraph T} {start curr : Nat} {t : List Nat}
    (h : BackPath g start curr t) : start ∉ t := by
  induction h with
  | nil => simp
  | cons hne _ _ ih =>
    intro hmem
    rcases List.mem_cons.mp hmem with heq | hmem
    · exact hne heq.symm
    · exact ih hmem

theorem backPath_nil_iff {g : MtxGraph T} {start curr : Nat} {t : List Nat}
    (h : BackPath g start curr t) : t = [] ↔ curr = start := by
  cases h with
  | nil => simp
  | cons hne _ _ => simp [hne]

theorem backPath_head {g : MtxGraph T} {start curr x : Nat} {t : List Nat}
    (h : BackPath g start curr (x :: t)) : x = curr := by
  cases h with
  | cons _ _ _ => rfl

theorem backPath_chain {g : MtxGraph T} {start curr : Nat} {t : List Nat}
    (h : BackPath g start curr t) :
    List.Chain' (fun a b => a ∈ mtxNbrs g b) t := by
  induction h with
  | nil => simp
  | cons hne hedge hbp ih =>
    rw [List.chain'_cons']
    refine ⟨?_, ih⟩
    intro y hy
    cases hbp with
    | nil => simp at hy
    | cons hne2 hedge2 hbp2 =>
      simp only [List.head?_cons, Option.mem_def, Option.some.injEq] at hy
      subst hy
      exact hedge

theorem backPath_last {g : MtxGraph T} {start curr : Nat} {t : List Nat}
    (h : BackPath g start curr t) :
    ∀ v, t.getLast? = some v → v ∈ mtxNbrs g start := by
  induction h with
  | nil => intro v hv; simp at hv
  | cons hne hedge hbp ih =>
    intro v hv
    cases hbp with
    | nil =>
      simp only [List.getLast?_singleton, Option.some.injEq] at hv
      subst hv
      exact hedge
    | cons hne2 hedge2 hbp2 =>
      rw [List.getLast?_cons_cons] at hv
      exact ih v hv

/-- Number of in-range nodes with a recorded cost strictly below cx. -/
def dijDm (g : MtxGraph T) (cost : List (Nat × Int)) (cx : Int) : Nat :=
  ((Finset.range g.n).filter (fun v => (alookup cost v).getD cx < cx)).card

theorem dijDm_le (g : MtxGraph T) (cost : List (Nat × Int)) (cx : Int) :
    dijDm g cost cx ≤ g.n := by
  calc dijDm g cost cx ≤ (Finset.range g.n).card :=
        Finset.card_le_card (Finset.filter_subset _ _)
  _ = g.n := Finset.card_range g.n

theorem dijDm_lt (g : MtxGraph T) (cost : List (Nat × Int)) {u : Nat}
    {cu cx : Int} (hu : u < g.n) (hcu : alookup cost u = some cu)
    (hlt : cu < cx) : dijDm g cost cu < dijDm g cost cx := by
  unfold dijDm
  apply Finset.card_lt_card
  rw [Finset.ssubset_iff_of_subset]
  · refine ⟨u, ?_, ?_⟩
    · rw [Finset.mem_filter, Finset.mem_range]
      exact ⟨hu, by rw [hcu]; simpa using hlt⟩
    · rw [Finset.mem_filter]
      rintro ⟨_, habs⟩
      rw [hcu] at habs
      simp at habs
  · intro v hv
    rw [Finset.mem_filter, Finset.mem_range] at hv ⊢
    refine ⟨hv.1, ?_⟩
    have h2 := hv.2
    cases hl : alookup cost v with
    | none =>
      rw [hl] at h2
      simp at h2
    | some cv =>
      rw [hl] at h2
      simp only [Option.getD_some] at h2 ⊢
      omega

theorem walk_some (g : MtxGraph T) (start : Nat) (maxCost : Option Int)
    (stf : DijState) (hcore : DijCore g start maxCost stf) :
    ∀ fuel curr acc, (curr = start ∨ (alookup stf.came curr).isSome) →
      (∀ cx, alookup stf.cost curr = some cx → dijDm g stf.cost cx < fuel) →
      0 < fuel →
      ∃ tail, pathToWalk stf.came start fuel curr acc = some (acc ++ tail) ∧
        BackPath g start curr tail := by
  intro fuel
  induction fuel with
  | zero =>
    intro curr acc _ _ h
    exact absurd h (by omega)
  | succ f ih =>
    intro curr acc hcurr hfuel _
    by_cases hcs : curr = start
    · subst hcs
      refine ⟨[], ?_, BackPath.nil⟩
      unfold pathToWalk
      rw [if_pos rfl]
      simp
    · have hksome : (alookup stf.came curr).isSome := hcurr.resolve_left hcs
      obtain ⟨pr, hpr⟩ := Option.isSome_iff_exists.mp hksome
      cases pr with
      | none => exact absurd (hcore.came_none curr hpr) hcs
      | some u =>
        obtain ⟨hedge, cx, cu, hcx, hcu, hlt⟩ := hcore.came_pred curr u hpr
        have hu_lt : u < g.n := hcore.keys_lt (u, cu) (alookup_mem hcu)
        have hu_came : (alookup stf.came u).isSome :=
          hcore.cost_came (u, cu) (alookup_mem hcu)
        have hf2 : ∀ cx2, alookup stf.cost u = some cx2 → dijDm g stf.cost cx2 < f := by
          intro cx2 h2
          rw [hcu] at h2
          have hcx2 : cx2 = cu := by simpa using h2.symm
          subst hcx2
          have hdm := dijDm_lt g stf.cost hu_lt hcu hlt
          have := hfuel cx hcx
          omega
        have hpos2 : 0 < f := by
          have := hf2 cu hcu
          omega
        obtain ⟨tail, hwalk, hbp⟩ := ih u (acc ++ [curr]) (Or.inr hu_came) hf2 hpos2
        refine ⟨curr :: tail, ?_, BackPath.cons hcs hedge hbp⟩
        unfold pathToWalk
        rw [if_neg hcs, hpr]
        simp only
        rw [hwalk]
        simp [List.append_assoc]

theorem pathToWalk_step (came : List (Nat × Option Nat)) (start fuel curr : Nat)
    (path : List Nat) :
    pathToWalk came start (fuel + 1) curr path =
      if curr = start then some path
      else
        match alookup came curr with
        | none => none
        | some none => none
        | some (some nxt) => pathToWalk came start fuel nxt (path ++ [curr]) := rfl

theorem dij_target_keyed (g : MtxGraph T) (start target : Nat)
    (hcast : maxWeightN g < 2 ^ 31)
    (hstart : start < g.n) (hreach : Reach (mtxNbrs g) start target) :
    (alookup (dijkstraFull g start none (some target)).cost target).isSome := by
  have hinit := dijCore_init g start none hstart
  obtain ⟨hcore, hexit⟩ := dij_loop_none g start hcast (some target) (dijFuel g) _
    hinit.1 hinit.2 (dijMeasure_init_lt g start hstart)
  rcases hexit with ⟨hclosed, hfr⟩ | ⟨t, ht, hks⟩
  · have hP : ∀ x, Reach (mtxNbrs g) start x →
        (alookup (dijkstraFull g start none (some target)).cost x).isSome := by
      intro x hx
      induction hx with
      | refl =>
        rw [show (dijkstraFull g start none (some target)).cost =
          (dijkstraLoop g none (some target) (dijFuel g)
            ⟨[(start, 0)], [(start, none)], [(start, 0)]⟩).cost from rfl]
        rw [hcore.start_cost]
        rfl
      | @tail b c _ hbc ih =>
        obtain ⟨cb, hcb⟩ := Option.isSome_iff_exists.mp ih
        rcases hclosed (b, cb) (alookup_mem hcb) with ⟨q, hq1, _⟩ | hcl
        · rw [hfr] at hq1
          exact absurd hq1 (List.not_mem_nil q)
        · obtain ⟨w, hw⟩ := mtxNbrs_exists_w hbc
          exact hcl (c, w) hw
    exact hP target hreach
  · have : t = target := by
      injection ht.symm
    subst this
    exact hks

/-- C7 (amended): on a graph whose node count times largest stored weight
stays below 2^31 (so the source's usize-to-i32 weight casts and i32 cost
additions are exact and the dijkstra loop terminates), path_to(start,
target) is absent exactly when target is unreachable from start, and a
returned path excludes start, is empty iff target = start, starts at
target, steps backward along real edges, and ends at a node with an edge
from start. -/
theorem c7_path_to_characterization (g : MtxGraph T) (start target : Nat)
    (hW : g.n * maxWeightN g < 2 ^ 31) (hstart : start < g.n) :
    (path_to g start target = none ↔ ¬ Reach (mtxNbrs g) start target) ∧
      (∀ p, path_to g start target = some p →
        start ∉ p ∧ (p = [] ↔ target = start) ∧
        (∀ x t, p = x :: t → x = target) ∧
        List.Chain' (fun a b => a ∈ mtxNbrs g b) p ∧
        (∀ v, p.getLast? = some v → v ∈ mtxNbrs g start)) := by
  have hcast : maxWeightN g < 2 ^ 31 := by
    have h1 : maxWeightN g ≤ g.n * maxWeightN g :=
      Nat.le_mul_of_pos_left _ (by omega)
    omega
  have hinit := dijCore_init g start none hstart
  obtain ⟨hcore, _⟩ := dij_loop_none g start hcast (some target) (dijFuel g) _
    hinit.1 hinit.2 (dijMeasure_init_lt g start hstart)
  have hcore2 : DijCore g start none (dijkstraFull g start none (some target)) := hcore
  have hsome_of_reach : Reach (mtxNbrs g) start target →
      ∃ tail, path_to g start target = some tail ∧ BackPath g start target tail := by
    intro hreach
    have hks := dij_target_keyed g start target hcast hstart hreach
    obtain ⟨c, hc⟩ := Option.isSome_iff_exists.mp hks
    have hcame : (alookup (dijkstraFull g start none (some target)).came target).isSome :=
      hcore2.cost_came (target, c) (alookup_mem hc)
    obtain ⟨tail, hw, hbp⟩ := walk_some g start none _ hcore2 (g.n + 1) target []
      (Or.inr hcame)
      (fun cx _ => lt_of_le_of_lt (dijDm_le g _ cx) (Nat.lt_succ_self g.n))
      (by omega)
    refine ⟨tail, ?_, hbp⟩
    rw [show path_to g start target =
      pathToWalk (dijkstraFull g start none (some target)).came start
        (g.n + 1) target [] from rfl]
    rw [hw]
    simp
  have hnone_of_nreach : ¬ Reach (mtxNbrs g) start target →
      path_to g start target = none := by
    intro hnr
    have hts : target ≠ start := fun he => hnr (by rw [he]; exact Relation.ReflTransGen.refl)
    have hnotkey : alookup (dijkstraFull g start none (some target)).came target = none := by
      cases hl : alookup (dijkstraFull g start none (some target)).came target with
      | none => rfl
      | some pr =>
        have hck := hcore2.came_keyed (target, pr) (alookup_mem hl)
        obtain ⟨c, hc⟩ := Option.isSome_iff_exists.mp hck
        have := costReach_reach (hcore2.cost_reach (target, c) (alookup_mem hc))
        exact absurd this hnr
    rw [show path_to g start target =
      pathToWalk (dijkstraFull g start none (some target)).came start
        (g.n + 1) target [] from rfl]
    rw [pathToWalk_step, if_neg hts, hnotkey]
  refine ⟨⟨?_, hnone_of_nreach⟩, ?_⟩
  · intro hnone hreach
    obtain ⟨tail, hw, _⟩ := hsome_of_reach hreach
    rw [hw] at hnone
    exact absurd hnone (by simp)
  · intro p hp
    by_cases hreach : Reach (mtxNbrs g) start target
    · obtain ⟨tail, hw, hbp⟩ := hsome_of_reach hreach
      rw [hp] at hw
      have hpt : p = tail := by simpa using hw
      subst hpt
      refine ⟨backPath_not_mem_start hbp, backPath_nil_iff hbp, ?_,
        backPath_chain hbp, backPath_last hbp⟩
      intro x t hxt
      subst hxt
      exact backPath_head hbp
    · rw [hnone_of_nreach hreach] at hp
      exact absurd hp (by simp)

/-- Two nodes with the directed edge 0 -> 1, for the C7 witness. -/
def c7wg : MtxGraph Unit :=
  addEdgeDU (addNode (addNode (MtxGraph.empty Unit) ()).2 ()).2 0 1

theorem c7_witness :
    (path_to c7wg 0 1 = none ↔ ¬ Reach (mtxNbrs c7wg) 0 1) ∧
      (∀ p, path_to c7wg 0 1 = some p →
        0 ∉ p ∧ (p = [] ↔ 1 = 0) ∧
        (∀ x t, p = x :: t → x = 1) ∧
        List.Chain' (fun a b => a ∈ mtxNbrs c7wg b) p ∧
        (∀ v, p.getLast? = some v → v ∈ mtxNbrs c7wg 0)) :=
  c7_path_to_characterization c7wg 0 1 (by decide) (by decide)

/-- Three nodes with edges 0 -> 1 and the self-loop 1 -> 1 both of usize
weight 2^32 - 5 (wrapping to -5 under the i32 cast) and 1 -> 2 of weight 1,
for the C7 counterexample. -/
def c7wrapg : MtxGraph Unit :=
  addEdgeDW (addEdgeDW (addEdgeDW
    (addNode (addNode (addNode (MtxGraph.empty Unit) ()).2 ()).2 ()).2
    0 1 (2 ^ 32 - 5)) 1 1 (2 ^ 32 - 5)) 1 2 1

/-- Loop invariant of the C7 counterexample run: node 1 is recorded at cost c
and queued exactly once at cost c, any queued node-2 entry costs more than c,
and node 2 is recorded (if at all) at c + 1.  The popped node is then always
node 1, and relaxing the wrapped self-loop re-establishes the invariant at
c - 5, forever. -/
@[reducible] def c7Inv (c : Int) (st : DijState) : Prop :=
  alookup st.cost 1 = some c ∧
  (alookup st.cost 2 = none ∨ alookup st.cost 2 = some (c + 1)) ∧
  st.frontier.filter (fun q => q.1 == 1) = [(1, c)] ∧
  (∀ q ∈ st.frontier, q.1 = 1 ∨ q.1 = 2) ∧
  (∀ q ∈ st.frontier, q.1 = 2 → c < q.2)

theorem c7Inv_pop {c : Int} {st : DijState} (h : c7Inv c st) :
    ∃ rest, popMin st.frontier = some ((1, c), rest) ∧
      rest.filter (fun q => q.1 == 1) = [] ∧
      ∀ q ∈ rest, q.1 = 2 ∧ c < q.2 := by
  obtain ⟨_, _, h3, h4, h5⟩ := h
  have hmem : ((1 : Nat), c) ∈ st.frontier := by
    have hm : ((1 : Nat), c) ∈ st.frontier.filter (fun q => q.1 == 1) := by
      rw [h3]; exact List.mem_singleton.mpr rfl
    exact List.mem_of_mem_filter hm
  cases hp : popMin st.frontier with
  | none =>
    rw [popMin_none_iff] at hp
    rw [hp] at hmem
    exact absurd hmem (List.not_mem_nil _)
  | some pr =>
    obtain ⟨p, rest⟩ := pr
    have hperm := popMin_perm hp
    have hpin : p ∈ st.frontier := hperm.mem_iff.mpr (List.mem_cons_self _ _)
    have hmin := popMin_min hp
    have hp1 : p = (1, c) := by
      rcases h4 p hpin with h6 | h6
      · have hm2 : p ∈ st.frontier.filter (fun q => q.1 == 1) :=
          List.mem_filter.mpr ⟨hpin, by simp [h6]⟩
        rw [h3] at hm2
        simpa using hm2
      · have h7 := h5 p hpin h6
        have h8 := hmin (1, c) hmem
        omega
    subst hp1
    have hfperm := hperm.filter (fun q => q.1 == 1)
    rw [h3, List.filter_cons_of_pos (by simp)] at hfperm
    have hlen := hfperm.length_eq
    simp only [List.length_cons, List.length_nil] at hlen
    have hrf : rest.filter (fun q => q.1 == 1) = [] := by
      have hz : (rest.filter (fun q => q.1 == 1)).length = 0 := by omega
      exact List.length_eq_zero.mp hz
    refine ⟨rest, rfl, hrf, ?_⟩
    intro q hq
    have hqin : q ∈ st.frontier := hperm.mem_iff.mpr (List.mem_cons_of_mem _ hq)
    rcases h4 q hqin with h6 | h6
    · exfalso
      have hm3 : q ∈ rest.filter (fun r => r.1 == 1) :=
        List.mem_filter.mpr ⟨hq, by simp [h6]⟩
      rw [hrf] at hm3
      exact absurd hm3 (List.not_mem_nil q)
    · exact ⟨h6, h5 q hqin h6⟩

theorem c7Inv_relax {c : Int} {st : DijState} (h1 : alookup st.cost 1 = some c)
    (h2 : alookup st.cost 2 = none ∨ alookup st.cost 2 = some (c + 1))
    {rest : List (Nat × Int)} (hrf : rest.filter (fun q => q.1 == 1) = [])
    (hr2 : ∀ q ∈ rest, q.1 = 2 ∧ c < q.2) :
    c7Inv (c + -5) (relaxAll c7wrapg none 1 ⟨rest, st.came, st.cost⟩) := by
  have hnb : mtxNbrsW c7wrapg 1 = [(1, -5), (2, 1)] := by decide
  unfold relaxAll
  rw [hnb, List.foldl_cons, List.foldl_cons, List.foldl_nil]
  have hA : relaxOne none 1 ⟨rest, st.came, st.cost⟩ (1, -5) =
      ⟨rest ++ [(1, c + -5)], (1, some 1) :: st.came, (1, c + -5) :: st.cost⟩ :=
    relaxOne_insert h1 (Or.inr ⟨c, h1, by show c + (-5 : Int) < c; omega⟩)
  rw [hA]
  have hl1 : alookup ((1, c + -5) :: st.cost) 1 = some (c + -5) := by
    simp [alookup_cons]
  have hl2 : alookup ((1, c + -5) :: st.cost) 2 = alookup st.cost 2 :=
    alookup_cons_ne _ _ (by omega)
  have hB : relaxOne none 1
      ⟨rest ++ [(1, c + -5)], (1, some 1) :: st.came, (1, c + -5) :: st.cost⟩
        (2, 1) =
      ⟨(rest ++ [(1, c + -5)]) ++ [(2, c + -5 + 1)],
        (2, some 1) :: (1, some 1) :: st.came,
        (2, c + -5 + 1) :: (1, c + -5) :: st.cost⟩ := by
    refine relaxOne_insert hl1 ?_
    rcases h2 with h2 | h2
    · exact Or.inl (hl2.trans h2)
    · exact Or.inr ⟨c + 1, hl2.trans h2, by show c + -5 + (1 : Int) < c + 1; omega⟩
  rw [hB]
  refine ⟨?_, ?_, ?_, ?_, ?_⟩
  · rw [alookup_cons_ne _ _ (by omega)]
    simp [alookup_cons]
  · right
    simp [alookup_cons]
  · simp [List.filter_append, hrf]
  · intro q hq
    simp only [List.mem_append] at hq
    rcases hq with (hq | hq) | hq
    · exact Or.inr (hr2 q hq).1
    · rw [List.mem_singleton.mp hq]
      exact Or.inl rfl
    · rw [List.mem_singleton.mp hq]
      exact Or.inr rfl
  · intro q hq hq2
    simp only [List.mem_append] at hq
    rcases hq with (hq | hq) | hq
    · have h9 := (hr2 q hq).2
      omega
    · rw [List.mem_singleton.mp hq] at hq2
      simp at hq2
    · rw [List.mem_singleton.mp hq]
      show c + -5 < c + -5 + 1
      omega

theorem c7Inv_loop : ∀ (fuel : Nat) (c : Int) (st : DijState), c7Inv c st →
    ∃ c2, c7Inv c2 (dijkstraLoop c7wrapg none (some 2) fuel st) := by
  intro fuel
  induction fuel with
  | zero => intro c st h; exact ⟨c, h⟩
  | succ f ih =>
    intro c st h
    obtain ⟨rest, hpop, hrf, hr2⟩ := c7Inv_pop h
    rw [dijkstraLoop_pop c7wrapg none (some 2) f st 1 c rest hpop]
    rw [if_neg (by decide : ¬ ((some 2 : Option Nat) = some 1))]
    obtain ⟨hc1, hc2, _, _, _⟩ := h
    exact ih (c + -5) _ (c7Inv_relax hc1 hc2 hrf hr2)

/-- C7 counterexample to the unamended claim: on the wrap graph the target
node 2 is reachable from 0 (via 0 -> 1 -> 2), but the usize weight 2^32 - 5
of the self-loop on node 1 wraps to -5 under dijkstra's `as i32` cast, so
relaxation re-queues node 1 at an ever smaller cost: at every fuel the
loop's next pop exists and is never the target.  The source's while-let
therefore never pops the target and never empties the heap, so its
path_to(0, 2) never returns any result at all (and the embedded loop, run
to its fuel bound, is still mid-loop with a nonempty frontier), against the
claim's promise of a present path for a reachable target. -/
theorem c7_counterexample :
    Reach (mtxNbrs c7wrapg) 0 2 ∧
      edgeWeight c7wrapg 1 1 = 2 ^ 32 - 5 ∧ asI32 (2 ^ 32 - 5) = -5 ∧
      (∀ fuel, ∃ p rest,
        popMin ((dijkstraLoop c7wrapg none (some 2) fuel
          ⟨[(0, 0)], [(0, none)], [(0, 0)]⟩).frontier) = some (p, rest) ∧
          p.1 ≠ 2) ∧
      (dijkstraFull c7wrapg 0 none (some 2)).frontier ≠ [] := by
  have hstep : ∀ fuel, ∃ p rest,
      popMin ((dijkstraLoop c7wrapg none (some 2) fuel
        ⟨[(0, 0)], [(0, none)], [(0, 0)]⟩).frontier) = some (p, rest) ∧
        p.1 ≠ 2 := by
    intro fuel
    cases fuel with
    | zero =>
      exact ⟨(0, 0), [], rfl, by decide⟩
    | succ f =>
      have e1 : dijkstraLoop c7wrapg none (some 2) (f + 1)
          ⟨[(0, 0)], [(0, none)], [(0, 0)]⟩ =
          dijkstraLoop c7wrapg none (some 2) f
            ⟨[(1, -5)], [(1, some 0), (0, none)], [(1, -5), (0, 0)]⟩ := rfl
      rw [e1]
      have hK1 : c7Inv (-5)
          ⟨[(1, -5)], [(1, some 0), (0, none)], [(1, -5), (0, 0)]⟩ := by decide
      obtain ⟨c2, hK⟩ := c7Inv_loop f (-5) _ hK1
      obtain ⟨rest, hpop, _, _⟩ := c7Inv_pop hK
      exact ⟨(1, c2), rest, hpop, by simp⟩
  refine ⟨?_, by decide, by decide, hstep, ?_⟩
  · have h1 : (1 : Nat) ∈ mtxNbrs c7wrapg 0 := by decide
    have h2 : (2 : Nat) ∈ mtxNbrs c7wrapg 1 := by decide
    exact Relation.ReflTransGen.tail (Relation.ReflTransGen.single h1) h2
  · obtain ⟨p, rest, hpop, _⟩ := hstep (dijFuel c7wrapg)
    intro hemp
    have hemp2 : (dijkstraLoop c7wrapg none (some 2) (dijFuel c7wrapg)
        ⟨[(0, 0)], [(0, none)], [(0, 0)]⟩).frontier = [] := hemp
    rw [hemp2] at hpop
    simp [popMin] at hpop

/-! Tarjan strongly connected components
(transitive_closure/tarjan.rs for the list graph and the identical
transitive_closure/purdoms.rs copy for the matrix graph; both are embedded
once, generically over the successor-list function, and instantiated per
graph type). -/

/-- Mirrors the Tarjan struct state: the discovery counter, per-node
discovery ids (-1 unvisited), low-links, on-stack flags, and the explicit
stack (its top at the list head, mirroring Vec push/pop at the end). -/
structure TarjanSt where
  id : Nat
  ids : List Int
  low : List Nat
  onStack : List Bool
  stack : List Nat

/-- Mirrors the SCC pop loop at the end of dfs: pop the stack down to and
including the root, clearing on-stack flags and setting each popped node's
low to the root's discovery index. -/
def popSccAux (root rootId : Nat) :
    List Nat → List Bool → List Nat → (List Nat × List Bool × List Nat)
  | [], onS, low => ([], onS, low)
  | node :: rest, onS, low =>
    let onS2 := onS.set node false
    let low2 := low.set node rootId
    if node = root then (rest, onS2, low2)
    else popSccAux root rootId rest onS2 low2

/-- Mirrors Tarjan::dfs, with fuel bounding the recursion depth (every
recursive call is on a still-unvisited node, so unvisited-count fuel is
never exhausted). -/
def tarjanDFS (succs : Nat → List Nat) : Nat → Nat → TarjanSt → TarjanSt
  | 0, _, st => st
  | fuel + 1, x0, st =>
    let id2 := st.id + 1
    let st1 : TarjanSt := ⟨id2, st.ids.set x0 (id2 : Int), st.low.set x0 id2,
      st.onStack.set x0 true, x0 :: st.stack⟩
    let st2 := (succs x0).foldl (fun s nb =>
      let s1 := if s.ids.getD nb 0 == -1 then tarjanDFS succs fuel nb s else s
      if s1.onStack.getD nb false then
        { s1 with low := s1.low.set x0 (min (s1.low.getD x0 0) (s1.low.getD nb 0)) }
      else s1) st1
    if st2.ids.getD x0 0 == (st2.low.getD x0 0 : Int) then
      let r := popSccAux x0 (st2.ids.getD x0 0).toNat st2.stack st2.onStack st2.low
      ⟨st2.id, st2.ids, r.2.2, r.2.1, r.1⟩
    else st2

/-- Mirrors Tarjan::new. -/
def tarjanInit (n : Nat) : TarjanSt :=
  ⟨0, List.replicate n (-1), List.replicate n 0, List.replicate n false, []⟩

/-- Mirrors Tarjan::sccs up to the final projection: the driver loop over all
nodes. -/
def tarjanRun (succs : Nat → List Nat) (n : Nat) : TarjanSt :=
  (List.range n).foldl
    (fun st i => if st.ids.getD i 0 == -1 then tarjanDFS succs (n + 1) i st else st)
    (tarjanInit n)

/-- Mirrors Tarjan::sccs: the returned per-node label vector. -/
def tarjanSccs (succs : Nat → List Nat) (n : Nat) : List Nat :=
  (tarjanRun succs n).low

/-- Tarjan over the matrix graph (purdoms.rs), scanning full rows. -/
def sccsMtx (g : MtxGraph T) : List Nat := tarjanSccs (mtxNbrs g) g.n

/-- Tarjan over the list graph (tarjan.rs), following edge records. -/
def sccsList (g : ListGraph V E) : List Nat :=
  tarjanSccs (listSuccs g) g.nodes.length

/-- Discovery id of node x (as stored, -1 when unvisited). -/
def tIds (st : TarjanSt) (x : Nat) : Int := st.ids.getD x 0

/-- Low-link of node x. -/
def tLow (st : TarjanSt) (x : Nat) : Nat := st.low.getD x 0

/-- Node x has been visited. -/
def tV (st : TarjanSt) (x : Nat) : Prop := tIds st x ≠ -1

/-- Node x is finished and off the stack with its component fully popped. -/
def tComplete (st : TarjanSt) (x : Nat) : Prop := tV st x ∧ x ∉ st.stack

/-- Mutual reachability over a successor function. -/
def SameSCC (succs : Nat → List Nat) (x y : Nat) : Prop :=
  Reach succs x y ∧ Reach succs y x

theorem head?_mem {l : List Nat} {a : Nat} (h : l.head? = some a) : a ∈ l := by
  cases l with
  | nil => simp at h
  | cons x t =>
    simp only [List.head?_cons, Option.some.injEq] at h
    exact h ▸ List.mem_cons_self x t

theorem sameSCC_refl (succs : Nat → List Nat) (x : Nat) : SameSCC succs x x :=
  ⟨Relation.ReflTransGen.refl, Relation.ReflTransGen.refl⟩

theorem sameSCC_symm {succs : Nat → List Nat} {x y : Nat}
    (h : SameSCC succs x y) : SameSCC succs y x := ⟨h.2, h.1⟩

theorem sameSCC_trans {succs : Nat → List Nat} {x y z : Nat}
    (h1 : SameSCC succs x y) (h2 : SameSCC succs y z) : SameSCC succs x z :=
  ⟨h1.1.trans h2.1, h2.2.trans h1.2⟩

/-- A reachability path from inside a set to outside it crosses some edge
leaving the set. -/
theorem reach_exit {succs : Nat → List Nat} (P : Nat → Prop) {a z : Nat}
    (h : Reach succs a z) (ha : P a) (hz : ¬ P z) :
    ∃ u v, P u ∧ ¬ P v ∧ SuccRel succs u v ∧ Reach succs a u ∧ Reach succs v z := by
  induction h with
  | refl => exact absurd ha hz
  | tail hab hbc ih =>
    rename_i b c
    by_cases hPb : P b
    · exact ⟨b, c, hPb, hz, hbc, hab, Relation.ReflTransGen.refl⟩
    · obtain ⟨u, v, hu, hv, huv, hau, hvb⟩ := ih hPb
      exact ⟨u, v, hu, hv, huv, hau, hvb.tail hbc⟩

theorem getD_set_self {α : Type} {l : List α} {i : Nat} (h : i < l.length)
    (v d : α) : (l.set i v).getD i d = v := by
  simp only [List.getD]
  rw [List.get?_set_eq_of_lt _ h]
  rfl

theorem getD_set_ne {α : Type} {l : List α} {i j : Nat} (h : i ≠ j) (v d : α) :
    (l.set i v).getD j d = l.getD j d := by
  simp only [List.getD]
  rw [List.get?_set_ne _ _ h]

/-- Number of still-unvisited nodes; fuel bound for the dfs recursion. -/
def unvis (n : Nat) (st : TarjanSt) : Nat :=
  ((Finset.range n).filter (fun x => st.ids.getD x 0 = -1)).card

theorem unvis_le (n : Nat) (st : TarjanSt) : unvis n st ≤ n := by
  calc ((Finset.range n).filter (fun x => st.ids.getD x 0 = -1)).card
      ≤ (Finset.range n).card := Finset.card_filter_le _ _
    _ = n := Finset.card_range n

theorem unvis_lt_of {n : Nat} {st st' : TarjanSt}
    (hmono : ∀ x, x < n → tV st x → tV st' x)
    {x0 : Nat} (hx0 : x0 < n) (hold : ¬ tV st x0) (hnew : tV st' x0) :
    unvis n st' < unvis n st := by
  apply Finset.card_lt_card
  constructor
  · intro x hx
    simp only [Finset.mem_filter, Finset.mem_range] at hx ⊢
    refine ⟨hx.1, ?_⟩
    by_contra hne
    exact (hmono x hx.1 hne) hx.2
  · intro hsub
    have : x0 ∈ (Finset.range n).filter (fun x => st.ids.getD x 0 = -1) := by
      simp only [Finset.mem_filter, Finset.mem_range]
      exact ⟨hx0, by simpa [tV, tIds] using hold⟩
    have := hsub this
    simp only [Finset.mem_filter, Finset.mem_range] at this
    exact hnew this.2

/-- Flag updates performed by the SCC pop loop. -/
def popFlags (ps : List Nat) (onS : List Bool) : List Bool :=
  ps.foldl (fun l p => l.set p false) onS

/-- Low-link updates performed by the SCC pop loop. -/
def popLows (ps : List Nat) (rootId : Nat) (low : List Nat) : List Nat :=
  ps.foldl (fun l p => l.set p rootId) low

theorem popSccAux_eq (root rootId : Nat) : ∀ (seg0 rest : List Nat)
    (onS : List Bool) (low : List Nat), root ∉ seg0 →
    popSccAux root rootId (seg0 ++ root :: rest) onS low =
      (rest, popFlags (seg0 ++ [root]) onS, popLows (seg0 ++ [root]) rootId low) := by
  intro seg0
  induction seg0 with
  | nil =>
    intro rest onS low _
    simp [popSccAux, popFlags, popLows]
  | cons p ps ih =>
    intro rest onS low hmem
    have hp : p ≠ root := fun h => hmem (h ▸ List.mem_cons_self _ _)
    have hps : root ∉ ps := fun h => hmem (List.mem_cons_of_mem _ h)
    simp only [List.cons_append, popSccAux, if_neg hp, List.append_eq]
    rw [ih rest _ _ hps]
    rfl

theorem popFlags_length (ps : List Nat) (onS : List Bool) :
    (popFlags ps onS).length = onS.length := by
  induction ps generalizing onS with
  | nil => rfl
  | cons p ps ih =>
    have hstep : popFlags (p :: ps) onS = popFlags ps (onS.set p false) := rfl
    rw [hstep, ih, List.length_set]

theorem popLows_length (ps : List Nat) (rootId : Nat) (low : List Nat) :
    (popLows ps rootId low).length = low.length := by
  induction ps generalizing low with
  | nil => rfl
  | cons p ps ih =>
    have hstep : popLows (p :: ps) rootId low = popLows ps rootId (low.set p rootId) := rfl
    rw [hstep, ih, List.length_set]

theorem popFlags_getD_notMem {ps : List Nat} {onS : List Bool} {x : Nat}
    (h : x ∉ ps) (d : Bool) : (popFlags ps onS).getD x d = onS.getD x d := by
  induction ps generalizing onS with
  | nil => rfl
  | cons p ps ih =>
    have hx : p ≠ x := fun he => h (he ▸ List.mem_cons_self _ _)
    have hps : x ∉ ps := fun he => h (List.mem_cons_of_mem _ he)
    have hstep : popFlags (p :: ps) onS = popFlags ps (onS.set p false) := rfl
    rw [hstep, ih hps, getD_set_ne hx]

theorem popLows_getD_notMem {ps : List Nat} {rootId : Nat} {low : List Nat}
    {x : Nat} (h : x ∉ ps) (d : Nat) :
    (popLows ps rootId low).getD x d = low.getD x d := by
  induction ps generalizing low with
  | nil => rfl
  | cons p ps ih =>
    have hx : p ≠ x := fun he => h (he ▸ List.mem_cons_self _ _)
    have hps : x ∉ ps := fun he => h (List.mem_cons_of_mem _ he)
    have hstep : popLows (p :: ps) rootId low = popLows ps rootId (low.set p rootId) := rfl
    rw [hstep, ih hps, getD_set_ne hx]

theorem popFlags_getD_mem {ps : List Nat} {onS : List Bool} {x : Nat}
    (h : x ∈ ps) (hlen : x < onS.length) :
    (popFlags ps onS).getD x false = false := by
  induction ps generalizing onS with
  | nil => exact absurd h (List.not_mem_nil _)
  | cons p ps ih =>
    have hstep : popFlags (p :: ps) onS = popFlags ps (onS.set p false) := rfl
    rw [hstep]
    by_cases hx : x ∈ ps
    · exact ih hx (by rw [List.length_set]; exact hlen)
    · have hpx : p = x := by
        rcases List.mem_cons.mp h with h1 | h2
        · exact h1.symm
        · exact absurd h2 hx
      subst hpx
      rw [popFlags_getD_notMem hx]
      exact getD_set_self hlen false false

theorem popLows_getD_mem {ps : List Nat} {rootId : Nat} {low : List Nat}
    {x : Nat} (h : x ∈ ps) (hlen : x < low.length) :
    (popLows ps rootId low).getD x 0 = rootId := by
  induction ps generalizing low with
  | nil => exact absurd h (List.not_mem_nil _)
  | cons p ps ih =>
    have hstep : popLows (p :: ps) rootId low = popLows ps rootId (low.set p rootId) := rfl
    rw [hstep]
    by_cases hx : x ∈ ps
    · exact ih hx (by rw [List.length_set]; exact hlen)
    · have hpx : p = x := by
        rcases List.mem_cons.mp h with h1 | h2
        · exact h1.symm
        · exact absurd h2 hx
      subst hpx
      rw [popLows_getD_notMem hx]
      exact getD_set_self hlen rootId 0

/-- The running invariant of the Tarjan state, maintained by dfs between
any two calls: shape of the arrays, discovery-id accounting, stack ordering
and reachability structure, and full correctness of already-popped
components. -/
structure TInv (succs : Nat → List Nat) (n : Nat) (st : TarjanSt) : Prop where
  len_ids : st.ids.length = n
  len_low : st.low.length = n
  len_onS : st.onStack.length = n
  stack_lt : ∀ x ∈ st.stack, x < n
  stack_vis : ∀ x ∈ st.stack, tV st x
  stack_nodup : st.stack.Nodup
  onS_iff : ∀ x, x < n → (st.onStack.getD x false = true ↔ x ∈ st.stack)
  vis_iff : ∀ x, x < n → (tV st x ↔ 1 ≤ tIds st x ∧ tIds st x ≤ (st.id : Int))
  ids_inj : ∀ x y, x < n → y < n → tV st x → tV st y → tIds st x = tIds st y → x = y
  stack_sorted : st.stack.Chain' (fun a b => tIds st b < tIds st a)
  stack_reach : ∀ x ∈ st.stack, ∀ y ∈ st.stack, tIds st x < tIds st y →
      Reach succs x y
  stack_low : ∀ x ∈ st.stack, ∃ y, y ∈ st.stack ∧ tIds st y = (tLow st x : Int) ∧
      tIds st y ≤ tIds st x ∧ Reach succs x y
  complete_succs : ∀ x, x < n → tComplete st x → ∀ y ∈ succs x, tComplete st y
  complete_scc : ∀ x, x < n → tComplete st x → ∃ r, r < n ∧ tComplete st r ∧
      SameSCC succs r x ∧ tIds st r = (tLow st x : Int) ∧
      (∀ z, z < n → SameSCC succs z x → tComplete st z ∧ tLow st z = tLow st x) ∧
      (∀ z, z < n → SameSCC succs z x → tIds st r ≤ tIds st z)

/-- Everything reachable from a completed node is completed. -/
theorem tComplete_closed {succs : Nat → List Nat} {n : Nat} {st : TarjanSt}
    (inv : TInv succs n st) (hsucc : ∀ a b, b ∈ succs a → b < n)
    {x y : Nat} (hx : x < n) (hc : tComplete st x) (h : Reach succs x y) :
    tComplete st y ∧ y < n := by
  induction h with
  | refl => exact ⟨hc, hx⟩
  | tail hab hbc ih =>
    obtain ⟨hcb, hbn⟩ := ih
    exact ⟨inv.complete_succs _ hbn hcb _ hbc, hsucc _ _ hbc⟩

theorem stack_ids_le {succs : Nat → List Nat} {n : Nat} {st : TarjanSt}
    (inv : TInv succs n st) : ∀ x ∈ st.stack, tIds st x ≤ (st.id : Int) :=
  fun x hx =>
    ((inv.vis_iff x (inv.stack_lt x hx)).1 (inv.stack_vis x hx)).2

theorem stack_ids_pos {succs : Nat → List Nat} {n : Nat} {st : TarjanSt}
    (inv : TInv succs n st) : ∀ x ∈ st.stack, 1 ≤ tIds st x :=
  fun x hx =>
    ((inv.vis_iff x (inv.stack_lt x hx)).1 (inv.stack_vis x hx)).1

theorem tStack_pairwise {succs : Nat → List Nat} {n : Nat} {st : TarjanSt}
    (inv : TInv succs n st) :
    st.stack.Pairwise (fun a b => tIds st b < tIds st a) := by
  have htr : IsTrans Nat (fun a b : Nat => tIds st b < tIds st a) :=
    ⟨fun _ _ _ hab hbc => lt_trans hbc hab⟩
  exact List.chain'_iff_pairwise.mp inv.stack_sorted

/-- The state right after the push/mark/number prologue of dfs. -/
def pushSt (x0 : Nat) (st : TarjanSt) : TarjanSt :=
  ⟨st.id + 1, st.ids.set x0 ((st.id + 1 : Nat) : Int), st.low.set x0 (st.id + 1),
    st.onStack.set x0 true, x0 :: st.stack⟩

/-- One iteration of the neighbor loop of dfs. -/
def tarjanStep (succs : Nat → List Nat) (fuel x0 : Nat) (s : TarjanSt)
    (nb : Nat) : TarjanSt :=
  let s1 := if s.ids.getD nb 0 == -1 then tarjanDFS succs fuel nb s else s
  if s1.onStack.getD nb false then
    { s1 with low := s1.low.set x0 (min (s1.low.getD x0 0) (s1.low.getD nb 0)) }
  else s1

/-- The SCC pop at the end of dfs. -/
def popAll (x0 : Nat) (s : TarjanSt) : TarjanSt :=
  let r := popSccAux x0 (s.ids.getD x0 0).toNat s.stack s.onStack s.low
  ⟨s.id, s.ids, r.2.2, r.2.1, r.1⟩

theorem tarjanDFS_succ_eq (succs : Nat → List Nat) (fuel x0 : Nat)
    (st : TarjanSt) :
    tarjanDFS succs (fuel + 1) x0 st =
      (if tIds ((succs x0).foldl (tarjanStep succs fuel x0) (pushSt x0 st)) x0 ==
          ((tLow ((succs x0).foldl (tarjanStep succs fuel x0) (pushSt x0 st)) x0 : Nat) : Int)
        then popAll x0 ((succs x0).foldl (tarjanStep succs fuel x0) (pushSt x0 st))
        else (succs x0).foldl (tarjanStep succs fuel x0) (pushSt x0 st)) := rfl

/-- Precondition of a dfs call: the running invariant, an unvisited in-range
node, the active ancestor chain (a ghost parameter) sitting on the stack with
every other visited node fully expanded, and the whole stack reaching the
callee. -/
structure TPre (succs : Nat → List Nat) (n : Nat) (anc : List Nat) (x0 : Nat)
    (st : TarjanSt) : Prop where
  inv : TInv succs n st
  x0_lt : x0 < n
  x0_unvis : ¬ tV st x0
  anc_stack : ∀ u ∈ anc, u ∈ st.stack
  a1 : ∀ u, u < n → tV st u → u ∉ anc → ∀ v ∈ succs u, tV st v
  stack_reach_x0 : ∀ s ∈ st.stack, Reach succs s x0

/-- Postcondition of a dfs call, describing the returned state st' relative
to the entry state st. -/
structure TPost (succs : Nat → List Nat) (n : Nat) (anc : List Nat) (x0 : Nat)
    (st st' : TarjanSt) : Prop where
  inv : TInv succs n st'
  id_lt : st.id < st'.id
  ids_old : ∀ x, x < n → tV st x → tIds st' x = tIds st x
  low_old : ∀ x, x < n → tV st x → tLow st' x = tLow st x
  vis_x0 : tV st' x0
  ids_x0 : tIds st' x0 = (st.id : Int) + 1
  vis_new : ∀ x, x < n → tV st' x → tV st x ∨ Reach succs x0 x
  stack_tail : ∃ seg, st'.stack = seg ++ st.stack ∧
      ∀ x ∈ seg, ¬ tV st x ∧ (st.id : Int) < tIds st' x
  a1 : ∀ u, u < n → tV st' u → u ∉ anc → ∀ v ∈ succs u, tV st' v
  strict_low : ∀ x ∈ st'.stack, (st.id : Int) < tIds st' x →
      ((tLow st' x : Nat) : Int) < tIds st' x
  edges_low : ∀ u ∈ st'.stack, (st.id : Int) < tIds st' u → ∀ v ∈ succs u,
      v ∈ st'.stack → tIds st' v ≤ (st.id : Int) → tLow st' u ≤ tLow st' v
  seg_low : x0 ∈ st'.stack → ∀ x ∈ st'.stack, (st.id : Int) < tIds st' x →
      tLow st' x0 ≤ tLow st' x
  seg_reach : ∀ x ∈ st'.stack, (st.id : Int) < tIds st' x → Reach succs x x0
  pop_or_stay : (x0 ∉ st'.stack ∧ st'.stack = st.stack) ∨ x0 ∈ st'.stack
  unvis_lt : unvis n st' < unvis n st

/-- Invariant of the neighbor loop of dfs, relating the loop state s to the
entry state st of the enclosing dfs call. -/
structure TFold (succs : Nat → List Nat) (n : Nat) (anc : List Nat) (x0 : Nat)
    (st s : TarjanSt) : Prop where
  inv : TInv succs n s
  x0_stack : x0 ∈ s.stack
  ids_x0 : tIds s x0 = (st.id : Int) + 1
  id_lt : st.id < s.id
  ids_old : ∀ x, x < n → tV st x → tIds s x = tIds st x
  low_old : ∀ x, x < n → tV st x → tLow s x = tLow st x
  vis_new : ∀ x, x < n → tV s x → tV st x ∨ Reach succs x0 x
  stack_tail : ∃ seg, s.stack = seg ++ st.stack ∧
      ∀ x ∈ seg, ¬ tV st x ∧ (st.id : Int) < tIds s x
  a1 : ∀ u, u < n → tV s u → u ∉ anc → u ≠ x0 → ∀ v ∈ succs u, tV s v
  strict_low : ∀ x ∈ s.stack, (st.id : Int) < tIds s x → x ≠ x0 →
      ((tLow s x : Nat) : Int) < tIds s x
  edges_low : ∀ u ∈ s.stack, (st.id : Int) < tIds s u → u ≠ x0 → ∀ v ∈ succs u,
      v ∈ s.stack → tIds s v ≤ (st.id : Int) → tLow s u ≤ tLow s v
  seg_low : ∀ x ∈ s.stack, (st.id : Int) < tIds s x → tLow s x0 ≤ tLow s x
  seg_reach : ∀ x ∈ s.stack, (st.id : Int) < tIds s x → Reach succs x x0
  low_x0_le : tLow s x0 ≤ st.id + 1
  unvis_lt : unvis n s < unvis n st

theorem chain_lt_congr {f g : Nat → Int} : ∀ {l : List Nat},
    (∀ x ∈ l, g x = f x) → l.Chain' (fun a b => f b < f a) →
    l.Chain' (fun a b => g b < g a) := by
  intro l
  induction l with
  | nil => intro _ _; exact List.chain'_nil
  | cons a t ih =>
    intro h hc
    rcases t with _ | ⟨b, t2⟩
    · exact List.chain'_singleton _
    · rw [List.chain'_cons] at hc ⊢
      refine ⟨?_, ih (fun x hx => h x (List.mem_cons_of_mem _ hx)) hc.2⟩
      rw [h a (List.mem_cons_self _ _),
        h b (List.mem_cons_of_mem _ (List.mem_cons_self _ _))]
      exact hc.1

theorem tV_congr {st st' : TarjanSt} {x : Nat} (h : tIds st' x = tIds st x) :
    tV st x ↔ tV st' x := by unfold tV; rw [h]

/-- Pushing an unvisited node preserves the running invariant. -/
theorem tInv_push {succs : Nat → List Nat} {n : Nat} {anc : List Nat}
    {x0 : Nat} {st : TarjanSt} (hpre : TPre succs n anc x0 st) :
    TInv succs n (pushSt x0 st) := by
  obtain ⟨inv, hx0, hunv, hanc, ha1, hreach⟩ := hpre
  have hlen_ids : x0 < st.ids.length := by rw [inv.len_ids]; exact hx0
  have hlen_low : x0 < st.low.length := by rw [inv.len_low]; exact hx0
  have hlen_onS : x0 < st.onStack.length := by rw [inv.len_onS]; exact hx0
  have hids_self : tIds (pushSt x0 st) x0 = ((st.id + 1 : Nat) : Int) :=
    getD_set_self hlen_ids _ _
  have hids_ne : ∀ x, x ≠ x0 → tIds (pushSt x0 st) x = tIds st x :=
    fun x hx => getD_set_ne (fun h => hx h.symm) _ _
  have hlow_self : tLow (pushSt x0 st) x0 = st.id + 1 := getD_set_self hlen_low _ _
  have hlow_ne : ∀ x, x ≠ x0 → tLow (pushSt x0 st) x = tLow st x :=
    fun x hx => getD_set_ne (fun h => hx h.symm) _ _
  have hstack : (pushSt x0 st).stack = x0 :: st.stack := rfl
  have honS : (pushSt x0 st).onStack = st.onStack.set x0 true := rfl
  have hid : (pushSt x0 st).id = st.id + 1 := rfl
  have hvx0 : tV (pushSt x0 st) x0 := by
    unfold tV; rw [hids_self]; intro h; omega
  have hx0_nstack : x0 ∉ st.stack := fun h => hunv (inv.stack_vis _ h)
  have hvtrans : ∀ x, x ≠ x0 → (tV st x ↔ tV (pushSt x0 st) x) := by
    intro x hx
    exact tV_congr (hids_ne x hx)
  have hids_le : ∀ x ∈ st.stack, tIds st x ≤ (st.id : Int) := stack_ids_le inv
  have hcomp : ∀ x, tComplete (pushSt x0 st) x → x ≠ x0 := by
    intro x hc he
    subst he
    exact hc.2 (by rw [hstack]; exact List.mem_cons_self _ _)
  have hcomp_to : ∀ x, tComplete (pushSt x0 st) x → tComplete st x := by
    intro x hc
    have hne := hcomp x hc
    refine ⟨(hvtrans x hne).mpr hc.1, fun hm => hc.2 ?_⟩
    rw [hstack]
    exact List.mem_cons_of_mem _ hm
  have hcomp_from : ∀ x, tComplete st x → tComplete (pushSt x0 st) x := by
    intro x hc
    have hne : x ≠ x0 := fun he => hunv (he ▸ hc.1)
    refine ⟨(hvtrans x hne).mp hc.1, fun hm => ?_⟩
    rw [hstack] at hm
    rcases List.mem_cons.mp hm with he | hm2
    · exact hne he
    · exact hc.2 hm2
  refine ⟨?_, ?_, ?_, ?_, ?_, ?_, ?_, ?_, ?_, ?_, ?_, ?_, ?_, ?_⟩
  · show (st.ids.set x0 _).length = n
    rw [List.length_set]; exact inv.len_ids
  · show (st.low.set x0 _).length = n
    rw [List.length_set]; exact inv.len_low
  · show (st.onStack.set x0 _).length = n
    rw [List.length_set]; exact inv.len_onS
  · intro x hx
    rw [hstack] at hx
    rcases List.mem_cons.mp hx with he | hm
    · exact he ▸ hx0
    · exact inv.stack_lt x hm
  · intro x hx
    rw [hstack] at hx
    rcases List.mem_cons.mp hx with he | hm
    · exact he ▸ hvx0
    · have hne : x ≠ x0 := fun h => hx0_nstack (h ▸ hm)
      exact (hvtrans x hne).mp (inv.stack_vis x hm)
  · rw [hstack]
    exact List.nodup_cons.mpr ⟨hx0_nstack, inv.stack_nodup⟩
  · intro x hxn
    by_cases hxx : x = x0
    · subst hxx
      rw [honS, getD_set_self hlen_onS, hstack]
      simp
    · rw [honS, getD_set_ne (fun h => hxx h.symm), hstack, inv.onS_iff x hxn]
      simp [List.mem_cons, hxx]
  · intro x hxn
    by_cases hxx : x = x0
    · subst hxx
      constructor
      · intro _
        rw [hids_self, hid]
        constructor <;> [skip; skip] <;> push_cast <;> omega
      · intro _
        exact hvx0
    · constructor
      · intro hv
        have h2 := (inv.vis_iff x hxn).mp ((hvtrans x hxx).mpr hv)
        rw [hids_ne x hxx, hid]
        push_cast
        omega
      · rintro ⟨h1, _⟩
        intro heq
        rw [heq] at h1
        omega
  · intro x y hxn hyn hvx hvy heq
    by_cases hxx : x = x0 <;> by_cases hyy : y = x0
    · rw [hxx, hyy]
    · subst hxx
      rw [hids_self, hids_ne y hyy] at heq
      have hvy2 := (inv.vis_iff y hyn).mp ((hvtrans y hyy).mpr hvy)
      exfalso
      push_cast at heq
      omega
    · subst hyy
      rw [hids_self, hids_ne x hxx] at heq
      have hvx2 := (inv.vis_iff x hxn).mp ((hvtrans x hxx).mpr hvx)
      exfalso
      push_cast at heq
      omega
    · rw [hids_ne x hxx, hids_ne y hyy] at heq
      exact inv.ids_inj x y hxn hyn ((hvtrans x hxx).mpr hvx)
        ((hvtrans y hyy).mpr hvy) heq
  · rw [hstack]
    refine List.chain'_cons'.mpr ⟨?_, ?_⟩
    · intro y hy
      have hym : y ∈ st.stack := head?_mem hy
      have hyne : y ≠ x0 := fun he => hx0_nstack (he ▸ hym)
      rw [hids_ne y hyne, hids_self]
      have := hids_le y hym
      push_cast
      omega
    · exact chain_lt_congr
        (fun x hx => hids_ne x (fun he => hx0_nstack (he ▸ hx)))
        inv.stack_sorted
  · intro x hx y hy hlt
    rw [hstack] at hx hy
    rcases List.mem_cons.mp hy with hy0 | hys
    · subst hy0
      rcases List.mem_cons.mp hx with hx0 | hxs
      · exact hx0 ▸ Relation.ReflTransGen.refl
      · exact hreach x hxs
    · have hyne : y ≠ x0 := fun he => hx0_nstack (he ▸ hys)
      rcases List.mem_cons.mp hx with hx0 | hxs
      · subst hx0
        rw [hids_self, hids_ne y hyne] at hlt
        have := hids_le y hys
        exfalso
        push_cast at hlt
        omega
      · have hxne : x ≠ x0 := fun he => hx0_nstack (he ▸ hxs)
        rw [hids_ne x hxne, hids_ne y hyne] at hlt
        exact inv.stack_reach x hxs y hys hlt
  · intro x hx
    rw [hstack] at hx
    rcases List.mem_cons.mp hx with hx0 | hxs
    · subst hx0
      exact ⟨x, by rw [hstack]; exact List.mem_cons_self _ _,
        by rw [hids_self, hlow_self], le_refl _, Relation.ReflTransGen.refl⟩
    · have hxne : x ≠ x0 := fun he => hx0_nstack (he ▸ hxs)
      obtain ⟨y, hym, he1, he2, hr⟩ := inv.stack_low x hxs
      have hyne : y ≠ x0 := fun he => hx0_nstack (he ▸ hym)
      exact ⟨y, by rw [hstack]; exact List.mem_cons_of_mem _ hym,
        by rw [hids_ne y hyne, hlow_ne x hxne]; exact he1,
        by rw [hids_ne y hyne, hids_ne x hxne]; exact he2, hr⟩
  · intro x hxn hcx y hy
    exact hcomp_from y (inv.complete_succs x hxn (hcomp_to x hcx) y hy)
  · intro x hxn hcx
    obtain ⟨r, hrn, hcr, hscc, hidr, hall, hmin⟩ :=
      inv.complete_scc x hxn (hcomp_to x hcx)
    have hrne : r ≠ x0 := fun he => hunv (he ▸ hcr.1)
    have hxne : x ≠ x0 := hcomp x hcx
    refine ⟨r, hrn, hcomp_from r hcr, hscc, ?_, ?_, ?_⟩
    · rw [hids_ne r hrne, hlow_ne x hxne]
      exact hidr
    · intro z hzn hzx
      obtain ⟨hcz, hlz⟩ := hall z hzn hzx
      have hzne : z ≠ x0 := fun he => hunv (he ▸ hcz.1)
      exact ⟨hcomp_from z hcz,
        by rw [hlow_ne z hzne, hlow_ne x hxne]; exact hlz⟩
    · intro z hzn hzx
      have hcz := (hall z hzn hzx).1
      have hzne : z ≠ x0 := fun he => hunv (he ▸ hcz.1)
      rw [hids_ne r hrne, hids_ne z hzne]
      exact hmin z hzn hzx

/-- The push establishes the neighbor-loop invariant. -/
theorem tFold_init {succs : Nat → List Nat} {n : Nat} {anc : List Nat}
    {x0 : Nat} {st : TarjanSt} (hpre : TPre succs n anc x0 st) :
    TFold succs n anc x0 st (pushSt x0 st) := by
  have hinv := tInv_push hpre
  obtain ⟨inv, hx0, hunv, hanc, ha1, hreach⟩ := hpre
  have hlen_ids : x0 < st.ids.length := by rw [inv.len_ids]; exact hx0
  have hlen_low : x0 < st.low.length := by rw [inv.len_low]; exact hx0
  have hids_self : tIds (pushSt x0 st) x0 = ((st.id + 1 : Nat) : Int) :=
    getD_set_self hlen_ids _ _
  have hids_ne : ∀ x, x ≠ x0 → tIds (pushSt x0 st) x = tIds st x :=
    fun x hx => getD_set_ne (fun h => hx h.symm) _ _
  have hlow_self : tLow (pushSt x0 st) x0 = st.id + 1 := getD_set_self hlen_low _ _
  have hlow_ne : ∀ x, x ≠ x0 → tLow (pushSt x0 st) x = tLow st x :=
    fun x hx => getD_set_ne (fun h => hx h.symm) _ _
  have hstack : (pushSt x0 st).stack = x0 :: st.stack := rfl
  have hid : (pushSt x0 st).id = st.id + 1 := rfl
  have hvx0 : tV (pushSt x0 st) x0 := by
    unfold tV; rw [hids_self]; intro h; omega
  have hx0_nstack : x0 ∉ st.stack := fun h => hunv (inv.stack_vis _ h)
  have hvtrans : ∀ x, x ≠ x0 → (tV st x ↔ tV (pushSt x0 st) x) := by
    intro x hx
    exact tV_congr (hids_ne x hx)
  have hids_le : ∀ x ∈ st.stack, tIds st x ≤ (st.id : Int) := stack_ids_le inv
  have hmemcase : ∀ x ∈ (pushSt x0 st).stack, x = x0 ∨ x ∈ st.stack := by
    intro x hx
    rw [hstack] at hx
    exact List.mem_cons.mp hx
  have hold_small : ∀ x ∈ st.stack, ¬ ((st.id : Int) < tIds (pushSt x0 st) x) := by
    intro x hm hlt
    have hxne : x ≠ x0 := fun he => hx0_nstack (he ▸ hm)
    rw [hids_ne x hxne] at hlt
    have := hids_le x hm
    omega
  refine ⟨hinv, ?_, ?_, ?_, ?_, ?_, ?_, ?_, ?_, ?_, ?_, ?_, ?_, ?_, ?_⟩
  · rw [hstack]
    exact List.mem_cons_self _ _
  · rw [hids_self]
    push_cast
    ring
  · rw [hid]
    omega
  · intro x hxn hv
    exact hids_ne x (fun he => hunv (he ▸ hv))
  · intro x hxn hv
    exact hlow_ne x (fun he => hunv (he ▸ hv))
  · intro x hxn hv
    by_cases hxx : x = x0
    · exact Or.inr (hxx ▸ Relation.ReflTransGen.refl)
    · exact Or.inl ((hvtrans x hxx).mpr hv)
  · refine ⟨[x0], by rw [hstack]; rfl, ?_⟩
    intro x hx
    have he : x = x0 := by simpa using hx
    subst he
    refine ⟨hunv, ?_⟩
    rw [hids_self]
    push_cast
    omega
  · intro u hun hvu hancu hne v hv
    have hvu2 := (hvtrans u hne).mpr hvu
    have hvv := ha1 u hun hvu2 hancu v hv
    have hvne : v ≠ x0 := fun he => hunv (he ▸ hvv)
    exact (hvtrans v hvne).mp hvv
  · intro x hx hgt hne
    exfalso
    rcases hmemcase x hx with he | hm
    · exact hne he
    · exact hold_small x hm hgt
  · intro u hu hgt hne v hv hvs hvle
    exfalso
    rcases hmemcase u hu with he | hm
    · exact hne he
    · exact hold_small u hm hgt
  · intro x hx hgt
    rcases hmemcase x hx with he | hm
    · subst he
      exact le_refl _
    · exact absurd hgt (hold_small x hm)
  · intro x hx hgt
    rcases hmemcase x hx with he | hm
    · exact he ▸ Relation.ReflTransGen.refl
    · exact absurd hgt (hold_small x hm)
  · rw [hlow_self]
  · refine unvis_lt_of ?_ hx0 hunv hvx0
    intro x hxn hv
    exact (hvtrans x (fun he => hunv (he ▸ hv))).mp hv

/-- The low-link update applied when a processed neighbor is on the stack. -/
def minUpd (x0 nb : Nat) (s : TarjanSt) : TarjanSt :=
  { s with low := s.low.set x0 (min (s.low.getD x0 0) (s.low.getD nb 0)) }

theorem tarjanStep_unvis {succs : Nat → List Nat} {fuel x0 : Nat}
    {s : TarjanSt} {nb : Nat} (h : ¬ tV s nb) :
    tarjanStep succs fuel x0 s nb =
      (if (tarjanDFS succs fuel nb s).onStack.getD nb false
        then minUpd x0 nb (tarjanDFS succs fuel nb s)
        else tarjanDFS succs fuel nb s) := by
  have hc : (s.ids.getD nb 0 == -1) = true := by
    simp only [beq_iff_eq]
    exact not_not.mp h
  unfold tarjanStep
  rw [hc]
  rfl

theorem tarjanStep_vis {succs : Nat → List Nat} {fuel x0 : Nat}
    {s : TarjanSt} {nb : Nat} (h : tV s nb) :
    tarjanStep succs fuel x0 s nb =
      (if s.onStack.getD nb false then minUpd x0 nb s else s) := by
  have hc : (s.ids.getD nb 0 == -1) = false := by
    simp only [beq_eq_false_iff_ne, ne_eq]
    exact h
  unfold tarjanStep
  rw [hc]
  rfl

/-- The low-link min update preserves the running invariant when both ends
are on the stack and the neighbor is a successor of the updated node. -/
theorem tInv_minUpd {succs : Nat → List Nat} {n : Nat} {s : TarjanSt}
    {x0 nb : Nat} (inv : TInv succs n s) (hx0n : x0 < n)
    (hx0s : x0 ∈ s.stack) (hnbs : nb ∈ s.stack)
    (hedge : SuccRel succs x0 nb) : TInv succs n (minUpd x0 nb s) := by
  have hlen_low : x0 < s.low.length := by rw [inv.len_low]; exact hx0n
  have hlow_self : tLow (minUpd x0 nb s) x0 = min (tLow s x0) (tLow s nb) :=
    getD_set_self hlen_low _ _
  have hlow_ne : ∀ x, x ≠ x0 → tLow (minUpd x0 nb s) x = tLow s x :=
    fun x hx => getD_set_ne (fun h => hx h.symm) _ _
  have hx0_comp : ¬ tComplete s x0 := fun hc => hc.2 hx0s
  refine ⟨inv.len_ids, ?_, inv.len_onS, inv.stack_lt, inv.stack_vis,
    inv.stack_nodup, inv.onS_iff, inv.vis_iff, inv.ids_inj, inv.stack_sorted,
    inv.stack_reach, ?_, ?_, ?_⟩
  · show (s.low.set x0 _).length = n
    rw [List.length_set]
    exact inv.len_low
  · intro x hx
    by_cases hxx : x = x0
    · subst hxx
      rcases min_choice (tLow s x) (tLow s nb) with hmin | hmin
      · obtain ⟨y, hym, he1, he2, hr⟩ := inv.stack_low x hx
        refine ⟨y, hym, ?_, he2, hr⟩
        show tIds s y = ((tLow (minUpd x nb s) x : Nat) : Int)
        rw [hlow_self, hmin]
        exact he1
      · obtain ⟨y, hym, he1, he2, hr⟩ := inv.stack_low nb hnbs
        obtain ⟨y0, hy0m, hey0, hey2, _⟩ := inv.stack_low x hx
        refine ⟨y, hym, ?_, ?_, Relation.ReflTransGen.head hedge hr⟩
        · show tIds s y = ((tLow (minUpd x nb s) x : Nat) : Int)
          rw [hlow_self, hmin]
          exact he1
        · show tIds s y ≤ tIds s x
          have hmle : min (tLow s x) (tLow s nb) ≤ tLow s x := min_le_left _ _
          rw [he1, ← hmin]
          calc ((min (tLow s x) (tLow s nb) : Nat) : Int)
              ≤ ((tLow s x : Nat) : Int) := by exact_mod_cast hmle
            _ = tIds s y0 := hey0.symm
            _ ≤ tIds s x := hey2
    · obtain ⟨y, hym, he1, he2, hr⟩ := inv.stack_low x hx
      refine ⟨y, hym, ?_, he2, hr⟩
      show tIds s y = ((tLow (minUpd x0 nb s) x : Nat) : Int)
      rw [hlow_ne x hxx]
      exact he1
  · exact inv.complete_succs
  · intro x hxn hcx
    have hxne : x ≠ x0 := fun he => hx0_comp (he ▸ hcx)
    obtain ⟨r, hrn, hcr, hscc, hidr, hall, hmin⟩ := inv.complete_scc x hxn hcx
    have hrne : r ≠ x0 := fun he => hx0_comp (he ▸ hcr)
    refine ⟨r, hrn, hcr, hscc, ?_, ?_, hmin⟩
    · show tIds s r = ((tLow (minUpd x0 nb s) x : Nat) : Int)
      rw [hlow_ne x hxne]
      exact hidr
    · intro z hzn hzx
      obtain ⟨hcz, hlz⟩ := hall z hzn hzx
      have hzne : z ≠ x0 := fun he => hx0_comp (he ▸ hcz)
      refine ⟨hcz, ?_⟩
      show tLow (minUpd x0 nb s) z = tLow (minUpd x0 nb s) x
      rw [hlow_ne z hzne, hlow_ne x hxne]
      exact hlz

theorem tFold_vis_mono {succs : Nat → List Nat} {n : Nat} {anc : List Nat}
    {x0 : Nat} {st s : TarjanSt} (hf : TFold succs n anc x0 st s) :
    ∀ x, x < n → tV st x → tV s x :=
  fun x hxn hv => (tV_congr (hf.ids_old x hxn hv)).mp hv

theorem tPost_vis_mono {succs : Nat → List Nat} {n : Nat} {anc : List Nat}
    {x0 : Nat} {st st' : TarjanSt} (hp : TPost succs n anc x0 st st') :
    ∀ x, x < n → tV st x → tV st' x :=
  fun x hxn hv => (tV_congr (hp.ids_old x hxn hv)).mp hv

/-- Processing an on-stack neighbor (the low-link min) keeps the loop
invariant. -/
theorem tFold_minUpd {succs : Nat → List Nat} {n : Nat} {anc : List Nat}
    {x0 : Nat} {st s : TarjanSt} {nb : Nat}
    (hf : TFold succs n anc x0 st s) (hnb : nb ∈ succs x0)
    (hnbs : nb ∈ s.stack) (hx0unvis : ¬ tV st x0) (hx0n : x0 < n) :
    TFold succs n anc x0 st (minUpd x0 nb s) := by
  have hlen_low : x0 < s.low.length := by rw [hf.inv.len_low]; exact hx0n
  have hlow_self : tLow (minUpd x0 nb s) x0 = min (tLow s x0) (tLow s nb) :=
    getD_set_self hlen_low _ _
  have hlow_ne : ∀ x, x ≠ x0 → tLow (minUpd x0 nb s) x = tLow s x :=
    fun x hx => getD_set_ne (fun h => hx h.symm) _ _
  have hmin_le : tLow (minUpd x0 nb s) x0 ≤ tLow s x0 := by
    rw [hlow_self]; exact min_le_left _ _
  refine ⟨tInv_minUpd hf.inv hx0n hf.x0_stack hnbs hnb, hf.x0_stack,
    hf.ids_x0, hf.id_lt, hf.ids_old, ?_, hf.vis_new, hf.stack_tail, hf.a1,
    ?_, ?_, ?_, hf.seg_reach, ?_, hf.unvis_lt⟩
  · intro x hxn hv
    have hxne : x ≠ x0 := fun he => hx0unvis (he ▸ hv)
    rw [hlow_ne x hxne]
    exact hf.low_old x hxn hv
  · intro x hx hgt hne
    show ((tLow (minUpd x0 nb s) x : Nat) : Int) < tIds s x
    rw [hlow_ne x hne]
    exact hf.strict_low x hx hgt hne
  · intro u hu hgt hne v hv hvs hvle
    have hvne : v ≠ x0 := by
      intro he
      rw [he] at hvle
      have hvle2 : tIds s x0 ≤ (st.id : Int) := hvle
      rw [hf.ids_x0] at hvle2
      omega
    show tLow (minUpd x0 nb s) u ≤ tLow (minUpd x0 nb s) v
    rw [hlow_ne u hne, hlow_ne v hvne]
    exact hf.edges_low u hu hgt hne v hv hvs hvle
  · intro x hx hgt
    by_cases hxx : x = x0
    · subst hxx
      exact le_refl _
    · show tLow (minUpd x0 nb s) x0 ≤ tLow (minUpd x0 nb s) x
      rw [hlow_ne x hxx]
      exact le_trans hmin_le (hf.seg_low x hx hgt)
  · exact le_trans hmin_le hf.low_x0_le

/-- After a recursive dfs call that popped its component (stack restored),
the loop invariant transfers to the returned state. -/
theorem tFold_rebase {succs : Nat → List Nat} {n : Nat} {anc : List Nat}
    {x0 : Nat} {st s s1 : TarjanSt} {nb : Nat}
    (hf : TFold succs n anc x0 st s) (hnb : nb ∈ succs x0)
    (hpost : TPost succs n (anc ++ [x0]) nb s s1)
    (hstk : s1.stack = s.stack) : TFold succs n anc x0 st s1 := by
  obtain ⟨seg, hseg, hsegp⟩ := hf.stack_tail
  have hmono_s : ∀ x, x < n → tV st x → tV s x := tFold_vis_mono hf
  have hvx0s : tV s x0 := hf.inv.stack_vis _ hf.x0_stack
  have hx0n : x0 < n := hf.inv.stack_lt _ hf.x0_stack
  have hids1_x0 : tIds s1 x0 = (st.id : Int) + 1 := by
    rw [hpost.ids_old x0 hx0n hvx0s]
    exact hf.ids_x0
  have hids_stack : ∀ x ∈ s.stack, tIds s1 x = tIds s x := fun x hx =>
    hpost.ids_old x (hf.inv.stack_lt x hx) (hf.inv.stack_vis x hx)
  have hlow_stack : ∀ x ∈ s.stack, tLow s1 x = tLow s x := fun x hx =>
    hpost.low_old x (hf.inv.stack_lt x hx) (hf.inv.stack_vis x hx)
  have hidold : ∀ x, x < n → tV st x → tIds s1 x = tIds st x := fun x hxn hv =>
    (hpost.ids_old x hxn (hmono_s x hxn hv)).trans (hf.ids_old x hxn hv)
  have hlowold : ∀ x, x < n → tV st x → tLow s1 x = tLow st x := fun x hxn hv =>
    (hpost.low_old x hxn (hmono_s x hxn hv)).trans (hf.low_old x hxn hv)
  refine ⟨hpost.inv, ?_, hids1_x0, lt_trans hf.id_lt hpost.id_lt, hidold,
    hlowold, ?_, ?_, ?_, ?_, ?_, ?_, ?_, ?_, lt_trans hpost.unvis_lt hf.unvis_lt⟩
  · rw [hstk]
    exact hf.x0_stack
  · intro x hxn hv
    rcases hpost.vis_new x hxn hv with hvs | hr
    · exact hf.vis_new x hxn hvs
    · exact Or.inr (Relation.ReflTransGen.head hnb hr)
  · refine ⟨seg, by rw [hstk, hseg], ?_⟩
    intro x hx
    have hxs : x ∈ s.stack := by rw [hseg]; exact List.mem_append_left _ hx
    refine ⟨(hsegp x hx).1, ?_⟩
    rw [hids_stack x hxs]
    exact (hsegp x hx).2
  · intro u hun hvu hancu hne v hv
    refine hpost.a1 u hun hvu ?_ v hv
    intro hm
    rcases List.mem_append.mp hm with h1 | h2
    · exact hancu h1
    · exact hne (by simpa using h2)
  · intro x hx hgt hne
    rw [hstk] at hx
    rw [hids_stack x hx] at hgt ⊢
    rw [hlow_stack x hx]
    exact hf.strict_low x hx hgt hne
  · intro u hu hgt hne v hv hvs hvle
    rw [hstk] at hu hvs
    rw [hids_stack u hu] at hgt
    rw [hids_stack v hvs] at hvle
    rw [hlow_stack u hu, hlow_stack v hvs]
    exact hf.edges_low u hu hgt hne v hv hvs hvle
  · intro x hx hgt
    rw [hstk] at hx
    rw [hids_stack x hx] at hgt
    rw [hlow_stack x0 hf.x0_stack, hlow_stack x hx]
    exact hf.seg_low x hx hgt
  · intro x hx hgt
    rw [hstk] at hx
    rw [hids_stack x hx] at hgt
    exact hf.seg_reach x hx hgt
  · rw [hlow_stack x0 hf.x0_stack]
    exact hf.low_x0_le

/-- After a recursive dfs call whose root stayed on the stack, the min
update re-establishes the loop invariant. -/
theorem tFold_rebase_min {succs : Nat → List Nat} {n : Nat} {anc : List Nat}
    {x0 : Nat} {st s s1 : TarjanSt} {nb : Nat}
    (hsucc : ∀ a b, b ∈ succs a → b < n)
    (hpre : TPre succs n anc x0 st)
    (hf : TFold succs n anc x0 st s) (hnb : nb ∈ succs x0)
    (hpost : TPost succs n (anc ++ [x0]) nb s s1)
    (hnbs1 : nb ∈ s1.stack) : TFold succs n anc x0 st (minUpd x0 nb s1) := by
  obtain ⟨seg, hseg, hsegp⟩ := hf.stack_tail
  obtain ⟨seg2, hseg2, hseg2p⟩ := hpost.stack_tail
  have hmono_s : ∀ x, x < n → tV st x → tV s x := tFold_vis_mono hf
  have hvx0s : tV s x0 := hf.inv.stack_vis _ hf.x0_stack
  have hx0n : x0 < n := hf.inv.stack_lt _ hf.x0_stack
  have hids1_x0 : tIds s1 x0 = (st.id : Int) + 1 := by
    rw [hpost.ids_old x0 hx0n hvx0s]
    exact hf.ids_x0
  have hids_stack : ∀ x ∈ s.stack, tIds s1 x = tIds s x := fun x hx =>
    hpost.ids_old x (hf.inv.stack_lt x hx) (hf.inv.stack_vis x hx)
  have hlow_stack : ∀ x ∈ s.stack, tLow s1 x = tLow s x := fun x hx =>
    hpost.low_old x (hf.inv.stack_lt x hx) (hf.inv.stack_vis x hx)
  have hidold : ∀ x, x < n → tV st x → tIds s1 x = tIds st x := fun x hxn hv =>
    (hpost.ids_old x hxn (hmono_s x hxn hv)).trans (hf.ids_old x hxn hv)
  have hlowold : ∀ x, x < n → tV st x → tLow s1 x = tLow st x := fun x hxn hv =>
    (hpost.low_old x hxn (hmono_s x hxn hv)).trans (hf.low_old x hxn hv)
  have hx0s1 : x0 ∈ s1.stack := by
    rw [hseg2]
    exact List.mem_append_right _ hf.x0_stack
  have hinv2 : TInv succs n (minUpd x0 nb s1) :=
    tInv_minUpd hpost.inv hx0n hx0s1 hnbs1 hnb
  have hlen_low1 : x0 < s1.low.length := by rw [hpost.inv.len_low]; exact hx0n
  have hlow2_self : tLow (minUpd x0 nb s1) x0 = min (tLow s1 x0) (tLow s1 nb) :=
    getD_set_self hlen_low1 _ _
  have hlow2_ne : ∀ x, x ≠ x0 → tLow (minUpd x0 nb s1) x = tLow s1 x :=
    fun x hx => getD_set_ne (fun h => hx h.symm) _ _
  have hlow1_x0 : tLow s1 x0 = tLow s x0 := hlow_stack x0 hf.x0_stack
  have hmin_le : tLow (minUpd x0 nb s1) x0 ≤ tLow s x0 := by
    rw [hlow2_self, hlow1_x0]
    exact min_le_left _ _
  have hcases : ∀ x ∈ s1.stack, x ∈ seg2 ∨ x ∈ s.stack := by
    intro x hx
    rw [hseg2] at hx
    exact List.mem_append.mp hx
  have hKnb : Reach succs nb x0 := by
    have hnb_gt : (s.id : Int) < tIds s1 nb := by
      rw [hpost.ids_x0]
      omega
    have hstrict := hpost.strict_low nb hnbs1 hnb_gt
    obtain ⟨y, hym, hy1, hy2, hyr⟩ := hpost.inv.stack_low nb hnbs1
    have hynotseg2 : y ∈ s.stack := by
      rcases hcases y hym with h2 | h2
      · exfalso
        have h3 : (s.id : Int) < tIds s1 y := (hseg2p y h2).2
        rw [hpost.ids_x0] at hstrict
        rw [hy1] at h3
        omega
      · exact h2
    have hyx0 : Reach succs y x0 := by
      by_cases hgt : (st.id : Int) < tIds s y
      · exact hf.seg_reach y hynotseg2 hgt
      · have hysplit : y ∈ seg ∨ y ∈ st.stack := by
          rw [hseg] at hynotseg2
          exact List.mem_append.mp hynotseg2
        rcases hysplit with h3 | h3
        · exact absurd ((hsegp y h3).2) hgt
        · exact hpre.stack_reach_x0 y h3
    exact hyr.trans hyx0
  refine ⟨hinv2, hx0s1, hids1_x0, lt_trans hf.id_lt hpost.id_lt, hidold,
    ?_, ?_, ?_, ?_, ?_, ?_, ?_, ?_, ?_, lt_trans hpost.unvis_lt hf.unvis_lt⟩
  · intro x hxn hv
    have hxne : x ≠ x0 := fun he => hpre.x0_unvis (he ▸ hv)
    rw [hlow2_ne x hxne]
    exact hlowold x hxn hv
  · intro x hxn hv
    rcases hpost.vis_new x hxn hv with hvs | hr
    · exact hf.vis_new x hxn hvs
    · exact Or.inr (Relation.ReflTransGen.head hnb hr)
  · refine ⟨seg2 ++ seg, ?_, ?_⟩
    · show s1.stack = (seg2 ++ seg) ++ st.stack
      rw [hseg2, hseg, List.append_assoc]
    · intro x hx
      rcases List.mem_append.mp hx with h2 | h2
      · have hxn : x < n := hpost.inv.stack_lt x
          (by rw [hseg2]; exact List.mem_append_left _ h2)
        have h3 : (s.id : Int) < tIds s1 x := (hseg2p x h2).2
        have h4 : st.id < s.id := hf.id_lt
        refine ⟨fun hv => (hseg2p x h2).1 (hmono_s x hxn hv), ?_⟩
        show (st.id : Int) < tIds s1 x
        omega
      · have hxs : x ∈ s.stack := by rw [hseg]; exact List.mem_append_left _ h2
        refine ⟨(hsegp x h2).1, ?_⟩
        show (st.id : Int) < tIds s1 x
        rw [hids_stack x hxs]
        exact (hsegp x h2).2
  · intro u hun hvu hancu hne v hv
    refine hpost.a1 u hun hvu ?_ v hv
    intro hm
    rcases List.mem_append.mp hm with h1 | h2
    · exact hancu h1
    · exact hne (by simpa using h2)
  · intro x hx hgt hne
    have hx1 : x ∈ s1.stack := hx
    have hgt1 : (st.id : Int) < tIds s1 x := hgt
    show ((tLow (minUpd x0 nb s1) x : Nat) : Int) < tIds s1 x
    rw [hlow2_ne x hne]
    rcases hcases x hx1 with h2 | h2
    · exact hpost.strict_low x hx1 ((hseg2p x h2).2)
    · have hgt2 : (st.id : Int) < tIds s x := by
        rw [← hids_stack x h2]
        exact hgt1
      rw [hlow_stack x h2, hids_stack x h2]
      exact hf.strict_low x h2 hgt2 hne
  · intro u hu hgt hne v hv hvs hvle
    have hu1 : u ∈ s1.stack := hu
    have hvs1 : v ∈ s1.stack := hvs
    have hgt1 : (st.id : Int) < tIds s1 u := hgt
    have hvle1 : tIds s1 v ≤ (st.id : Int) := hvle
    have hvne : v ≠ x0 := by
      intro he
      rw [he] at hvle1
      rw [hids1_x0] at hvle1
      omega
    show tLow (minUpd x0 nb s1) u ≤ tLow (minUpd x0 nb s1) v
    rw [hlow2_ne u hne, hlow2_ne v hvne]
    have hstid : st.id < s.id := hf.id_lt
    rcases hcases u hu1 with h2 | h2
    · have hvle2 : tIds s1 v ≤ (s.id : Int) := by omega
      exact hpost.edges_low u hu1 ((hseg2p u h2).2) v hv hvs1 hvle2
    · have hvss : v ∈ s.stack := by
        rcases hcases v hvs1 with h3 | h3
        · exfalso
          have := (hseg2p v h3).2
          omega
        · exact h3
      rw [hlow_stack u h2, hlow_stack v hvss]
      have hgt2 : (st.id : Int) < tIds s u := by
        rw [← hids_stack u h2]
        exact hgt1
      have hvle3 : tIds s v ≤ (st.id : Int) := by
        rw [← hids_stack v hvss]
        exact hvle1
      exact hf.edges_low u h2 hgt2 hne v hv hvss hvle3
  · intro x hx hgt
    have hx1 : x ∈ s1.stack := hx
    have hgt1 : (st.id : Int) < tIds s1 x := hgt
    by_cases hxx : x = x0
    · subst hxx
      exact le_refl _
    · show tLow (minUpd x0 nb s1) x0 ≤ tLow (minUpd x0 nb s1) x
      rw [hlow2_ne x hxx]
      rcases hcases x hx1 with h2 | h2
      · have h3 := hpost.seg_low hnbs1 x hx1 ((hseg2p x h2).2)
        rw [hlow2_self]
        exact le_trans (min_le_right _ _) h3
      · have hgt2 : (st.id : Int) < tIds s x := by
          rw [← hids_stack x h2]
          exact hgt1
        rw [hlow_stack x h2]
        exact le_trans hmin_le (hf.seg_low x h2 hgt2)
  · intro x hx hgt
    have hx1 : x ∈ s1.stack := hx
    have hgt1 : (st.id : Int) < tIds s1 x := hgt
    rcases hcases x hx1 with h2 | h2
    · exact (hpost.seg_reach x hx1 ((hseg2p x h2).2)).trans hKnb
    · have hgt2 : (st.id : Int) < tIds s x := by
        rw [← hids_stack x h2]
        exact hgt1
      exact hf.seg_reach x h2 hgt2
  · exact le_trans hmin_le hf.low_x0_le

/-- One neighbor-loop iteration preserves the loop invariant; the processed
neighbor comes out visited, and min-linked when it sat on the entry stack. -/
theorem tFold_step {succs : Nat → List Nat} {n : Nat} {anc : List Nat}
    {x0 : Nat} {st : TarjanSt} {fuel : Nat}
    (hsucc : ∀ a b, b ∈ succs a → b < n)
    (ih : ∀ x1 st1 anc1, TPre succs n anc1 x1 st1 → unvis n st1 ≤ fuel →
      TPost succs n anc1 x1 st1 (tarjanDFS succs fuel x1 st1))
    (hpre : TPre succs n anc x0 st) (hfuel : unvis n st ≤ fuel + 1)
    {s : TarjanSt} (hf : TFold succs n anc x0 st s) {nb : Nat}
    (hnb : nb ∈ succs x0) :
    TFold succs n anc x0 st (tarjanStep succs fuel x0 s nb) ∧
      (∀ x, x < n → tV s x → tV (tarjanStep succs fuel x0 s nb) x) ∧
      tLow (tarjanStep succs fuel x0 s nb) x0 ≤ tLow s x0 ∧
      tV (tarjanStep succs fuel x0 s nb) nb ∧
      (nb ∈ st.stack →
        tLow (tarjanStep succs fuel x0 s nb) x0 ≤
          tLow (tarjanStep succs fuel x0 s nb) nb) := by
  have hnbn : nb < n := hsucc _ _ hnb
  have hx0n : x0 < n := hf.inv.stack_lt _ hf.x0_stack
  have hvx0s : tV s x0 := hf.inv.stack_vis _ hf.x0_stack
  have hlen_low : x0 < s.low.length := by rw [hf.inv.len_low]; exact hx0n
  by_cases hvnb : tV s nb
  · rw [tarjanStep_vis hvnb]
    by_cases hflag : s.onStack.getD nb false = true
    · rw [if_pos hflag]
      have hnbs : nb ∈ s.stack := (hf.inv.onS_iff nb hnbn).mp hflag
      have hlow_self : tLow (minUpd x0 nb s) x0 = min (tLow s x0) (tLow s nb) :=
        getD_set_self hlen_low _ _
      refine ⟨tFold_minUpd hf hnb hnbs hpre.x0_unvis hx0n, fun x _ h => h,
        ?_, hvnb, ?_⟩
      · rw [hlow_self]
        exact min_le_left _ _
      · intro hnbst
        have hnbne : nb ≠ x0 := fun he =>
          hpre.x0_unvis (he ▸ hpre.inv.stack_vis _ hnbst)
        have hlow_ne : tLow (minUpd x0 nb s) nb = tLow s nb :=
          getD_set_ne (fun he => hnbne he.symm) _ _
        rw [hlow_self, hlow_ne]
        exact min_le_right _ _
    · rw [if_neg hflag]
      refine ⟨hf, fun x _ h => h, le_refl _, hvnb, ?_⟩
      intro hnbst
      exfalso
      obtain ⟨seg, hseg, _⟩ := hf.stack_tail
      have hnbs : nb ∈ s.stack := by
        rw [hseg]
        exact List.mem_append_right _ hnbst
      exact hflag ((hf.inv.onS_iff nb hnbn).mpr hnbs)
  · rw [tarjanStep_unvis hvnb]
    obtain ⟨seg, hseg, hsegp⟩ := hf.stack_tail
    have hpre1 : TPre succs n (anc ++ [x0]) nb s := by
      refine ⟨hf.inv, hnbn, hvnb, ?_, ?_, ?_⟩
      · intro u hu
        rcases List.mem_append.mp hu with h1 | h2
        · rw [hseg]
          exact List.mem_append_right _ (hpre.anc_stack u h1)
        · have he : u = x0 := by simpa using h2
          exact he ▸ hf.x0_stack
      · intro u hun hvu hnanc v hv
        refine hf.a1 u hun hvu ?_ ?_ v hv
        · exact fun h => hnanc (List.mem_append_left _ h)
        · exact fun h => hnanc (List.mem_append_right _ (by simp [h]))
      · intro t ht
        have htx0 : Reach succs t x0 := by
          rw [hseg] at ht
          rcases List.mem_append.mp ht with h1 | h2
          · exact hf.seg_reach t (by rw [hseg]; exact List.mem_append_left _ h1)
              ((hsegp t h1).2)
          · exact hpre.stack_reach_x0 t h2
        exact htx0.tail hnb
    have hfuel1 : unvis n s ≤ fuel := by
      have h1 := hf.unvis_lt
      omega
    have hpost := ih nb s (anc ++ [x0]) hpre1 hfuel1
    rcases hpost.pop_or_stay with ⟨hnot, hstk⟩ | hyes
    · have hflag2 : ¬ ((tarjanDFS succs fuel nb s).onStack.getD nb false = true) :=
        fun h => hnot ((hpost.inv.onS_iff nb hnbn).mp h)
      rw [if_neg hflag2]
      refine ⟨tFold_rebase hf hnb hpost hstk, tPost_vis_mono hpost,
        le_of_eq (hpost.low_old x0 hx0n hvx0s), hpost.vis_x0, ?_⟩
      intro hnbst
      exfalso
      exact hvnb (tFold_vis_mono hf nb hnbn (hpre.inv.stack_vis _ hnbst))
    · have hflag2 : (tarjanDFS succs fuel nb s).onStack.getD nb false = true :=
        (hpost.inv.onS_iff nb hnbn).mpr hyes
      rw [if_pos hflag2]
      have hlen_low1 : x0 < (tarjanDFS succs fuel nb s).low.length := by
        rw [hpost.inv.len_low]
        exact hx0n
      have h1 : tLow (minUpd x0 nb (tarjanDFS succs fuel nb s)) x0 =
          min (tLow (tarjanDFS succs fuel nb s) x0)
            (tLow (tarjanDFS succs fuel nb s) nb) := getD_set_self hlen_low1 _ _
      refine ⟨tFold_rebase_min hsucc hpre hf hnb hpost hyes,
        fun x hxn hv => tPost_vis_mono hpost x hxn hv, ?_, hpost.vis_x0, ?_⟩
      · rw [h1, hpost.low_old x0 hx0n hvx0s]
        exact min_le_left _ _
      · intro hnbst
        exfalso
        exact hvnb (tFold_vis_mono hf nb hnbn (hpre.inv.stack_vis _ hnbst))

/-- When the root check fails, the loop-exit state already satisfies the dfs
postcondition (the root stays on the stack). -/
theorem tPost_stay {succs : Nat → List Nat} {n : Nat} {anc : List Nat}
    {x0 : Nat} {st s2 : TarjanSt}
    (hpre : TPre succs n anc x0 st)
    (hF : TFold succs n anc x0 st s2)
    (hdone : ∀ v ∈ succs x0, tV s2 v ∧ (v ∈ st.stack → tLow s2 x0 ≤ tLow s2 v))
    (hroot_ne : tIds s2 x0 ≠ ((tLow s2 x0 : Nat) : Int)) :
    TPost succs n anc x0 st s2 := by
  obtain ⟨seg, hseg, hsegp⟩ := hF.stack_tail
  refine ⟨hF.inv, hF.id_lt, hF.ids_old, hF.low_old,
    hF.inv.stack_vis _ hF.x0_stack, hF.ids_x0, hF.vis_new,
    ⟨seg, hseg, hsegp⟩, ?_, ?_, ?_, ?_, hF.seg_reach,
    Or.inr hF.x0_stack, hF.unvis_lt⟩
  · intro u hun hvu hanc v hv
    by_cases hux : u = x0
    · subst hux
      exact (hdone v hv).1
    · exact hF.a1 u hun hvu hanc hux v hv
  · intro x hx hgt
    by_cases hxx : x = x0
    · subst hxx
      have h1 := hF.low_x0_le
      have h2 := hF.ids_x0
      rw [h2] at hroot_ne ⊢
      omega
    · exact hF.strict_low x hx hgt hxx
  · intro u hu hgt v hv hvs hvle
    by_cases hux : u = x0
    · subst hux
      have hvst : v ∈ st.stack := by
        rw [hseg] at hvs
        rcases List.mem_append.mp hvs with h1 | h2
        · exfalso
          have := (hsegp v h1).2
          omega
        · exact h2
      exact (hdone v hv).2 hvst
    · exact hF.edges_low u hu hgt hux v hv hvs hvle
  · intro _ x hx hgt
    exact hF.seg_low x hx hgt

/-- When the root check succeeds, popping the stack down to the root yields
the dfs postcondition: the popped segment is exactly the root's strongly
connected component, which becomes completed with the root's discovery index
as its common low-link. -/
theorem tPost_pop {succs : Nat → List Nat} {n : Nat} {anc : List Nat}
    {x0 : Nat} {st s2 : TarjanSt}
    (hsucc : ∀ a b, b ∈ succs a → b < n)
    (hpre : TPre succs n anc x0 st)
    (hF : TFold succs n anc x0 st s2)
    (hdone : ∀ v ∈ succs x0, tV s2 v ∧ (v ∈ st.stack → tLow s2 x0 ≤ tLow s2 v))
    (hroot : tIds s2 x0 = ((tLow s2 x0 : Nat) : Int)) :
    TPost succs n anc x0 st (popAll x0 s2) := by
  obtain ⟨seg, hseg, hsegp⟩ := hF.stack_tail
  have hx0n : x0 < n := hF.inv.stack_lt _ hF.x0_stack
  have hvx0 : tV s2 x0 := hF.inv.stack_vis _ hF.x0_stack
  have hx0nst : x0 ∉ st.stack := fun h => hpre.x0_unvis (hpre.inv.stack_vis _ h)
  have hlowv : tLow s2 x0 = st.id + 1 := by
    have h2 := hF.ids_x0
    rw [hroot] at h2
    exact_mod_cast h2
  have hx0seg : x0 ∈ seg := by
    have h1 := hF.x0_stack
    rw [hseg] at h1
    rcases List.mem_append.mp h1 with h2 | h2
    · exact h2
    · exact absurd h2 hx0nst
  have hsegmem : ∀ p ∈ seg, p ∈ s2.stack := fun p hp => by
    rw [hseg]
    exact List.mem_append_left _ hp
  have hseglt : ∀ p ∈ seg, p < n := fun p hp => hF.inv.stack_lt p (hsegmem p hp)
  have hsegvis : ∀ p ∈ seg, tV s2 p := fun p hp =>
    hF.inv.stack_vis p (hsegmem p hp)
  have hdisj : ∀ p ∈ seg, p ∉ st.stack := by
    have hnd := hF.inv.stack_nodup
    rw [hseg] at hnd
    intro p hp hpst
    exact (List.disjoint_of_nodup_append hnd) hp hpst
  have holdstack_ids : ∀ v ∈ st.stack, tIds s2 v ≤ (st.id : Int) := by
    intro v hv
    have hvn : v < n := hpre.inv.stack_lt v hv
    have hvvis : tV st v := hpre.inv.stack_vis v hv
    rw [hF.ids_old v hvn hvvis]
    exact stack_ids_le hpre.inv v hv
  -- the root x0 closes the new segment (it has the smallest new id)
  obtain ⟨l1, l2, hsegeq⟩ := List.append_of_mem hx0seg
  have hl2nil : l2 = [] := by
    rcases l2 with _ | ⟨y, l2t⟩
    · rfl
    · exfalso
      have hpw := tStack_pairwise hF.inv
      rw [hseg, hsegeq] at hpw
      have hyseg : y ∈ seg := by
        rw [hsegeq]
        exact List.mem_append_right _ (by simp)
      have hygt := (hsegp y hyseg).2
      simp only [List.cons_append, List.append_assoc] at hpw
      have h2 := (List.pairwise_append.mp hpw).2.1
      have h3 := (List.pairwise_cons.mp h2).1 y (by simp)
      rw [hF.ids_x0] at h3
      omega
  have hsegeq2 : seg = l1 ++ [x0] := by rw [hsegeq, hl2nil]
  have hx0notl1 : x0 ∉ l1 := by
    have hnd := hF.inv.stack_nodup
    rw [hseg, hsegeq2, List.append_assoc] at hnd
    intro h
    exact (List.disjoint_of_nodup_append hnd) h (by simp)
  have hstk2 : s2.stack = l1 ++ x0 :: st.stack := by
    rw [hseg, hsegeq2, List.append_assoc]
    rfl
  have hrootid : (s2.ids.getD x0 0).toNat = st.id + 1 := by
    have h2 : tIds s2 x0 = (st.id : Int) + 1 := hF.ids_x0
    have h3 : (tIds s2 x0).toNat = st.id + 1 := by
      rw [h2]
      omega
    exact h3
  have hpopeq : popAll x0 s2 =
      ⟨s2.id, s2.ids, popLows (l1 ++ [x0]) (s2.ids.getD x0 0).toNat s2.low,
        popFlags (l1 ++ [x0]) s2.onStack, st.stack⟩ := by
    unfold popAll
    rw [hstk2, popSccAux_eq x0 _ l1 st.stack _ _ hx0notl1]
  -- semantic facts about the segment
  have hF1 : ∀ p ∈ seg, Reach succs p x0 := fun p hp =>
    hF.seg_reach p (hsegmem p hp) ((hsegp p hp).2)
  have hF2 : ∀ p ∈ seg, Reach succs x0 p := by
    intro p hp
    by_cases hpx : p = x0
    · exact hpx ▸ Relation.ReflTransGen.refl
    · have h1 := (hsegp p hp).2
      have h2 := hF.ids_x0
      have hle : tIds s2 x0 ≤ tIds s2 p := by omega
      rcases lt_or_eq_of_le hle with h | h
      · exact hF.inv.stack_reach x0 hF.x0_stack p (hsegmem p hp) h
      · exact absurd (hF.inv.ids_inj p x0 (hseglt p hp) hx0n (hsegvis p hp)
          hvx0 h.symm) hpx
  have hF7 : ∀ p ∈ seg, SameSCC succs x0 p := fun p hp => ⟨hF2 p hp, hF1 p hp⟩
  have hF3 : ∀ p ∈ seg, ∀ v ∈ succs p, tV s2 v := by
    intro p hp v hv
    by_cases hpx : p = x0
    · subst hpx
      exact (hdone v hv).1
    · have hpanc : p ∉ anc := fun h => hdisj p hp (hpre.anc_stack p h)
      exact hF.a1 p (hseglt p hp) (hsegvis p hp) hpanc hpx v hv
  have hF4 : ∀ p ∈ seg, ∀ v ∈ succs p, v ∉ st.stack := by
    intro p hp v hv hvst
    have hvs2 : v ∈ s2.stack := by
      rw [hseg]
      exact List.mem_append_right _ hvst
    have hvle : tIds s2 v ≤ (st.id : Int) := holdstack_ids v hvst
    have hlowvle : tLow s2 v ≤ st.id := by
      obtain ⟨y, hym, hy1, hy2, _⟩ := hF.inv.stack_low v hvs2
      have h5 : ((tLow s2 v : Nat) : Int) ≤ (st.id : Int) := by
        rw [← hy1]
        exact le_trans hy2 hvle
      exact_mod_cast h5
    have hge : tLow s2 x0 ≤ tLow s2 v := by
      by_cases hpx : p = x0
      · subst hpx
        exact (hdone v hv).2 hvst
      · have h1 := hF.edges_low p (hsegmem p hp) ((hsegp p hp).2) hpx v hv
          hvs2 hvle
        exact le_trans (hF.seg_low p (hsegmem p hp) ((hsegp p hp).2)) h1
    rw [hlowv] at hge
    omega
  have hF6 : ∀ z, z < n → SameSCC succs z x0 → z ∈ seg := by
    intro z hzn hz
    by_contra hzout
    obtain ⟨u, v, hu, hv, huv, hxu, hvz⟩ :=
      reach_exit (fun w => w ∈ seg) hz.2 hx0seg hzout
    have hvvis : tV s2 v := hF3 u hu v huv
    by_cases hvstack : v ∈ s2.stack
    · have hvst : v ∈ st.stack := by
        rw [hseg] at hvstack
        rcases List.mem_append.mp hvstack with h1 | h2
        · exact absurd h1 hv
        · exact h2
      exact hF4 u hu v huv hvst
    · have hvn : v < n := hsucc u v huv
      have hcv : tComplete s2 v := ⟨hvvis, hvstack⟩
      have hcz := (tComplete_closed hF.inv hsucc hvn hcv hvz).1
      have hcx0 := (tComplete_closed hF.inv hsucc hzn hcz hz.1).1
      exact hcx0.2 hF.x0_stack
  -- the postcondition for any state with the popped values
  have hmain : ∀ U : TarjanSt, U.id = s2.id → U.ids = s2.ids →
      U.stack = st.stack →
      (∀ x, x < n → x ∈ seg → tLow U x = st.id + 1) →
      (∀ x, x ∉ seg → tLow U x = tLow s2 x) →
      U.low.length = n → U.onStack.length = n →
      (∀ x, x < n → x ∈ seg → U.onStack.getD x false = false) →
      (∀ x, x ∉ seg → U.onStack.getD x false = s2.onStack.getD x false) →
      TPost succs n anc x0 st U := by
    intro U hUid hUids hUstack hUlowm hUlown hUlowlen hUonSlen hUonSm hUonSn
    have hUids2 : ∀ x, tIds U x = tIds s2 x := by
      intro x
      unfold tIds
      rw [hUids]
    have hUvis : ∀ x, tV s2 x ↔ tV U x := fun x => tV_congr (hUids2 x)
    have hcompU : ∀ x, tComplete U x ↔ (tV s2 x ∧ x ∉ st.stack) := by
      intro x
      constructor
      · rintro ⟨h1, h2⟩
        exact ⟨(hUvis x).mpr h1, fun hm => h2 (by rw [hUstack]; exact hm)⟩
      · rintro ⟨h1, h2⟩
        refine ⟨(hUvis x).mp h1, fun hm => ?_⟩
        rw [hUstack] at hm
        exact h2 hm
    have hinvU : TInv succs n U := by
      refine ⟨?_, hUlowlen, hUonSlen, ?_, ?_, ?_, ?_, ?_, ?_, ?_, ?_, ?_, ?_, ?_⟩
      · rw [hUids]
        exact hF.inv.len_ids
      · intro x hx
        rw [hUstack] at hx
        exact hpre.inv.stack_lt x hx
      · intro x hx
        rw [hUstack] at hx
        refine (hUvis x).mp ?_
        refine hF.inv.stack_vis x ?_
        rw [hseg]
        exact List.mem_append_right _ hx
      · rw [hUstack]
        have hnd := hF.inv.stack_nodup
        rw [hseg] at hnd
        exact hnd.of_append_right
      · intro x hxn
        by_cases hxseg : x ∈ seg
        · rw [hUonSm x hxn hxseg, hUstack]
          exact iff_of_false (by simp) (hdisj x hxseg)
        · rw [hUonSn x hxseg, hUstack, hF.inv.onS_iff x hxn, hseg]
          constructor
          · intro h
            rcases List.mem_append.mp h with h1 | h2
            · exact absurd h1 hxseg
            · exact h2
          · intro h
            exact List.mem_append_right _ h
      · intro x hxn
        have h1 := hF.inv.vis_iff x hxn
        constructor
        · intro h
          rw [hUids2 x, hUid]
          exact h1.mp ((hUvis x).mpr h)
        · intro h
          rw [hUids2 x, hUid] at h
          exact (hUvis x).mp (h1.mpr h)
      · intro x y hxn hyn hvx hvy heq
        rw [hUids2 x, hUids2 y] at heq
        exact hF.inv.ids_inj x y hxn hyn ((hUvis x).mpr hvx)
          ((hUvis y).mpr hvy) heq
      · rw [hUstack]
        have hbase := hF.inv.stack_sorted
        rw [hseg] at hbase
        exact chain_lt_congr (fun x _ => hUids2 x)
          (List.chain'_append.mp hbase).2.1
      · intro x hx y hy hlt
        rw [hUstack] at hx hy
        rw [hUids2 x, hUids2 y] at hlt
        refine hF.inv.stack_reach x ?_ y ?_ hlt
        · rw [hseg]
          exact List.mem_append_right _ hx
        · rw [hseg]
          exact List.mem_append_right _ hy
      · intro x hx
        rw [hUstack] at hx
        have hxs2 : x ∈ s2.stack := by
          rw [hseg]
          exact List.mem_append_right _ hx
        obtain ⟨y, hym, hy1, hy2, hyr⟩ := hF.inv.stack_low x hxs2
        have hxnotseg : x ∉ seg := fun h => hdisj x h hx
        have hyst : y ∈ st.stack := by
          rw [hseg] at hym
          rcases List.mem_append.mp hym with h1 | h2
          · exfalso
            have h3 := (hsegp y h1).2
            have h4 := holdstack_ids x hx
            omega
          · exact h2
        refine ⟨y, by rw [hUstack]; exact hyst, ?_, ?_, hyr⟩
        · rw [hUids2 y, hUlown x hxnotseg]
          exact hy1
        · rw [hUids2 y, hUids2 x]
          exact hy2
      · intro x hxn hcx y hy
        have hx2 := (hcompU x).mp hcx
        by_cases hxseg : x ∈ seg
        · exact (hcompU y).mpr ⟨hF3 x hxseg y hy, hF4 x hxseg y hy⟩
        · have hcs2 : tComplete s2 x := by
            refine ⟨hx2.1, fun hm => ?_⟩
            rw [hseg] at hm
            rcases List.mem_append.mp hm with h1 | h2
            · exact hxseg h1
            · exact hx2.2 h2
          have hcy := hF.inv.complete_succs x hxn hcs2 y hy
          refine (hcompU y).mpr ⟨hcy.1, fun hyst => hcy.2 ?_⟩
          rw [hseg]
          exact List.mem_append_right _ hyst
      · intro x hxn hcx
        have hx2 := (hcompU x).mp hcx
        by_cases hxseg : x ∈ seg
        · refine ⟨x0, hx0n, (hcompU x0).mpr ⟨hvx0, hx0nst⟩, hF7 x hxseg,
            ?_, ?_, ?_⟩
          · rw [hUids2 x0, hUlowm x hxn hxseg, hF.ids_x0]
            push_cast
            ring
          · intro z hzn hzx
            have hzx0 : SameSCC succs z x0 :=
              sameSCC_trans hzx (sameSCC_symm (hF7 x hxseg))
            have hzseg := hF6 z hzn hzx0
            refine ⟨(hcompU z).mpr ⟨hsegvis z hzseg, hdisj z hzseg⟩, ?_⟩
            rw [hUlowm z hzn hzseg, hUlowm x hxn hxseg]
          · intro z hzn hzx
            have hzx0 : SameSCC succs z x0 :=
              sameSCC_trans hzx (sameSCC_symm (hF7 x hxseg))
            have hzseg := hF6 z hzn hzx0
            rw [hUids2 x0, hUids2 z, hF.ids_x0]
            have h3 := (hsegp z hzseg).2
            omega
        · have hcs2 : tComplete s2 x := by
            refine ⟨hx2.1, fun hm => ?_⟩
            rw [hseg] at hm
            rcases List.mem_append.mp hm with h1 | h2
            · exact hxseg h1
            · exact hx2.2 h2
          obtain ⟨r, hrn, hcr, hscc, hidr, hall, hmin⟩ :=
            hF.inv.complete_scc x hxn hcs2
          have hrnotseg : r ∉ seg := fun h => hcr.2 (hsegmem r h)
          have hrnotst : r ∉ st.stack := fun h => hcr.2
            (by rw [hseg]; exact List.mem_append_right _ h)
          refine ⟨r, hrn, (hcompU r).mpr ⟨hcr.1, hrnotst⟩, hscc, ?_, ?_, ?_⟩
          · rw [hUids2 r, hUlown x hxseg]
            exact hidr
          · intro z hzn hzx
            obtain ⟨hcz, hlz⟩ := hall z hzn hzx
            have hznotseg : z ∉ seg := fun h => hcz.2 (hsegmem z h)
            have hznotst : z ∉ st.stack := fun h => hcz.2
              (by rw [hseg]; exact List.mem_append_right _ h)
            refine ⟨(hcompU z).mpr ⟨hcz.1, hznotst⟩, ?_⟩
            rw [hUlown z hznotseg, hUlown x hxseg]
            exact hlz
          · intro z hzn hzx
            rw [hUids2 r, hUids2 z]
            exact hmin z hzn hzx
    refine ⟨hinvU, ?_, ?_, ?_, ?_, ?_, ?_, ?_, ?_, ?_, ?_, ?_, ?_, ?_, ?_⟩
    · rw [hUid]
      exact hF.id_lt
    · intro x hxn hv
      rw [hUids2 x]
      exact hF.ids_old x hxn hv
    · intro x hxn hv
      have hxnotseg : x ∉ seg := fun h => (hsegp x h).1 hv
      rw [hUlown x hxnotseg]
      exact hF.low_old x hxn hv
    · exact (hUvis x0).mp hvx0
    · rw [hUids2 x0]
      exact hF.ids_x0
    · intro x hxn hv
      exact hF.vis_new x hxn ((hUvis x).mpr hv)
    · refine ⟨[], by rw [hUstack]; simp, ?_⟩
      intro x hx
      exact absurd hx (List.not_mem_nil x)
    · intro u hun hvu hanc2 v hv
      have hvu2 : tV s2 u := (hUvis u).mpr hvu
      by_cases hux : u = x0
      · subst hux
        exact (hUvis v).mp (hdone v hv).1
      · exact (hUvis v).mp (hF.a1 u hun hvu2 hanc2 hux v hv)
    · intro x hx hgt
      exfalso
      rw [hUstack] at hx
      rw [hUids2 x] at hgt
      have := holdstack_ids x hx
      omega
    · intro u hu hgt v hv hvs hvle
      exfalso
      rw [hUstack] at hu
      rw [hUids2 u] at hgt
      have := holdstack_ids u hu
      omega
    · intro h x hx hgt
      rw [hUstack] at h
      exact absurd h hx0nst
    · intro x hx hgt
      exfalso
      rw [hUstack] at hx
      rw [hUids2 x] at hgt
      have := holdstack_ids x hx
      omega
    · refine Or.inl ⟨?_, hUstack⟩
      rw [hUstack]
      exact hx0nst
    · have he : unvis n U = unvis n s2 := by
        unfold unvis
        rw [hUids]
      rw [he]
      exact hF.unvis_lt
  rw [hpopeq]
  have hlenlow : s2.low.length = n := hF.inv.len_low
  have hlenonS : s2.onStack.length = n := hF.inv.len_onS
  refine hmain _ rfl rfl rfl ?_ ?_ ?_ ?_ ?_ ?_
  · intro x hxn hxseg
    have hmem : x ∈ l1 ++ [x0] := by
      rw [← hsegeq2]
      exact hxseg
    show (popLows (l1 ++ [x0]) (s2.ids.getD x0 0).toNat s2.low).getD x 0 =
      st.id + 1
    rw [popLows_getD_mem hmem (by rw [hlenlow]; exact hxn), hrootid]
  · intro x hxseg
    have hmem : x ∉ l1 ++ [x0] := by
      rw [← hsegeq2]
      exact hxseg
    exact popLows_getD_notMem hmem 0
  · rw [popLows_length]
    exact hlenlow
  · rw [popFlags_length]
    exact hlenonS
  · intro x hxn hxseg
    have hmem : x ∈ l1 ++ [x0] := by
      rw [← hsegeq2]
      exact hxseg
    exact popFlags_getD_mem hmem (by rw [hlenonS]; exact hxn)
  · intro x hxseg
    have hmem : x ∉ l1 ++ [x0] := by
      rw [← hsegeq2]
      exact hxseg
    exact popFlags_getD_notMem hmem false

/-- Running the whole neighbor loop keeps the invariant, visits every listed
neighbor, only lowers the root low-link, and min-links every neighbor that
sat on the entry stack. -/
theorem tFold_run {succs : Nat → List Nat} {n : Nat} {anc : List Nat}
    {x0 : Nat} {st : TarjanSt} {fuel : Nat}
    (hsucc : ∀ a b, b ∈ succs a → b < n)
    (ih : ∀ x1 st1 anc1, TPre succs n anc1 x1 st1 → unvis n st1 ≤ fuel →
      TPost succs n anc1 x1 st1 (tarjanDFS succs fuel x1 st1))
    (hpre : TPre succs n anc x0 st) (hfuel : unvis n st ≤ fuel + 1) :
    ∀ (todo : List Nat), (∀ v ∈ todo, v ∈ succs x0) →
    ∀ s, TFold succs n anc x0 st s →
    TFold succs n anc x0 st (todo.foldl (tarjanStep succs fuel x0) s) ∧
      (∀ x, x < n → tV s x → tV (todo.foldl (tarjanStep succs fuel x0) s) x) ∧
      tLow (todo.foldl (tarjanStep succs fuel x0) s) x0 ≤ tLow s x0 ∧
      (∀ v ∈ todo, tV (todo.foldl (tarjanStep succs fuel x0) s) v ∧
        (v ∈ st.stack →
          tLow (todo.foldl (tarjanStep succs fuel x0) s) x0 ≤
            tLow (todo.foldl (tarjanStep succs fuel x0) s) v)) := by
  intro todo
  induction todo with
  | nil =>
    intro _ s hs
    exact ⟨hs, fun x _ h => h, le_refl _, fun v hv => absurd hv (List.not_mem_nil v)⟩
  | cons v vs ihl =>
    intro htodo s hs
    rw [List.foldl_cons]
    have hvmem : v ∈ succs x0 := htodo v (List.mem_cons_self _ _)
    have hstep := tFold_step hsucc ih hpre hfuel hs hvmem
    obtain ⟨hf1, hmono1, hlow1, hv1, hd1⟩ := hstep
    have hrest := ihl (fun u hu => htodo u (List.mem_cons_of_mem _ hu)) _ hf1
    obtain ⟨hfR, hmonoR, hlowR, hdR⟩ := hrest
    refine ⟨hfR, ?_, le_trans hlowR hlow1, ?_⟩
    · intro x hxn hv
      exact hmonoR x hxn (hmono1 x hxn hv)
    · intro u hu
      rcases List.mem_cons.mp hu with he | hm
      · subst he
        have hun : u < n := hsucc _ _ hvmem
        refine ⟨hmonoR u hun hv1, ?_⟩
        intro hust
        have hustv : tV st u := hpre.inv.stack_vis _ hust
        have e1 : tLow (vs.foldl (tarjanStep succs fuel x0)
            (tarjanStep succs fuel x0 s u)) u = tLow st u :=
          hfR.low_old u hun hustv
        have e2 : tLow (tarjanStep succs fuel x0 s u) u = tLow st u :=
          hf1.low_old u hun hustv
        calc tLow (vs.foldl (tarjanStep succs fuel x0)
              (tarjanStep succs fuel x0 s u)) x0
            ≤ tLow (tarjanStep succs fuel x0 s u) x0 := hlowR
          _ ≤ tLow (tarjanStep succs fuel x0 s u) u := hd1 hust
          _ = tLow st u := e2
          _ = tLow (vs.foldl (tarjanStep succs fuel x0)
              (tarjanStep succs fuel x0 s u)) u := e1.symm
      · exact hdR u hm

/-- The dfs call satisfies its postcondition, by induction on the fuel. -/
theorem tarjanDFS_spec (succs : Nat → List Nat) (n : Nat)
    (hsucc : ∀ a b, b ∈ succs a → b < n) :
    ∀ fuel x1 st1 anc1, TPre succs n anc1 x1 st1 → unvis n st1 ≤ fuel →
      TPost succs n anc1 x1 st1 (tarjanDFS succs fuel x1 st1) := by
  intro fuel
  induction fuel with
  | zero =>
    intro x1 st1 anc1 hpre hfuel
    exfalso
    have hmem : x1 ∈ (Finset.range n).filter
        (fun x => st1.ids.getD x 0 = -1) := by
      simp only [Finset.mem_filter, Finset.mem_range]
      exact ⟨hpre.x0_lt, not_not.mp hpre.x0_unvis⟩
    have hpos : 0 < unvis n st1 := Finset.card_pos.mpr ⟨x1, hmem⟩
    omega
  | succ fuel ih =>
    intro x1 st1 anc1 hpre hfuel
    rw [tarjanDFS_succ_eq]
    have hinit := tFold_init hpre
    have hrun := tFold_run hsucc ih hpre hfuel (succs x1) (fun v hv => hv)
      (pushSt x1 st1) hinit
    obtain ⟨hF2, _, _, hdone0⟩ := hrun
    set s2 := (succs x1).foldl (tarjanStep succs fuel x1) (pushSt x1 st1)
      with hs2def
    by_cases hroot : tIds s2 x1 = ((tLow s2 x1 : Nat) : Int)
    · have hcond : (tIds s2 x1 == ((tLow s2 x1 : Nat) : Int)) = true := by
        simp only [beq_iff_eq]
        exact hroot
      rw [if_pos hcond]
      exact tPost_pop hsucc hpre hF2 hdone0 hroot
    · have hcond : ¬ ((tIds s2 x1 == ((tLow s2 x1 : Nat) : Int)) = true) := by
        simp only [beq_iff_eq]
        exact hroot
      rw [if_neg hcond]
      exact tPost_stay hpre hF2 hdone0 hroot

theorem getD_replicate {α : Type} {n i : Nat} (h : i < n) (a d : α) :
    (List.replicate n a).getD i d = a := by
  rw [List.getD_eq_getElem _ _ (by rw [List.length_replicate]; exact h)]
  exact List.getElem_replicate _ _

/-- The fresh Tarjan state satisfies the running invariant with an empty
stack and no visited nodes. -/
theorem tInv_init (succs : Nat → List Nat) (n : Nat) :
    TInv succs n (tarjanInit n) := by
  have hids : ∀ x, x < n → tIds (tarjanInit n) x = -1 := by
    intro x hx
    exact getD_replicate hx _ _
  have hunvis : ∀ x, x < n → ¬ tV (tarjanInit n) x :=
    fun x hx hv => hv (hids x hx)
  have hstack : (tarjanInit n).stack = [] := rfl
  refine ⟨?_, ?_, ?_, ?_, ?_, ?_, ?_, ?_, ?_, ?_, ?_, ?_, ?_, ?_⟩
  · exact List.length_replicate n _
  · exact List.length_replicate n _
  · exact List.length_replicate n _
  · intro x hx
    rw [hstack] at hx
    exact absurd hx (List.not_mem_nil x)
  · intro x hx
    rw [hstack] at hx
    exact absurd hx (List.not_mem_nil x)
  · rw [hstack]
    exact List.nodup_nil
  · intro x hxn
    rw [hstack]
    refine iff_of_false ?_ (List.not_mem_nil x)
    show ¬ ((List.replicate n false).getD x false = true)
    rw [getD_replicate hxn]
    simp
  · intro x hxn
    refine iff_of_false (hunvis x hxn) ?_
    rw [hids x hxn]
    rintro ⟨h1, _⟩
    omega
  · intro x y hxn hyn hvx _ _
    exact absurd hvx (hunvis x hxn)
  · rw [hstack]
    exact List.chain'_nil
  · intro x hx
    rw [hstack] at hx
    exact absurd hx (List.not_mem_nil x)
  · intro x hx
    rw [hstack] at hx
    exact absurd hx (List.not_mem_nil x)
  · intro x hxn hcx
    exact absurd hcx.1 (hunvis x hxn)
  · intro x hxn hcx
    exact absurd hcx.1 (hunvis x hxn)

/-- The driver loop preserves the invariant with an empty stack between
calls, keeps visited nodes fully expanded, and visits every listed index. -/
theorem tarjanRun_fold (succs : Nat → List Nat) (n : Nat)
    (hsucc : ∀ a b, b ∈ succs a → b < n) :
    ∀ (l : List Nat), (∀ i ∈ l, i < n) → ∀ st, TInv succs n st →
    st.stack = [] →
    (∀ u, u < n → tV st u → ∀ v ∈ succs u, tV st v) →
    TInv succs n (l.foldl (fun st i =>
        if st.ids.getD i 0 == -1 then tarjanDFS succs (n + 1) i st else st) st) ∧
    (l.foldl (fun st i =>
        if st.ids.getD i 0 == -1 then tarjanDFS succs (n + 1) i st else st)
        st).stack = [] ∧
    (∀ u, u < n → tV (l.foldl (fun st i =>
        if st.ids.getD i 0 == -1 then tarjanDFS succs (n + 1) i st else st)
        st) u → ∀ v ∈ succs u, tV (l.foldl (fun st i =>
        if st.ids.getD i 0 == -1 then tarjanDFS succs (n + 1) i st else st)
        st) v) ∧
    (∀ i ∈ l, tV (l.foldl (fun st i =>
        if st.ids.getD i 0 == -1 then tarjanDFS succs (n + 1) i st else st)
        st) i) ∧
    (∀ x, x < n → tV st x → tV (l.foldl (fun st i =>
        if st.ids.getD i 0 == -1 then tarjanDFS succs (n + 1) i st else st)
        st) x) := by
  intro l
  induction l with
  | nil =>
    intro _ st hinv hnil ha1
    exact ⟨hinv, hnil, ha1, fun i hi => absurd hi (List.not_mem_nil i),
      fun x _ h => h⟩
  | cons i l ihl =>
    intro hlt st hinv hnil ha1
    rw [List.foldl_cons]
    have hin : i < n := hlt i (List.mem_cons_self _ _)
    by_cases hvis : tV st i
    · have hcond : ¬ ((st.ids.getD i 0 == -1) = true) := by
        simp only [beq_iff_eq]
        exact hvis
      rw [if_neg hcond]
      have hres := ihl (fun j hj => hlt j (List.mem_cons_of_mem _ hj)) st hinv
        hnil ha1
      obtain ⟨h1, h2, h3, h4, h5⟩ := hres
      refine ⟨h1, h2, h3, ?_, h5⟩
      intro j hj
      rcases List.mem_cons.mp hj with he | hm
      · exact he ▸ h5 i hin hvis
      · exact h4 j hm
    · have hcond : (st.ids.getD i 0 == -1) = true := by
        simp only [beq_iff_eq]
        exact not_not.mp hvis
      rw [if_pos hcond]
      have hpre : TPre succs n [] i st := by
        refine ⟨hinv, hin, hvis, ?_, ?_, ?_⟩
        · intro u hu
          exact absurd hu (List.not_mem_nil u)
        · intro u hun hv _ v hv2
          exact ha1 u hun hv v hv2
        · intro t ht
          rw [hnil] at ht
          exact absurd ht (List.not_mem_nil t)
      have hfuel : unvis n st ≤ n + 1 := le_trans (unvis_le n st) (by omega)
      have hpost := tarjanDFS_spec succs n hsucc (n + 1) i st [] hpre hfuel
      have hnil2 : (tarjanDFS succs (n + 1) i st).stack = [] := by
        rcases hpost.pop_or_stay with ⟨_, hstk⟩ | hyes
        · rw [hstk, hnil]
        · exfalso
          obtain ⟨seg, hseg, hsegp⟩ := hpost.stack_tail
          rw [hnil, List.append_nil] at hseg
          obtain ⟨y, hym, hy1, hy2, _⟩ := hpost.inv.stack_low i hyes
          have hstrict := hpost.strict_low i hyes
            (by rw [hpost.ids_x0]; omega)
          rw [hpost.ids_x0] at hstrict
          have hygt := (hsegp y (by rw [← hseg]; exact hym)).2
          rw [hy1] at hygt
          omega
      have ha1' : ∀ u, u < n → tV (tarjanDFS succs (n + 1) i st) u →
          ∀ v ∈ succs u, tV (tarjanDFS succs (n + 1) i st) v := by
        intro u hun hv v hv2
        exact hpost.a1 u hun hv (List.not_mem_nil u) v hv2
      have hres := ihl (fun j hj => hlt j (List.mem_cons_of_mem _ hj)) _
        hpost.inv hnil2 ha1'
      obtain ⟨h1, h2, h3, h4, h5⟩ := hres
      refine ⟨h1, h2, h3, ?_, ?_⟩
      · intro j hj
        rcases List.mem_cons.mp hj with he | hm
        · subst he
          exact h5 j hin hpost.vis_x0
        · exact h4 j hm
      · intro x hxn hv
        exact h5 x hxn (tPost_vis_mono hpost x hxn hv)

/-- After the full driver loop every node is visited, the stack is empty,
and the running invariant holds. -/
theorem tarjanRun_spec (succs : Nat → List Nat) (n : Nat)
    (hsucc : ∀ a b, b ∈ succs a → b < n) :
    TInv succs n (tarjanRun succs n) ∧ (tarjanRun succs n).stack = [] ∧
      ∀ i, i < n → tV (tarjanRun succs n) i := by
  have hinit1 : ∀ u, u < n → tV (tarjanInit n) u →
      ∀ v ∈ succs u, tV (tarjanInit n) v := by
    intro u hun hv
    exact absurd hv (fun h => h (getD_replicate hun (-1) 0))
  have hres := tarjanRun_fold succs n hsucc (List.range n)
    (fun i hi => List.mem_range.mp hi) (tarjanInit n) (tInv_init succs n)
    rfl hinit1
  exact ⟨hres.1, hres.2.1,
    fun i hi => hres.2.2.2.1 i (List.mem_range.mpr hi)⟩

/-- Full functional correctness of the embedded Tarjan sccs: two nodes get
equal labels exactly when they are mutually reachable, and every label is
the discovery index of its component's first-discovered node. -/
theorem tarjanSccs_spec (succs : Nat → List Nat) (n : Nat)
    (hsucc : ∀ a b, b ∈ succs a → b < n) :
    (∀ i j, i < n → j < n →
      ((tarjanSccs succs n).getD i 0 = (tarjanSccs succs n).getD j 0 ↔
        SameSCC succs i j)) ∧
    (∀ i, i < n → ∃ r, r < n ∧ SameSCC succs r i ∧
      tIds (tarjanRun succs n) r =
        (((tarjanSccs succs n).getD i 0 : Nat) : Int) ∧
      (∀ z, z < n → SameSCC succs z i →
        tIds (tarjanRun succs n) r ≤ tIds (tarjanRun succs n) z)) := by
  obtain ⟨hinv, hnil, hall⟩ := tarjanRun_spec succs n hsucc
  have hcomp : ∀ i, i < n → tComplete (tarjanRun succs n) i := by
    intro i hi
    refine ⟨hall i hi, ?_⟩
    rw [hnil]
    exact List.not_mem_nil i
  have hlabel : ∀ i, (tarjanSccs succs n).getD i 0 =
      tLow (tarjanRun succs n) i := fun i => rfl
  constructor
  · intro i j hi hj
    constructor
    · intro heq
      obtain ⟨ri, hrin, hcri, hscci, hidri, halli, hmini⟩ :=
        hinv.complete_scc i hi (hcomp i hi)
      obtain ⟨rj, hrjn, hcrj, hsccj, hidrj, hallj, hminj⟩ :=
        hinv.complete_scc j hj (hcomp j hj)
      have heq2 : tLow (tarjanRun succs n) i = tLow (tarjanRun succs n) j := by
        rw [← hlabel i, ← hlabel j]
        exact heq
      have hre : ri = rj := by
        refine hinv.ids_inj ri rj hrin hrjn hcri.1 hcrj.1 ?_
        rw [hidri, hidrj, heq2]
      have hsccj2 : SameSCC succs ri j := by
        rw [hre]
        exact hsccj
      exact sameSCC_trans (sameSCC_symm hscci) hsccj2
    · intro hscc
      obtain ⟨ri, hrin, hcri, hscci, hidri, halli, hmini⟩ :=
        hinv.complete_scc i hi (hcomp i hi)
      have h2 := (halli j hj (sameSCC_symm hscc)).2
      rw [hlabel i, hlabel j, h2]
  · intro i hi
    obtain ⟨r, hrn, hcr, hscc, hidr, hall2, hmin⟩ :=
      hinv.complete_scc i hi (hcomp i hi)
    refine ⟨r, hrn, hscc, ?_, ?_⟩
    · rw [hlabel i]
      exact hidr
    · intro z hzn hz
      exact hmin z hzn hz

/-- A one-node graph with no edges: its closure diagonal cell is true. -/
def c4g : MtxGraph Unit := (addNode (MtxGraph.empty Unit) ()).2

/-- C4 counterexample: on the one-node edgeless graph, bfs_compute_closure_mtx
marks cell (0,0) true although no directed path of one or more edges returns
to node 0 (the BFS seeds its visited set with the start node, so the diagonal
is always true). -/
theorem c4_counterexample :
    closureCell (bfs_compute_closure_mtx c4g) 0 0 = true ∧
      ¬ Relation.TransGen (EdgeRel c4g) 0 0 := by
  constructor
  · decide
  · intro h
    obtain ⟨b, _, hb⟩ := Relation.TransGen.tail'_iff.mp h
    rcases hb with ⟨hb1, _, he⟩
    have hn : c4g.n = 1 := rfl
    have hb0 : b = 0 := by omega
    subst hb0
    have hfe : hasEdge c4g 0 0 = false := by decide
    rw [hfe] at he
    exact absurd he (by simp)

/-- C4 (amended): in the matrix returned by bfs_compute_closure_mtx, cell
(i,j) is true iff i = j or there is a directed path of one or more edges from
i to j: the diagonal is unconditionally true because the BFS always yields
its start node, cycles or not. -/
theorem c4_closure_cell_iff {g : MtxGraph T} (hwf : MtxWf g) {i j : Nat}
    (hi : i < g.n) (hj : j < g.n) :
    closureCell (bfs_compute_closure_mtx g) i j = true ↔
      (i = j ∨ Relation.TransGen (EdgeRel g) i j) := by
  rw [closureCell_eq_mem hi]
  have hbfs := (bfsTraversalMtx_spec hwf hi).1 j
  constructor
  · rintro ⟨h1, _⟩
    have h2 := (reach_iff_edgeReach hwf i j).mp (hbfs.mp h1)
    rcases Relation.reflTransGen_iff_eq_or_transGen.mp h2 with h | h
    · exact Or.inl h.symm
    · exact Or.inr h
  · intro h
    refine ⟨hbfs.mpr ((reach_iff_edgeReach hwf i j).mpr ?_), hj⟩
    rcases h with rfl | h
    · exact Relation.ReflTransGen.refl
    · exact h.to_reflTransGen

/-- A two-node graph with the directed edge 0 -> 1, for the C4 witness. -/
def c4wg : MtxGraph Unit :=
  addEdgeDU (addNode (addNode (MtxGraph.empty Unit) ()).2 ()).2 0 1

theorem c4_witness :
    closureCell (bfs_compute_closure_mtx c4wg) 0 1 = true ↔
      (0 = 1 ∨ Relation.TransGen (EdgeRel c4wg) 0 1) :=
  c4_closure_cell_iff (by unfold MtxWf; decide) (by decide) (by decide)

/-- C1: the spec-modelled SCC-condensation transitive closure (purdoms)
produces, on every well-formed matrix graph, exactly the matrix of the
repeated-BFS transitive closure, cell for cell.  The modelled purdoms is a
total function, so it returns normally on every graph; the source's own
purdoms body is unimplemented, so stages 1-5 are modelled from the spec. -/
theorem c1_purdoms_matches_bfs_closure {g : MtxGraph T} (hwf : MtxWf g)
    {i j : Nat} (hi : i < g.n) (hj : j < g.n) :
    closureCell (purdoms g) i j = closureCell (bfs_compute_closure_mtx g) i j :=
  bool_eq_of_iff
    ((purdoms_cell_iff_reach hwf hi hj).trans (bfs_cell_iff_reach hwf hi hj).symm)

/-- Two-node graph with the directed edge 0 -> 1, for the C1 witness. -/
def c1wg : MtxGraph Unit :=
  addEdgeDU (addNode (addNode (MtxGraph.empty Unit) ()).2 ()).2 0 1

theorem c1_witness :
    closureCell (purdoms c1wg) 0 1 =
      closureCell (bfs_compute_closure_mtx c1wg) 0 1 :=
  c1_purdoms_matches_bfs_closure (by unfold MtxWf; decide) (by decide) (by decide)

/-- C9: over well-formed graphs with an in-range start, all three iterators
(matrix BFS, matrix DFS, list BFS) yield pairwise distinct node indices, at
most N of them, and afterwards the frontier is exhausted so that every
further next() call returns None. -/
theorem c9_traversals_finite {T V E : Type} (g : MtxGraph T)
    (gl : ListGraph V E) (start startl : Nat) (hwf : MtxWf g)
    (hs : start < g.n) (hlwf : ListWf gl) (hls : startl < gl.nodes.length) :
    ((bfsTraversalMtx g start).Nodup ∧ (bfsTraversalMtx g start).length ≤ g.n ∧
        travStep pushBack (mtxNbrs g) (bfsRunMtx g start).2 = none) ∧
      ((dfsTraversalMtx g start).Nodup ∧ (dfsTraversalMtx g start).length ≤ g.n ∧
        travStep pushFront (mtxNbrs g) (dfsRunMtx g start).2 = none) ∧
      ((bfsTraversalList gl startl).Nodup ∧
        (bfsTraversalList gl startl).length ≤ gl.nodes.length ∧
        travStep pushBack (listSuccs gl) (bfsRunList gl startl).2 = none) := by
  obtain ⟨_, hb1, hb2, hb3⟩ := bfsTraversalMtx_spec hwf hs
  obtain ⟨_, hd1, hd2, hd3⟩ := dfsTraversalMtx_spec hwf hs
  obtain ⟨_, hl1, hl2, hl3⟩ := bfsTraversalList_spec hlwf hls
  exact ⟨⟨hb1, hb2, (travStep_none_iff _ _ _).mpr hb3⟩,
    ⟨hd1, hd2, (travStep_none_iff _ _ _).mpr hd3⟩,
    ⟨hl1, hl2, (travStep_none_iff _ _ _).mpr hl3⟩⟩

/-- One-node matrix graph for the C9 witness. -/
def c9mg : MtxGraph Unit := (addNode (MtxGraph.empty Unit) ()).2

/-- One-node list graph for the C9 witness. -/
def c9lg : ListGraph Unit Nat := (lAddNode (ListGraph.new Unit Nat) ()).2

theorem c9_witness :
    ((bfsTraversalMtx c9mg 0).Nodup ∧ (bfsTraversalMtx c9mg 0).length ≤ c9mg.n ∧
        travStep pushBack (mtxNbrs c9mg) (bfsRunMtx c9mg 0).2 = none) ∧
      ((dfsTraversalMtx c9mg 0).Nodup ∧ (dfsTraversalMtx c9mg 0).length ≤ c9mg.n ∧
        travStep pushFront (mtxNbrs c9mg) (dfsRunMtx c9mg 0).2 = none) ∧
      ((bfsTraversalList c9lg 0).Nodup ∧
        (bfsTraversalList c9lg 0).length ≤ c9lg.nodes.length ∧
        travStep pushBack (listSuccs c9lg) (bfsRunList c9lg 0).2 = none) :=
  c9_traversals_finite c9mg c9lg 0 0 (by unfold MtxWf; decide) (by decide)
    (by intro nd hnd e he; simp [c9lg, lAddNode, ListGraph.new] at hnd; subst hnd; simp at he)
    (by decide)

/-- C10: the first element yielded by each of the three iterators is the
start index itself, even when it has no outgoing edges, so the traversed set
always contains the start node. -/
theorem c10_first_yield_is_start {T V E : Type} (g : MtxGraph T)
    (gl : ListGraph V E) (start startl : Nat) :
    (bfsTraversalMtx g start).head? = some start ∧
      (dfsTraversalMtx g start).head? = some start ∧
      (bfsTraversalList gl startl).head? = some startl ∧
      start ∈ bfsTraversalMtx g start ∧ start ∈ dfsTraversalMtx g start ∧
      startl ∈ bfsTraversalList gl startl := by
  have h1 : (bfsTraversalMtx g start).head? = some start :=
    travRun_head pushBack (mtxNbrs g) start (2 * g.n + 2) (by omega)
  have h2 : (dfsTraversalMtx g start).head? = some start :=
    travRun_head pushFront (mtxNbrs g) start (2 * g.n + 2) (by omega)
  have h3 : (bfsTraversalList gl startl).head? = some startl :=
    travRun_head pushBack (listSuccs gl) startl (2 * gl.nodes.length + 2) (by omega)
  exact ⟨h1, h2, h3, head?_mem h1, head?_mem h2, head?_mem h3⟩

/-- The C8 scenario as a list graph, built like the tarjan.rs test: five
nodes a..e = 0..4, then add_edge(b,a), (a,c), (c,b), (a,d), (d,e). -/
def c8lg : ListGraph Unit Nat :=
  lAddEdgeD (lAddEdgeD (lAddEdgeD (lAddEdgeD (lAddEdgeD
    (lAddNode (lAddNode (lAddNode (lAddNode (lAddNode
      (ListGraph.new Unit Nat) ()).2 ()).2 ()).2 ()).2 ()).2
    1 0 1) 0 2 1) 2 1 1) 0 3 1) 3 4 1

/-- The same scenario as a matrix graph, built like the purdoms.rs test. -/
def c8mg : MtxGraph Unit :=
  addEdgeDU (addEdgeDU (addEdgeDU (addEdgeDU (addEdgeDU
    (addNode (addNode (addNode (addNode (addNode
      (MtxGraph.empty Unit) ()).2 ()).2 ()).2 ()).2 ()).2
    1 0) 0 2) 2 1) 0 3) 3 4

/-- C8: in the label vector returned by Tarjan's sccs() (the low array after
the driver loop), two nodes receive the same final label iff they are
mutually reachable (same strongly connected component), and each label is
the discovery index of that component's root, i.e. of its first-discovered
member; on the directed graph with edges b→a, a→c, c→b, a→d, d→e — built
both as a list graph and as a matrix graph — sccs() yields the labels
[1, 1, 1, 4, 5]: exactly 3 distinct labels, with a, b, c sharing one label
and d and e each having their own. -/
theorem c8_tarjan_scc_labels :
    (∀ (succs : Nat → List Nat) (n : Nat), (∀ a b, b ∈ succs a → b < n) →
      (∀ i j, i < n → j < n →
        ((tarjanSccs succs n).getD i 0 = (tarjanSccs succs n).getD j 0 ↔
          SameSCC succs i j)) ∧
      (∀ i, i < n → ∃ r, r < n ∧ SameSCC succs r i ∧
        tIds (tarjanRun succs n) r =
          (((tarjanSccs succs n).getD i 0 : Nat) : Int) ∧
        (∀ z, z < n → SameSCC succs z i →
          tIds (tarjanRun succs n) r ≤ tIds (tarjanRun succs n) z))) ∧
    sccsList c8lg = [1, 1, 1, 4, 5] ∧ (sccsList c8lg).dedup.length = 3 ∧
    sccsMtx c8mg = [1, 1, 1, 4, 5] ∧ (sccsMtx c8mg).dedup.length = 3 := by
  refine ⟨tarjanSccs_spec, ?_, ?_, ?_, ?_⟩ <;> decide

/-- Witness: the general part of C8 applied to the concrete list graph, with
its successor-bound hypothesis discharged there. -/
theorem c8_witness :
    (∀ a b, b ∈ listSuccs c8lg a → b < 5) ∧
      ((tarjanSccs (listSuccs c8lg) 5).getD 0 0 =
          (tarjanSccs (listSuccs c8lg) 5).getD 1 0 ↔
        SameSCC (listSuccs c8lg) 0 1) := by
  have hwf : ListWf c8lg := by unfold ListWf; decide
  have hlen : c8lg.nodes.length = 5 := by decide
  have hbound : ∀ a b, b ∈ listSuccs c8lg a → b < 5 := by
    intro a b hb
    have h1 := listSuccs_lt hwf hb
    omega
  exact ⟨hbound,
    (c8_tarjan_scc_labels.1 (listSuccs c8lg) 5 hbound).1 0 1 (by omega)
      (by omega)⟩

end GraphStuff
